import Mathlib

/-!
Verification of the core of `hamilton.c` (Hidato/Numbrix-style "Hamilton"
puzzles): the random Hamiltonian-path sampler, the gap model, the
constraint-propagation rules, the recursive backtracking solver and the
puzzle generator.

The definitions below are a shallow embedding of the C code.  Grids are
row-major `List Nat` values (`0` = blank); coordinates are `Nat` with the C
sentinel `NO_COORD = 255` kept as a plain number, because the C code really
does compute distances and comparisons on the sentinel value.  C `int`
parameters that are meaningfully negative (`max_gap_length`,
`max_difficulty`, `steps_limit`) are `Int`.  Loops whose termination is not
structural take an explicit fuel argument; running out of fuel yields
`none`, which is distinct from every result the C code can produce, so any
`some` result of a fueled function is a faithful run of the C code.
C `assert` failures are likewise modelled as `none`.
-/

/-- `NO_COORD` from hamilton.c: the sentinel coordinate value. -/
def NO_COORD : Nat := 255

/-- `SHUFFLE_FACTOR` from hamilton.c. -/
def SHUFFLE_FACTOR : Nat := 5

/-- `location_t` from hamilton.c: a square on the grid given by x,y
coordinates (or the `NO_COORD` sentinel pair). -/
structure location_t where
  x : Nat
  y : Nat
  deriving DecidableEq, Repr, Inhabited

/-- `manhattan_distance` from hamilton.c. -/
def manhattan_distance (x1 y1 x2 y2 : Nat) : Nat :=
  Nat.dist x1 x2 + Nat.dist y1 y2

/-- `chebyshev_distance` from hamilton.c. -/
def chebyshev_distance (x1 y1 x2 y2 : Nat) : Nat :=
  max (Nat.dist x1 x2) (Nat.dist y1 y2)

/-- `distance` from hamilton.c: Manhattan distance without diagonals,
Chebyshev distance with diagonals. -/
def distance (x1 y1 x2 y2 : Nat) (diagonal : Bool) : Nat :=
  if diagonal then chebyshev_distance x1 y1 x2 y2
  else manhattan_distance x1 y1 x2 y2

/-- `reverse_locations` from hamilton.c, generalized as in the C code to
reversing the first `n` entries of the list (the callers pass either the
whole length or a prefix length). -/
def reverse_locations (l : List location_t) (n : Nat) : List location_t :=
  (l.take n).reverse ++ l.drop n

/-- `find_location` from hamilton.c: index of the first list entry with the
given coordinates. -/
def find_location (l : List location_t) (x y : Nat) : Nat :=
  l.findIdx (fun c => c.x == x && c.y == y)

/-- `simple_hampath` from hamilton.c: the boustrophedon (row-zigzag) path;
even rows run left to right, odd rows right to left. -/
def simple_hampath (w h : Nat) : List location_t :=
  (List.range h).flatMap (fun y =>
    if y % 2 = 0 then (List.range w).map (fun x => ⟨x, y⟩)
    else (List.range w).reverse.map (fun x => ⟨x, y⟩))

/-- `get_neighbors_except` from hamilton.c: in-bound neighbors of `cursor`
(in the C enumeration order) with the `except` location removed. -/
def get_neighbors_except (cursor except : location_t) (w h : Nat)
    (diagonal : Bool) : List location_t :=
  let cands : List location_t :=
    (if 1 ≤ cursor.y then [⟨cursor.x, cursor.y - 1⟩] else []) ++
    (if cursor.y + 1 < h then [⟨cursor.x, cursor.y + 1⟩] else []) ++
    (if 1 ≤ cursor.x then [⟨cursor.x - 1, cursor.y⟩] else []) ++
    (if cursor.x + 1 < w then [⟨cursor.x + 1, cursor.y⟩] else []) ++
    (if diagonal then
      (if 1 ≤ cursor.y ∧ 1 ≤ cursor.x then [⟨cursor.x - 1, cursor.y - 1⟩] else []) ++
      (if cursor.y + 1 < h ∧ 1 ≤ cursor.x then [⟨cursor.x - 1, cursor.y + 1⟩] else []) ++
      (if 1 ≤ cursor.y ∧ cursor.x + 1 < w then [⟨cursor.x + 1, cursor.y - 1⟩] else []) ++
      (if cursor.y + 1 < h ∧ cursor.x + 1 < w then [⟨cursor.x + 1, cursor.y + 1⟩] else [])
    else [])
  cands.filter (fun c => c ≠ except)

/-- Modelled from the spec: the injected randomness source of §6, an
infinite sequence of raw draws plus a cursor.  `random_upto`/`next_below`
reduces a raw draw modulo the bound, so every possible sequence of uniform
values in `[0, n)` is realized by some `seq`. -/
structure random_state where
  seq : Nat → Nat
  idx : Nat

/-- Modelled from the spec: `next_below(n)` of §6 (the collection's
`random_upto`): a value in `[0, n)` plus the advanced state. -/
def random_upto (rs : random_state) (n : Nat) : Nat × random_state :=
  (rs.seq rs.idx % n, ⟨rs.seq, rs.idx + 1⟩)

/-- `random_hampath` from hamilton.c: start from `simple_hampath` and apply
`2 * SHUFFLE_FACTOR * area` shuffle steps, reversing the whole path at the
midpoint.  Each step reverses the path prefix up to a randomly chosen
neighbor of the path head that is not the head's current successor. -/
def random_hampath (rs : random_state) (w h : Nat) (diagonal : Bool) :
    List location_t × random_state :=
  let area := w * h
  (List.range (2 * SHUFFLE_FACTOR * area)).foldl
    (fun (acc : List location_t × random_state) i =>
      let path := acc.1
      let rs := acc.2
      let path := if i = SHUFFLE_FACTOR * area then reverse_locations path path.length else path
      let neighbors := get_neighbors_except (path.getD 0 default) (path.getD 1 default) w h diagonal
      let nrs := random_upto rs neighbors.length
      let b := neighbors.getD nrs.1 default
      let index := find_location path b.x b.y
      (reverse_locations path index, nrs.2))
    (simple_hampath w h, rs)

/-- `path_to_grid` from hamilton.c: the cell holding path position `i` gets
number `i + 1`. -/
def path_to_grid (path : List location_t) (w h : Nat) : List Nat :=
  (List.range path.length).foldl
    (fun g i =>
      let loc := path.getD i default
      g.set (loc.y * w + loc.x) (i + 1))
    (List.replicate (w * h) 0)

/-- `compute_number_to_location_map` from hamilton.c: list of length
`area + 1`; entry `n` is the location of number `n` on the grid, or the
`NO_COORD` pair when `n` is absent.  Cells are scanned row-major, so for a
duplicated number the last occurrence wins, exactly as in C. -/
def compute_number_to_location_map (grid : List Nat) (w h : Nat) : List location_t :=
  let area := w * h
  (List.range h).foldl
    (fun m y =>
      (List.range w).foldl
        (fun m x =>
          let clue := grid.getD (y * w + x) 0
          if 0 < clue then m.set clue ⟨x, y⟩ else m)
        m)
    (List.replicate (area + 1) (⟨NO_COORD, NO_COORD⟩ : location_t))

/-- `gap_t` from hamilton.c: a run of missing numbers strictly between `n1`
and `n2`, with anchor locations `l1`, `l2` (the `NO_COORD` pair for an
open-ended extremity). -/
structure gap_t where
  n1 : Nat
  n2 : Nat
  l1 : location_t
  l2 : location_t
  deriving DecidableEq, Repr, Inhabited

/-- One scan step of the `compute_gaps` loop body: close the pending gap
when `i` is present and `i - 1` is absent, then open a new gap when `i` is
present and `i + 1` is absent. -/
def compute_gaps_step (number_map : List location_t) (first last : Nat)
    (st : List gap_t × Nat) (i : Nat) : List gap_t × Nat :=
  let gaps := st.1
  let longest := st.2
  let loc := number_map.getD i default
  let st1 : List gap_t × Nat :=
    if first < i ∧ loc.x ≠ NO_COORD ∧ (number_map.getD (i - 1) default).x = NO_COORD then
      match gaps.getLast? with
      | some gp => (gaps.dropLast ++ [{ gp with n2 := i, l2 := loc }], max longest (i - gp.n1 - 1))
      | none => (gaps, longest)
    else (gaps, longest)
  if i < last ∧ loc.x ≠ NO_COORD ∧ (number_map.getD (i + 1) default).x = NO_COORD then
    (st1.1 ++ [{ n1 := i, l1 := loc, n2 := 0, l2 := ⟨NO_COORD, NO_COORD⟩ }], st1.2)
  else st1

/-- `compute_gaps` from hamilton.c: the ordered gap list of a grid plus the
longest gap length.  `none` models the C assertion failure on a grid with
no numbers at all. -/
def compute_gaps (grid : List Nat) (w h : Nat) : Option (List gap_t × Nat) :=
  let area := w * h
  let number_map := compute_number_to_location_map grid w h
  match (List.range' 1 area).find? (fun i => (number_map.getD i default).x ≠ NO_COORD) with
  | none => none
  | some first =>
    match (List.range' first (area + 1 - first)).reverse.find?
        (fun i => (number_map.getD i default).x ≠ NO_COORD) with
    | none => none
    | some last =>
      let st0 : List gap_t × Nat :=
        if first ≠ 1 then
          let loc := number_map.getD first default
          ([{ n1 := 0, l1 := ⟨NO_COORD, NO_COORD⟩, n2 := first, l2 := loc }], max 0 (first - 1))
        else ([], 0)
      let st := (List.range' first (last + 1 - first)).foldl
        (compute_gaps_step number_map first last) st0
      if last ≠ area then
        let loc := number_map.getD last default
        some (st.1 ++ [{ n1 := last, l1 := loc, n2 := area + 1, l2 := ⟨NO_COORD, NO_COORD⟩ }],
              max st.2 (area - last))
      else some st

/-- `solver_state_t` from hamilton.c. -/
structure solver_state_t where
  w : Nat
  h : Nat
  diagonal : Bool
  steps_limit : Int
  grid : List Nat
  gaps : List gap_t
  deriving Repr, Inhabited

/-- `init_solver_state` from hamilton.c (also returns the longest gap
length). -/
def init_solver_state (grid : List Nat) (w h : Nat) (diagonal : Bool)
    (steps_limit : Int) : Option (solver_state_t × Nat) :=
  match compute_gaps grid w h with
  | none => none
  | some (gaps, longest) => some (⟨w, h, diagonal, steps_limit, grid, gaps⟩, longest)

/-- The scanning core of `find_only_move` from hamilton.c: walk the
candidate squares; remember the first empty one; report failure (`none`) as
soon as a second empty square shows up, or if none shows up at all. -/
def find_only_move_go (grid : List Nat) (w : Nat) :
    List location_t → Option location_t → Option location_t
  | [], acc => acc
  | c :: cs, acc =>
    if grid.getD (c.y * w + c.x) 0 = 0 then
      match acc with
      | some _ => none
      | none => find_only_move_go grid w cs (some c)
    else find_only_move_go grid w cs acc

/-- `find_only_move` from hamilton.c: the unique empty neighbor square of
`(x, y)`, if there is exactly one. -/
def find_only_move (grid : List Nat) (w h : Nat) (diagonal : Bool) (x y : Nat) :
    Option location_t :=
  let cands : List location_t :=
    (if 1 ≤ x then [⟨x - 1, y⟩] else []) ++
    (if x + 1 < w then [⟨x + 1, y⟩] else []) ++
    (if 1 ≤ y then [⟨x, y - 1⟩] else []) ++
    (if y + 1 < h then [⟨x, y + 1⟩] else []) ++
    (if diagonal then
      (if 1 ≤ x ∧ 1 ≤ y then [⟨x - 1, y - 1⟩] else []) ++
      (if x + 1 < w ∧ 1 ≤ y then [⟨x + 1, y - 1⟩] else []) ++
      (if 1 ≤ x ∧ y + 1 < h then [⟨x - 1, y + 1⟩] else []) ++
      (if x + 1 < w ∧ y + 1 < h then [⟨x + 1, y + 1⟩] else [])
    else [])
  find_only_move_go grid w cands none

/-- `check_blocked_number_helper` from hamilton.c: 1 if the square is
available for number `n` (empty or holding `n - 1` or `n + 1`), else 0. -/
def check_blocked_number_helper (grid : List Nat) (w x y n : Nat) : Nat :=
  let o := grid.getD (y * w + x) 0
  if o = 0 ∨ o = n - 1 ∨ o = n + 1 then 1 else 0

/-- `check_blocked_number` from hamilton.c: true when the number at
`(x, y)` has fewer than two available neighbor squares.  Note the C code
applies the `< 2` test to every number, with no special case for the path
endpoints 1 and `area`. -/
def check_blocked_number (grid : List Nat) (w h : Nat) (diagonal : Bool) (x y : Nat) : Bool :=
  let n := grid.getD (y * w + x) 0
  let available :=
    (if 1 ≤ x then check_blocked_number_helper grid w (x - 1) y n else 0) +
    (if x + 1 < w then check_blocked_number_helper grid w (x + 1) y n else 0) +
    (if 1 ≤ y then check_blocked_number_helper grid w x (y - 1) n else 0) +
    (if y + 1 < h then check_blocked_number_helper grid w x (y + 1) n else 0) +
    (if diagonal then
      (if 1 ≤ x ∧ 1 ≤ y then check_blocked_number_helper grid w (x - 1) (y - 1) n else 0) +
      (if x + 1 < w ∧ 1 ≤ y then check_blocked_number_helper grid w (x + 1) (y - 1) n else 0) +
      (if 1 ≤ x ∧ y + 1 < h then check_blocked_number_helper grid w (x - 1) (y + 1) n else 0) +
      (if x + 1 < w ∧ y + 1 < h then check_blocked_number_helper grid w (x + 1) (y + 1) n else 0)
    else 0)
  available < 2

/-- `check_blocked_numbers_nearby` from hamilton.c: scan every gap's `l2`
anchor; if it is a real location adjacent to `(x, y)`, test it with
`check_blocked_number`. -/
def check_blocked_numbers_nearby (state : solver_state_t) (x y : Nat) : Bool :=
  state.gaps.any (fun gap =>
    gap.l2.x ≠ NO_COORD &&
    distance gap.l2.x gap.l2.y x y state.diagonal == 1 &&
    check_blocked_number state.grid state.w state.h state.diagonal gap.l2.x gap.l2.y)

/-- `place_number_l1` from hamilton.c: place `n1 + 1` at `(x, y)`, raising
the low end of gap `gap_index` (removing the gap if it completes); `none`
when the distance check or the blocked-number check declares the state
unsolvable. -/
def place_number_l1 (state : solver_state_t) (gap_index x y : Nat) : Option solver_state_t :=
  let w := state.w
  let gap := state.gaps.getD gap_index default
  let n := gap.n1 + 1
  if gap.l2.x ≠ NO_COORD ∧ gap.n2 - gap.n1 - 1 < distance x y gap.l2.x gap.l2.y state.diagonal then
    none
  else
    let st := { state with grid := state.grid.set (y * w + x) n }
    if check_blocked_numbers_nearby st x y then none
    else if n + 1 = gap.n2 then some { st with gaps := st.gaps.eraseIdx gap_index }
    else some { st with gaps := st.gaps.set gap_index { gap with n1 := n, l1 := ⟨x, y⟩ } }

/-- `place_number_l2` from hamilton.c: place `n2 - 1` at `(x, y)`, lowering
the high end of gap `gap_index`. -/
def place_number_l2 (state : solver_state_t) (gap_index x y : Nat) : Option solver_state_t :=
  let w := state.w
  let gap := state.gaps.getD gap_index default
  let n := gap.n2 - 1
  if gap.l1.x ≠ NO_COORD ∧ gap.n2 - gap.n1 - 1 < distance x y gap.l1.x gap.l1.y state.diagonal then
    none
  else
    let st := { state with grid := state.grid.set (y * w + x) n }
    if check_blocked_numbers_nearby st x y then none
    else if n - 1 = gap.n1 then some { st with gaps := st.gaps.eraseIdx gap_index }
    else some { st with gaps := st.gaps.set gap_index { gap with n2 := n, l2 := ⟨x, y⟩ } }

/-- `move_result_t` from hamilton.c; `moved` carries the updated state
(the C code mutates in place). -/
inductive move_result_t where
  | unsolvable : move_result_t
  | moved : solver_state_t → move_result_t
  | didnt_move : move_result_t
  deriving Repr

/-- `do_only_move` from hamilton.c: try the only-move rule at the `l1`
anchor of gap `g`, then at its `l2` anchor. -/
def do_only_move (state : solver_state_t) (g : Nat) : move_result_t :=
  let gap := state.gaps.getD g default
  match (if gap.l1.x ≠ NO_COORD then
      find_only_move state.grid state.w state.h state.diagonal gap.l1.x gap.l1.y
    else none) with
  | some loc =>
    match place_number_l1 state g loc.x loc.y with
    | some st => .moved st
    | none => .unsolvable
  | none =>
    match (if gap.l2.x ≠ NO_COORD then
        find_only_move state.grid state.w state.h state.diagonal gap.l2.x gap.l2.y
      else none) with
    | some loc =>
      match place_number_l2 state g loc.x loc.y with
      | some st => .moved st
      | none => .unsolvable
    | none => .didnt_move

/-- The fill loop of `do_straight_path` from hamilton.c: step `cnt` times
from `(x, y)` by `(sx, sy)`, writing `n, n + 1, ...`; fail if a square is
occupied or a write trips the blocked-number scan; remove gap `g` at the
end. -/
def straight_fill (state : solver_state_t) (g : Nat) (x y sx sy : Int) (n cnt : Nat) :
    move_result_t :=
  match cnt with
  | 0 => .moved { state with gaps := state.gaps.eraseIdx g }
  | cnt + 1 =>
    let x := x + sx
    let y := y + sy
    let idx := (y * state.w + x).toNat
    if state.grid.getD idx 0 ≠ 0 then .unsolvable
    else
      let st := { state with grid := state.grid.set idx n }
      if check_blocked_numbers_nearby st x.toNat y.toNat then .unsolvable
      else straight_fill st g x y sx sy (n + 1) cnt

/-- `do_straight_path` from hamilton.c: if the two anchors of gap `g` are
exactly colinear (row/column aligned without diagonals, exactly diagonal
with them) and their straight-line distance equals the numeric span of the
gap, fill the connecting line.  (`n2 - n1` is `Nat` subtraction; every
reachable gap has `n1 < n2`.) -/
def do_straight_path (state : solver_state_t) (g : Nat) : move_result_t :=
  let gap := state.gaps.getD g default
  if state.diagonal then
    let dx : Int := (gap.l2.x : Int) - (gap.l1.x : Int)
    let dy : Int := (gap.l2.y : Int) - (gap.l1.y : Int)
    let adx := dx.natAbs
    if dx = dy ∨ dx = -dy then
      if gap.n2 - gap.n1 ≠ adx then .didnt_move
      else
        let sx : Int := if 0 < dx then 1 else -1
        let sy : Int := if 0 < dy then 1 else -1
        straight_fill state g (gap.l1.x : Int) (gap.l1.y : Int) sx sy (gap.n1 + 1)
          (gap.n2 - gap.n1 - 1)
    else .didnt_move
  else
    if gap.l1.x = gap.l2.x then
      if gap.n2 - gap.n1 ≠ Nat.dist gap.l2.y gap.l1.y then .didnt_move
      else
        let sy : Int := if (gap.l1.y : Int) < (gap.l2.y : Int) then 1 else -1
        straight_fill state g (gap.l1.x : Int) (gap.l1.y : Int) 0 sy (gap.n1 + 1)
          (gap.n2 - gap.n1 - 1)
    else if gap.l1.y = gap.l2.y then
      if gap.n2 - gap.n1 ≠ Nat.dist gap.l2.x gap.l1.x then .didnt_move
      else
        let sx : Int := if (gap.l1.x : Int) < (gap.l2.x : Int) then 1 else -1
        straight_fill state g (gap.l1.x : Int) (gap.l1.y : Int) sx 0 (gap.n1 + 1)
          (gap.n2 - gap.n1 - 1)
    else .didnt_move

/-- The loop of `do_necessary_moves` from hamilton.c, with explicit fuel:
`g` is the current gap index, `changed` records whether the current pass
made a move.  `none` = out of fuel, `some none` = unsolvable,
`some (some st)` = fixed point reached. -/
def do_necessary_moves_go (fuel : Nat) (state : solver_state_t) (g : Nat) (changed : Bool) :
    Option (Option solver_state_t) :=
  match fuel with
  | 0 => none
  | fuel + 1 =>
    if g < state.gaps.length then
      match do_straight_path state g with
      | .unsolvable => some none
      | .moved st => do_necessary_moves_go fuel st g true
      | .didnt_move =>
        match do_only_move state g with
        | .unsolvable => some none
        | .moved st => do_necessary_moves_go fuel st g true
        | .didnt_move => do_necessary_moves_go fuel state (g + 1) changed
    else
      if changed then do_necessary_moves_go fuel state 0 false
      else some (some state)

/-- `do_necessary_moves` from hamilton.c: run the straight-path and
only-move rules over all gaps until a full pass changes nothing
(`some (some st)`), or a rule proves the state unsolvable (`some none`). -/
def do_necessary_moves (fuel : Nat) (state : solver_state_t) : Option (Option solver_state_t) :=
  do_necessary_moves_go fuel state 0 false

/-- The neighbor-candidate order used by `do_recursive_solve` from
hamilton.c (identical for the `l1` and `l2` branches). -/
def recursive_step_candidates (w h : Nat) (diagonal : Bool) (x y : Nat) : List location_t :=
  (if 1 ≤ x then [⟨x - 1, y⟩] else []) ++
  (if 1 ≤ y then [⟨x, y - 1⟩] else []) ++
  (if x + 1 < w then [⟨x + 1, y⟩] else []) ++
  (if y + 1 < h then [⟨x, y + 1⟩] else []) ++
  (if diagonal then
    (if 1 ≤ x ∧ 1 ≤ y then [⟨x - 1, y - 1⟩] else []) ++
    (if 1 ≤ x ∧ y + 1 < h then [⟨x - 1, y + 1⟩] else []) ++
    (if x + 1 < w ∧ 1 ≤ y then [⟨x + 1, y - 1⟩] else []) ++
    (if x + 1 < w ∧ y + 1 < h then [⟨x + 1, y + 1⟩] else [])
  else [])

/-- One candidate step of the `do_recursive_solve` candidate chain
(`do_recursive_solve_step_l1` / `_l2` from hamilton.c): skip occupied
squares and failed placements; otherwise clone the state, place the forced
number and run the given recursive continuation.  The accumulator carries
the threaded out-parameters; once `finished` is set it passes through
unchanged (the C code returns at that point). -/
def do_recursive_solve_step (recur : solver_state_t → Option (List Nat) → Bool → Nat →
      Option (Bool × Option (List Nat) × Bool × Nat))
    (state : solver_state_t) (use_l1 : Bool)
    (acc : Option (Bool × Option (List Nat) × Bool × Nat)) (c : location_t) :
    Option (Bool × Option (List Nat) × Bool × Nat) :=
  match acc with
  | none => none
  | some (finished, solution, multiple, steps) =>
    if finished then acc
    else if state.grid.getD (c.y * state.w + c.x) 0 ≠ 0 then acc
    else
      match (if use_l1 then place_number_l1 state 0 c.x c.y else place_number_l2 state 0 c.x c.y) with
      | none => acc
      | some st =>
        match recur st solution multiple steps with
        | none => none
        | some (finished, solution, multiple, steps) =>
          if finished then some (true, solution, multiple, steps)
          else some (false, solution, multiple, steps)

/-- `do_recursive_solve` from hamilton.c.  The C out-parameters become
threaded values: `solution` (the recorded solution grid), `track_multiple`
(whether the C `multiple` pointer is non-NULL), `multiple` (its value) and
`steps` (the step counter).  The result is `none` on fuel exhaustion,
otherwise `some (finished, solution, multiple, steps)`. -/
def do_recursive_solve (fuel : Nat) (state : solver_state_t) (solution : Option (List Nat))
    (track_multiple multiple : Bool) (steps : Nat) :
    Option (Bool × Option (List Nat) × Bool × Nat) :=
  match fuel with
  | 0 => none
  | fuel + 1 =>
    match do_necessary_moves fuel state with
    | none => none
    | some none => some (false, solution, multiple, steps)
    | some (some st) =>
      let give_up := 0 < st.steps_limit ∧ st.steps_limit < (steps : Int)
      let steps := if 0 < st.steps_limit then steps + 1 else steps
      if give_up then some (true, solution, multiple, steps)
      else if st.gaps.length = 0 then
        match solution with
        | some _ => some (true, solution, true, steps)
        | none => some (!track_multiple, some st.grid, multiple, steps)
      else
        let gap := st.gaps.getD 0 default
        let use_l1 := gap.l1.x ≠ NO_COORD
        let anchor := if use_l1 then gap.l1 else gap.l2
        (recursive_step_candidates st.w st.h st.diagonal anchor.x anchor.y).foldl
          (do_recursive_solve_step
            (fun s sol mult stp => do_recursive_solve fuel s sol track_multiple mult stp)
            st use_l1)
          (some (false, solution, multiple, steps))

/-- The sort key of `gap_compare` / `gap_compare_diag` from hamilton.c:
anchor-to-anchor distance (computed on the raw coordinates, sentinels
included, exactly as the C comparators do). -/
def gap_distance_key (diagonal : Bool) (g : gap_t) : Nat :=
  if diagonal then chebyshev_distance g.l1.x g.l1.y g.l2.x g.l2.y
  else manhattan_distance g.l1.x g.l1.y g.l2.x g.l2.y

/-- The `qsort` call of `solver` from hamilton.c, modelled as a (stable)
insertion sort with the same comparison key. -/
def sort_gaps (diagonal : Bool) (gaps : List gap_t) : List gap_t :=
  List.insertionSort (fun a b => gap_distance_key diagonal a ≤ gap_distance_key diagonal b) gaps

/-- `DIFF_EASY` from hamilton.c. -/
def DIFF_EASY : Int := 0

/-- `DIFF_HARD` from hamilton.c. -/
def DIFF_HARD : Int := 1

/-- `solver` from hamilton.c: `some (some sol)` = solution found,
`some none` = the C `FALSE` result, `none` = out of fuel (or the C
assertion failure on a grid without numbers). -/
def solver (grid : List Nat) (w h : Nat) (diagonal : Bool)
    (max_gap_length max_difficulty steps_limit : Int) (unique_only : Bool)
    (fuel : Nat) : Option (Option (List Nat)) :=
  match init_solver_state grid w h diagonal steps_limit with
  | none => none
  | some (state, longest_gap_length) =>
    if 0 < max_gap_length ∧ max_gap_length < (longest_gap_length : Int) then some none
    else if max_difficulty = DIFF_EASY then
      match do_necessary_moves fuel state with
      | none => none
      | some none => some none
      | some (some st) =>
        if st.gaps.length = 0 then some (some st.grid) else some none
    else
      let state := { state with gaps := sort_gaps diagonal state.gaps }
      match do_recursive_solve fuel state none unique_only false 0 with
      | none => none
      | some (_, rsolution, multiple, _) =>
        if multiple then some none
        else
          match rsolution with
          | some s => some (some s)
          | none => some none

/-- `PATT_NONE` from hamilton.c. -/
def PATT_NONE : Nat := 0

/-- `PATT_ROT2` from hamilton.c. -/
def PATT_ROT2 : Nat := 1

/-- `PATT_RING` from hamilton.c. -/
def PATT_RING : Nat := 2

/-- `PATT_BORDER` from hamilton.c. -/
def PATT_BORDER : Nat := 3

/-- `MAX_GAP_LENGTH` from hamilton.c. -/
def MAX_GAP_LENGTH : Nat := 9

/-- `game_params` from hamilton.c (the fields the generator reads). -/
structure game_params where
  w : Nat
  h : Nat
  diagonal : Bool
  keep_ends : Bool
  pattern : Nat
  difficulty : Int
  deriving Repr

/-- The recursion of the spec-modelled `shuffle` below, with the list
length as structural fuel (each round drops exactly one element). -/
def shuffle_go : Nat → List Nat → random_state → List Nat × random_state
  | 0, l, rs => (l, rs)
  | fuel + 1, l, rs =>
    if l.length = 0 then (l, rs)
    else
      let nrs := random_upto rs l.length
      let rest := shuffle_go fuel (l.eraseIdx nrs.1) nrs.2
      (l.getD nrs.1 0 :: rest.1, rest.2)

/-- Modelled from the spec: the collection's `shuffle` helper (not part of
this repository), per §4.5/§6 a uniformly shuffled reordering of the list
driven by `next_below` draws: repeatedly draw an index below the remaining
length and move that element to the front of the result. -/
def shuffle (l : List Nat) (rs : random_state) : List Nat × random_state :=
  shuffle_go l.length l rs

/-- One clue-removal attempt of `generate_puzzle` from hamilton.c (the
`PATT_NONE` / `PATT_ROT2` loop body): try blanking the clue (and, for the
symmetric pattern, its 180-degree partner); keep the removal only if the
solver still proves unique solvability, otherwise restore. -/
def generate_removal_step (params : game_params) (path : List location_t)
    (max_gap_length difficulty steps_limit : Int) (sfuel : Nat)
    (grid : List Nat) (clue : Nat) : List Nat :=
  let w := params.w
  let h := params.h
  let area := w * h
  let loc := path.getD (clue - 1) default
  let rx := loc.x
  let ry := loc.y
  if params.keep_ends ∧ (clue = 1 ∨ clue = area) then grid
  else
    let sclue := if params.pattern = PATT_ROT2 then grid.getD ((h - 1 - ry) * w + (w - 1 - rx)) 0 else 0
    if params.pattern = PATT_ROT2 ∧ params.keep_ends ∧ (sclue = 1 ∨ sclue = area) then grid
    else
      let grid2 := if params.pattern = PATT_ROT2 then grid.set ((h - 1 - ry) * w + (w - 1 - rx)) 0 else grid
      let grid2 := grid2.set (ry * w + rx) 0
      match solver grid2 w h params.diagonal max_gap_length difficulty steps_limit true sfuel with
      | some (some _) => grid2
      | _ =>
        let grid3 := grid2.set (ry * w + rx) clue
        if params.pattern = PATT_ROT2 then grid3.set ((h - 1 - ry) * w + (w - 1 - rx)) sclue
        else grid3

/-- The `while (TRUE)` loop of `generate_puzzle` from hamilton.c, with
fuel for the ring/border resampling retries; `sfuel` is the fuel handed to
each solver call. -/
def generate_puzzle_go (params : game_params) (max_gap_length steps_limit : Int)
    (sfuel : Nat) (rs : random_state) : Nat → Option (List Nat)
  | 0 => none
  | fuel + 1 =>
    let w := params.w
    let h := params.h
    let area := w * h
    let prs := random_hampath rs w h params.diagonal
    let path := prs.1
    let rs := prs.2
    let grid := path_to_grid path w h
    if params.pattern = PATT_RING then
      let grid := (List.range area).foldl
        (fun g i =>
          let x := i % w
          let y := i / w
          if x = 0 ∨ x = w - 1 ∨ y = 0 ∨ y = h - 1
              ∨ (x ≠ 1 ∧ x ≠ w - 2 ∧ y ≠ 1 ∧ y ≠ h - 2) then g.set i 0 else g)
        grid
      match solver grid w h params.diagonal max_gap_length params.difficulty steps_limit true sfuel with
      | some (some _) => some grid
      | _ => generate_puzzle_go params max_gap_length steps_limit sfuel rs fuel
    else if params.pattern = PATT_BORDER then
      let grid := (List.range area).foldl
        (fun g i =>
          let x := i % w
          let y := i / w
          if (x ≠ 0 ∧ x ≠ w - 1 ∧ y ≠ 0 ∧ y ≠ h - 1) ∨ (x + y) % 2 = 1 then g.set i 0 else g)
        grid
      let border_max_gap : Int := (max w h : Int) + (if params.difficulty = DIFF_HARD then 4 else 0)
      match solver grid w h params.diagonal border_max_gap DIFF_HARD steps_limit true sfuel with
      | some (some _) => some grid
      | _ => generate_puzzle_go params max_gap_length steps_limit sfuel rs fuel
    else
      let clues_length := if params.pattern = PATT_ROT2 then (area + 1) / 2 else area
      let srs := shuffle (grid.take clues_length) rs
      some (srs.1.foldl
        (generate_removal_step params path max_gap_length params.difficulty steps_limit sfuel)
        grid)

/-- `generate_puzzle` from hamilton.c: sample a path, then remove clues (or
apply the ring/border mask and retry until the solver accepts). -/
def generate_puzzle (params : game_params) (rs : random_state) (sfuel fuel : Nat) :
    Option (List Nat) :=
  let steps_limit : Int :=
    if params.diagonal then
      if params.pattern = PATT_RING then 1000
      else if params.pattern = PATT_BORDER then 100
      else 80000
    else
      if params.pattern = PATT_NONE then 300000
      else if params.pattern = PATT_ROT2 then 800000
      else -1
  generate_puzzle_go params (MAX_GAP_LENGTH : Int) steps_limit sfuel rs fuel

/-!
## Specification-side notions

These definitions follow the wording of the spec (data model §3, testable
properties §8); they are compared against the code-derived definitions
above.
-/

/-- Adjacency of two cells given by row-major indices, under the active
adjacency mode (4-neighbor without diagonals, 8-neighbor with them). -/
def cell_adjacent (w : Nat) (diagonal : Bool) (i j : Nat) : Prop :=
  distance (i % w) (i / w) (j % w) (j / w) diagonal = 1

instance (w : Nat) (diagonal : Bool) (i j : Nat) : Decidable (cell_adjacent w diagonal i j) := by
  unfold cell_adjacent; infer_instance

/-- The number `n` occupies exactly one cell of `sol` (a grid of `area`
cells). -/
def contains_exactly_once (sol : List Nat) (area n : Nat) : Prop :=
  ∃ i, i < area ∧ sol.getD i 0 = n ∧ ∀ j, j < area → sol.getD j 0 = n → j = i

instance (sol : List Nat) (area n : Nat) : Decidable (contains_exactly_once sol area n) := by
  unfold contains_exactly_once; infer_instance

/-- Any two cells holding consecutive nonzero numbers are adjacent under
the active adjacency mode. -/
def consecutive_adjacent (sol : List Nat) (w h : Nat) (diagonal : Bool) : Prop :=
  ∀ i, i < w * h → ∀ j, j < w * h → 1 ≤ sol.getD i 0 →
    sol.getD j 0 = sol.getD i 0 + 1 → cell_adjacent w diagonal i j

instance (sol : List Nat) (w h : Nat) (diagonal : Bool) :
    Decidable (consecutive_adjacent sol w h diagonal) := by
  unfold consecutive_adjacent; infer_instance

/-- `sol` is a completion of the partial grid `g` (spec §8): it has the
right size, preserves every clue of `g`, holds each number `1..area`
exactly once, and places every consecutive pair on adjacent cells. -/
def IsCompletion (g sol : List Nat) (w h : Nat) (diagonal : Bool) : Prop :=
  sol.length = w * h ∧
  (∀ i, i < w * h → g.getD i 0 ≠ 0 → sol.getD i 0 = g.getD i 0) ∧
  (∀ n, n ≤ w * h → 1 ≤ n → contains_exactly_once sol (w * h) n) ∧
  consecutive_adjacent sol w h diagonal

instance (g sol : List Nat) (w h : Nat) (diagonal : Bool) :
    Decidable (IsCompletion g sol w h diagonal) := by
  unfold IsCompletion; infer_instance

/-- The blocked-number criterion exactly as the spec states it (§4.3): a
placed number with open gaps on both sides must keep two available
neighbor squares, except the global path endpoints `1` and `area`, which
need only one; numbers without gaps on both sides are never flagged. -/
def blocked_number_claim (grid : List Nat) (w h : Nat) (diagonal : Bool) (x y : Nat) : Bool :=
  let n := grid.getD (y * w + x) 0
  let area := w * h
  let available :=
    (if 1 ≤ x then check_blocked_number_helper grid w (x - 1) y n else 0) +
    (if x + 1 < w then check_blocked_number_helper grid w (x + 1) y n else 0) +
    (if 1 ≤ y then check_blocked_number_helper grid w x (y - 1) n else 0) +
    (if y + 1 < h then check_blocked_number_helper grid w x (y + 1) n else 0) +
    (if diagonal then
      (if 1 ≤ x ∧ 1 ≤ y then check_blocked_number_helper grid w (x - 1) (y - 1) n else 0) +
      (if x + 1 < w ∧ 1 ≤ y then check_blocked_number_helper grid w (x + 1) (y - 1) n else 0) +
      (if 1 ≤ x ∧ y + 1 < h then check_blocked_number_helper grid w (x - 1) (y + 1) n else 0) +
      (if x + 1 < w ∧ y + 1 < h then check_blocked_number_helper grid w (x + 1) (y + 1) n else 0)
    else 0)
  if n = 1 ∨ n = area then available < 1
  else if !(grid.contains (n - 1)) && !(grid.contains (n + 1)) && 1 < n && n < area then
    available < 2
  else false

/-- C1 (code_bug evidence): on the 3x3 grid whose only blank is the cell
that must hold 8, the puzzle has exactly one completion, yet `solver` with
`unique_only = true`, unlimited difficulty and a generous positive step
budget returns no solution: placing the forced 8 next to the corner 9
trips `check_blocked_number` at 9, which demands two available neighbors
even for the path endpoint `area`. -/
theorem claim_C1_solver_rejects_uniquely_solvable :
    solver [9,0,7, 2,3,6, 1,4,5] 3 3 false (-1) DIFF_HARD 1000 true 10 = some none ∧
    IsCompletion [9,0,7, 2,3,6, 1,4,5] [9,8,7, 2,3,6, 1,4,5] 3 3 false ∧
    ∀ sol, IsCompletion [9,0,7, 2,3,6, 1,4,5] sol 3 3 false →
      sol = [9,8,7, 2,3,6, 1,4,5] := by
  refine ⟨by decide, by decide, ?_⟩
  rintro sol ⟨hlen, hext, honce, -⟩
  match sol, hlen with
  | [v0,v1,v2,v3,v4,v5,v6,v7,v8], _ =>
    have h0 := hext 0 (by decide) (by decide)
    have h2 := hext 2 (by decide) (by decide)
    have h3 := hext 3 (by decide) (by decide)
    have h4 := hext 4 (by decide) (by decide)
    have h5 := hext 5 (by decide) (by decide)
    have h6 := hext 6 (by decide) (by decide)
    have h7 := hext 7 (by decide) (by decide)
    have h8 := hext 8 (by decide) (by decide)
    simp only [List.getD, List.getElem?_cons_zero, List.getElem?_cons_succ,
      Option.getD_some] at h0 h2 h3 h4 h5 h6 h7 h8
    subst h0 h2 h3 h4 h5 h6 h7 h8
    obtain ⟨i, hi, hv, -⟩ := honce 8 (by decide) (by decide)
    interval_cases i <;> simp_all

/-- C2 (code_bug evidence): on the grid reached from the C1 puzzle by
placing the forced 8, the code's `check_blocked_number` flags the corner 9
(`= area`, one available neighbor holding 8) as blocked, while the
blocked-number rule as the spec states it, with its exception for the path
endpoints 1 and `area`, does not. -/
theorem claim_C2_blocked_check_lacks_endpoint_exception :
    check_blocked_number [9,8,7, 2,3,6, 1,4,5] 3 3 false 0 0 = true ∧
    blocked_number_claim [9,8,7, 2,3,6, 1,4,5] 3 3 false 0 0 = false := by
  decide

/-- C9: the 4x4 grid with clues `(2,0)=4, (3,0)=3, (1,2)=7, (3,2)=9` and
diagonals disabled is solved by `solver` with `unique_only = true`, and
the returned grid is exactly the one the spec displays. -/
theorem claim_C9_concrete_solve :
    solver [0,0,4,3, 0,0,0,0, 0,7,0,9, 0,0,0,0] 4 4 false (-1) DIFF_HARD (-1) true 100 =
      some (some [16,5,4,3, 15,6,1,2, 14,7,8,9, 13,12,11,10]) := by
  rfl

/-- C10 (counterexample): with `max_difficulty = DIFF_EASY` and
`max_gap_length = 1`, the solver rejects the 2x2 grid `[1,2,0,0]` (for
either value of `unique_only`) because of the longest-gap cutoff, even
though the propagation loop alone completes it with zero gaps remaining —
so "returns a solution iff propagation alone succeeds with zero gaps" is
false as stated. -/
theorem claim_C10_counterexample :
    solver [1,2,0,0] 2 2 false 1 DIFF_EASY (-1) true 100 = some none ∧
    solver [1,2,0,0] 2 2 false 1 DIFF_EASY (-1) false 100 = some none ∧
    init_solver_state [1,2,0,0] 2 2 false (-1) =
      some (⟨2, 2, false, -1, [1,2,0,0], [⟨2, 5, ⟨1, 0⟩, ⟨NO_COORD, NO_COORD⟩⟩]⟩, 2) ∧
    do_necessary_moves 100 ⟨2, 2, false, -1, [1,2,0,0], [⟨2, 5, ⟨1, 0⟩, ⟨NO_COORD, NO_COORD⟩⟩]⟩ =
      some (some ⟨2, 2, false, -1, [1,2,4,3], []⟩) := by
  exact ⟨rfl, rfl, rfl, rfl⟩

/-- C10 (amended): with `max_difficulty = DIFF_EASY` the solver's result
does not depend on `unique_only` (the multiple-solution search is never
entered), and it returns a solution exactly when the longest-gap cutoff
does not fire and the propagation loop alone reaches a fixed point with
zero gaps remaining. -/
theorem claim_C10_easy_mode_amended (grid : List Nat) (w h : Nat) (diagonal : Bool)
    (max_gap_length steps_limit : Int) (u1 u2 : Bool) (fuel : Nat) :
    solver grid w h diagonal max_gap_length DIFF_EASY steps_limit u1 fuel =
      solver grid w h diagonal max_gap_length DIFF_EASY steps_limit u2 fuel ∧
    (∀ s, solver grid w h diagonal max_gap_length DIFF_EASY steps_limit u1 fuel = some (some s) ↔
      ∃ state longest, init_solver_state grid w h diagonal steps_limit = some (state, longest) ∧
        ¬(0 < max_gap_length ∧ max_gap_length < (longest : Int)) ∧
        ∃ st, do_necessary_moves fuel state = some (some st) ∧ st.gaps.length = 0 ∧
          s = st.grid) := by
  unfold solver
  cases hinit : init_solver_state grid w h diagonal steps_limit with
  | none =>
    refine ⟨rfl, fun s => ?_⟩
    simp
  | some p =>
    obtain ⟨state, longest⟩ := p
    dsimp only
    by_cases hcut : 0 < max_gap_length ∧ max_gap_length < (longest : Int)
    · refine ⟨by simp [hcut], fun s => ?_⟩
      simp [hcut]
    · refine ⟨by simp [hcut], fun s => ?_⟩
      cases hnm : do_necessary_moves fuel state with
      | none => simp [hcut, hnm]
      | some r =>
        cases r with
        | none => simp [hcut, hnm]
        | some st =>
          by_cases hg : st.gaps.length = 0
          · rw [if_neg hcut]
            simp only [if_true, hnm, hg, if_pos]
            constructor
            · rintro h
              rcases Option.some_injective _ h with h
              rcases Option.some_injective _ h with h
              exact ⟨state, longest, rfl, hcut, st, hnm, hg, h.symm⟩
            · rintro ⟨st1, lg1, hpair, -, st2, hnm2, hg2, hs⟩
              rcases Option.some_injective _ hpair with h12
              rcases Prod.mk.injEq .. ▸ h12 with ⟨h1, -⟩
              cases h1
              rw [hnm] at hnm2
              rcases Option.some_injective _ hnm2 with h22
              rcases Option.some_injective _ h22 with h22
              cases h22
              rw [hs]
          · rw [if_neg hcut]
            simp only [if_true, hnm, hg, if_neg, if_false]
            constructor
            · rintro h
              exact absurd h (by simp)
            · rintro ⟨st1, lg1, hpair, -, st2, hnm2, hg2, hs⟩
              rcases Option.some_injective _ hpair with h12
              rcases Prod.mk.injEq .. ▸ h12 with ⟨h1, -⟩
              cases h1
              rw [hnm] at hnm2
              rcases Option.some_injective _ hnm2 with h22
              rcases Option.some_injective _ h22 with h22
              cases h22
              exact absurd hg2 hg

/-- Gap `g` is quiet in `s`: neither propagation rule fires on it. -/
def nm_quiet (s : solver_state_t) (g : Nat) : Prop :=
  do_straight_path s g = .didnt_move ∧ do_only_move s g = .didnt_move

/-- `s` is a propagation fixed point: no rule fires on any gap. -/
def nm_fixpoint (s : solver_state_t) : Prop :=
  ∀ g, g < s.gaps.length → nm_quiet s g

theorem nmGo_success_fixpoint (fuel : Nat) :
    ∀ s g changed s', (changed = false → ∀ g2, g2 < g → nm_quiet s g2) →
      do_necessary_moves_go fuel s g changed = some (some s') → nm_fixpoint s' := by
  induction fuel with
  | zero => intro s g changed s' hq h; simp [do_necessary_moves_go] at h
  | succ fuel ih =>
    intro s g changed s' hq h
    rw [do_necessary_moves_go] at h
    by_cases hg : g < s.gaps.length
    · rw [if_pos hg] at h
      cases hsp : do_straight_path s g with
      | unsolvable => rw [hsp] at h; exact absurd h (by simp)
      | moved st => rw [hsp] at h; exact ih st g true s' (by simp) h
      | didnt_move =>
        rw [hsp] at h
        cases hm : do_only_move s g with
        | unsolvable => rw [hm] at h; exact absurd h (by simp)
        | moved st => rw [hm] at h; exact ih st g true s' (by simp) h
        | didnt_move =>
          rw [hm] at h
          refine ih s (g + 1) changed s' ?_ h
          intro hc g2 hg2
          rcases Nat.lt_succ_iff_lt_or_eq.mp hg2 with h2 | h2
          · exact hq hc g2 h2
          · subst h2; exact ⟨hsp, hm⟩
    · rw [if_neg hg] at h
      cases changed with
      | true =>
        rw [if_pos rfl] at h
        exact ih s 0 false s' (fun _ g2 hg2 => absurd hg2 (Nat.not_lt_zero g2)) h
      | false =>
        rw [if_neg (by simp)] at h
        have hs : s = s' := by
          have := Option.some_injective _ h
          exact Option.some_injective _ this
        subst hs
        intro g2 hg2
        exact hq rfl g2 (lt_of_lt_of_le hg2 (le_of_not_lt hg))

theorem nmGo_fixpoint_self (s : solver_state_t) (hfix : nm_fixpoint s) :
    ∀ fuel g, 0 < fuel → s.gaps.length + 1 - g ≤ fuel →
      do_necessary_moves_go fuel s g false = some (some s) := by
  intro fuel
  induction fuel with
  | zero => intro g h0 _; exact absurd h0 (by omega)
  | succ fuel ih =>
    intro g _ hle
    rw [do_necessary_moves_go]
    by_cases hg : g < s.gaps.length
    · rw [if_pos hg]
      obtain ⟨hsp, hm⟩ := hfix g hg
      rw [hsp, hm]
      exact ih (g + 1) (by omega) (by omega)
    · rw [if_neg hg, if_neg (by simp)]

/-- C7: the propagation loop is idempotent — if `do_necessary_moves`
returns success on some state, running it again on the result (with any
sufficient fuel) changes neither the grid nor the gap list and again
returns success. -/
theorem claim_C7_propagation_idempotent (fuel fuel2 : Nat) (s s2 : solver_state_t)
    (h : do_necessary_moves fuel s = some (some s2))
    (hfuel : s2.gaps.length + 1 ≤ fuel2) :
    do_necessary_moves fuel2 s2 = some (some s2) := by
  have hfix : nm_fixpoint s2 :=
    nmGo_success_fixpoint fuel s 0 false s2
      (fun _ g2 hg2 => absurd hg2 (Nat.not_lt_zero g2)) h
  exact nmGo_fixpoint_self s2 hfix fuel2 0 (by omega) (by omega)

/-- C7 witness: the solver state of the 3x3 board whose only clue is 1 is
already a propagation fixed point; `do_necessary_moves` succeeds on it and
running it again returns the identical state. -/
theorem claim_C7_witness :
    (do_necessary_moves 3
        ⟨3, 3, false, -1, [1,0,0,0,0,0,0,0,0], [⟨1, 10, ⟨0, 0⟩, ⟨NO_COORD, NO_COORD⟩⟩]⟩ =
      some (some ⟨3, 3, false, -1, [1,0,0,0,0,0,0,0,0], [⟨1, 10, ⟨0, 0⟩, ⟨NO_COORD, NO_COORD⟩⟩]⟩) ∧
      (2 : Nat) ≤ 3) ∧
    do_necessary_moves 3
        ⟨3, 3, false, -1, [1,0,0,0,0,0,0,0,0], [⟨1, 10, ⟨0, 0⟩, ⟨NO_COORD, NO_COORD⟩⟩]⟩ =
      some (some ⟨3, 3, false, -1, [1,0,0,0,0,0,0,0,0], [⟨1, 10, ⟨0, 0⟩, ⟨NO_COORD, NO_COORD⟩⟩]⟩) :=
  ⟨⟨rfl, by decide⟩,
    claim_C7_propagation_idempotent 3 3
      ⟨3, 3, false, -1, [1,0,0,0,0,0,0,0,0], [⟨1, 10, ⟨0, 0⟩, ⟨NO_COORD, NO_COORD⟩⟩]⟩
      ⟨3, 3, false, -1, [1,0,0,0,0,0,0,0,0], [⟨1, 10, ⟨0, 0⟩, ⟨NO_COORD, NO_COORD⟩⟩]⟩
      rfl (by decide)⟩

theorem getD_set_ne (l : List Nat) (i j v : Nat) (h : i ≠ j) :
    (l.set i v).getD j 0 = l.getD j 0 := by
  simp [List.getD_eq_getElem?_getD, List.getElem?_set_ne h]

theorem getD_set_self (l : List Nat) (i v : Nat) (h : i < l.length) :
    (l.set i v).getD i 0 = v := by
  simp [List.getD_eq_getElem?_getD, List.getElem?_set_self h]

/-- The sign of the step from `a` toward `b` (the unit step of a straight
line between aligned anchors). -/
def step_toward (a b : Nat) : Int :=
  if a < b then 1 else if b < a then -1 else 0

/-- The straight-path trigger as the spec states it: anchors aligned
(row/column aligned, or exactly diagonally aligned when diagonals are on)
and the straight-line distance between them equals the numeric span. -/
def straight_path_applicable (diagonal : Bool) (gap : gap_t) : Prop :=
  (if diagonal then Nat.dist gap.l1.x gap.l2.x = Nat.dist gap.l1.y gap.l2.y
   else gap.l1.x = gap.l2.x ∨ gap.l1.y = gap.l2.y) ∧
  gap.n2 - gap.n1 = distance gap.l1.x gap.l1.y gap.l2.x gap.l2.y diagonal

instance (diagonal : Bool) (gap : gap_t) : Decidable (straight_path_applicable diagonal gap) := by
  unfold straight_path_applicable; infer_instance

/-- Row-major index of the `k`-th cell on the straight line from `l1` with
unit step `(sx, sy)` (the same arithmetic the fill loop performs). -/
def straight_line_idx (w : Nat) (l1 : location_t) (sx sy : Int) (k : Nat) : Nat :=
  (((l1.y : Int) + k * sy) * w + ((l1.x : Int) + k * sx)).toNat

/-- The grid after the first `k` intermediate cells of the straight line
have been filled with `n1 + 1 .. n1 + k`. -/
def straight_prefix_grid (grid : List Nat) (w : Nat) (l1 : location_t) (sx sy : Int)
    (n1 : Nat) : Nat → List Nat
  | 0 => grid
  | k + 1 =>
    (straight_prefix_grid grid w l1 sx sy n1 k).set
      (straight_line_idx w l1 sx sy (k + 1)) (n1 + (k + 1))

/-- Writing the `k`-th line cell trips the blocked-number scan: the check
runs on the grid with the first `k` cells filled, at the `k`-th cell. -/
@[reducible] def straight_trip (s : solver_state_t) (l1 : location_t) (sx sy : Int) (n1 k : Nat) : Prop :=
  check_blocked_numbers_nearby
    { s with grid := straight_prefix_grid s.grid s.w l1 sx sy n1 k }
    ((l1.x : Int) + k * sx).toNat ((l1.y : Int) + k * sy).toNat = true

theorem straight_prefix_grid_length (grid : List Nat) (w : Nat) (l1 : location_t)
    (sx sy : Int) (n1 : Nat) (k : Nat) :
    (straight_prefix_grid grid w l1 sx sy n1 k).length = grid.length := by
  induction k with
  | zero => rfl
  | succ k ih => simp [straight_prefix_grid, List.length_set, ih]

theorem straight_prefix_grid_getD_untouched (grid : List Nat) (w : Nat) (l1 : location_t)
    (sx sy : Int) (n1 : Nat) (k : Nat) (i : Nat)
    (h : ∀ m, 1 ≤ m → m ≤ k → i ≠ straight_line_idx w l1 sx sy m) :
    (straight_prefix_grid grid w l1 sx sy n1 k).getD i 0 = grid.getD i 0 := by
  induction k with
  | zero => rfl
  | succ k ih =>
    rw [straight_prefix_grid]
    rw [getD_set_ne _ _ _ _ (fun he => (h (k + 1) (by omega) (by omega)) he.symm)]
    exact ih (fun m h1 h2 => h m h1 (by omega))

theorem straight_prefix_grid_getD_written (grid : List Nat) (w : Nat) (l1 : location_t)
    (sx sy : Int) (n1 : Nat) (k : Nat) (m : Nat) (h1 : 1 ≤ m) (h2 : m ≤ k)
    (hinj : ∀ a b, a ≤ k → b ≤ k →
      straight_line_idx w l1 sx sy a = straight_line_idx w l1 sx sy b → a = b)
    (hbound : straight_line_idx w l1 sx sy m < grid.length) :
    (straight_prefix_grid grid w l1 sx sy n1 k).getD (straight_line_idx w l1 sx sy m) 0 =
      n1 + m := by
  induction k with
  | zero => omega
  | succ k ih =>
    rw [straight_prefix_grid]
    by_cases hm : m = k + 1
    · subst hm
      rw [getD_set_self]
      rw [straight_prefix_grid_length]
      exact hbound
    · rw [getD_set_ne _ _ _ _
        (fun he => hm (hinj (k + 1) m (by omega) (by omega) he).symm)]
      exact ih (by omega) (fun a b ha hb => hinj a b (by omega) (by omega))

theorem straight_fill_run_clean (s : solver_state_t) (g : Nat) (l1 : location_t)
    (sx sy : Int) (n1 span : Nat)
    (hinj : ∀ a b, a ≤ span → b ≤ span →
      straight_line_idx s.w l1 sx sy a = straight_line_idx s.w l1 sx sy b → a = b) :
    ∀ cnt j, j + cnt + 1 = span →
      (∀ k, j < k → k < span →
        s.grid.getD (straight_line_idx s.w l1 sx sy k) 0 = 0 ∧
        ¬ straight_trip s l1 sx sy n1 k) →
      straight_fill { s with grid := straight_prefix_grid s.grid s.w l1 sx sy n1 j } g
          ((l1.x : Int) + j * sx) ((l1.y : Int) + j * sy) sx sy (n1 + j + 1) cnt =
        .moved { s with grid := straight_prefix_grid s.grid s.w l1 sx sy n1 (span - 1),
                        gaps := s.gaps.eraseIdx g } := by
  intro cnt
  induction cnt with
  | zero =>
    intro j hspan _
    obtain rfl : j = span - 1 := by omega
    rfl
  | succ cnt ih =>
    intro j hspan hclean
    have hxi : (l1.x : Int) + j * sx + sx = (l1.x : Int) + ((j + 1 : Nat) : Int) * sx := by
      push_cast; ring
    have hyi : (l1.y : Int) + j * sy + sy = (l1.y : Int) + ((j + 1 : Nat) : Int) * sy := by
      push_cast; ring
    rw [straight_fill]
    simp only [hxi, hyi]
    have hval : n1 + j + 1 = n1 + (j + 1) := rfl
    rw [hval]
    have hidx : (((l1.y : Int) + ((j + 1 : Nat) : Int) * sy) * (s.w : Int) +
        ((l1.x : Int) + ((j + 1 : Nat) : Int) * sx)).toNat =
        straight_line_idx s.w l1 sx sy (j + 1) := rfl
    rw [hidx]
    have huntouched : (straight_prefix_grid s.grid s.w l1 sx sy n1 j).getD
        (straight_line_idx s.w l1 sx sy (j + 1)) 0 = s.grid.getD
        (straight_line_idx s.w l1 sx sy (j + 1)) 0 := by
      refine straight_prefix_grid_getD_untouched _ _ _ _ _ _ _ _ (fun m h1 h2 he => ?_)
      have := hinj (j + 1) m (by omega) (by omega) he
      omega
    have hempty := (hclean (j + 1) (by omega) (by omega)).1
    rw [if_neg (by
      simp only [huntouched, hempty]
      exact fun hne => hne rfl)]
    have hfold : (straight_prefix_grid s.grid s.w l1 sx sy n1 j).set
        (straight_line_idx s.w l1 sx sy (j + 1)) (n1 + (j + 1)) =
        straight_prefix_grid s.grid s.w l1 sx sy n1 (j + 1) := rfl
    rw [hfold]
    rw [if_neg ((hclean (j + 1) (by omega) (by omega)).2)]
    exact ih (j + 1) (by omega) (fun k h1 h2 => hclean k (by omega) h2)

theorem straight_fill_run_bad (s : solver_state_t) (g : Nat) (l1 : location_t)
    (sx sy : Int) (n1 span : Nat)
    (hinj : ∀ a b, a ≤ span → b ≤ span →
      straight_line_idx s.w l1 sx sy a = straight_line_idx s.w l1 sx sy b → a = b) :
    ∀ cnt j, j + cnt + 1 = span →
      (∃ k, j < k ∧ k < span ∧
        (s.grid.getD (straight_line_idx s.w l1 sx sy k) 0 ≠ 0 ∨
          straight_trip s l1 sx sy n1 k)) →
      straight_fill { s with grid := straight_prefix_grid s.grid s.w l1 sx sy n1 j } g
          ((l1.x : Int) + j * sx) ((l1.y : Int) + j * sy) sx sy (n1 + j + 1) cnt =
        .unsolvable := by
  intro cnt
  induction cnt with
  | zero =>
    intro j hspan hbad
    obtain ⟨k, h1, h2, -⟩ := hbad
    omega
  | succ cnt ih =>
    intro j hspan hbad
    have hxi : (l1.x : Int) + j * sx + sx = (l1.x : Int) + ((j + 1 : Nat) : Int) * sx := by
      push_cast; ring
    have hyi : (l1.y : Int) + j * sy + sy = (l1.y : Int) + ((j + 1 : Nat) : Int) * sy := by
      push_cast; ring
    rw [straight_fill]
    simp only [hxi, hyi]
    have hval : n1 + j + 1 = n1 + (j + 1) := rfl
    rw [hval]
    have hidx : (((l1.y : Int) + ((j + 1 : Nat) : Int) * sy) * (s.w : Int) +
        ((l1.x : Int) + ((j + 1 : Nat) : Int) * sx)).toNat =
        straight_line_idx s.w l1 sx sy (j + 1) := rfl
    rw [hidx]
    have huntouched : (straight_prefix_grid s.grid s.w l1 sx sy n1 j).getD
        (straight_line_idx s.w l1 sx sy (j + 1)) 0 = s.grid.getD
        (straight_line_idx s.w l1 sx sy (j + 1)) 0 := by
      refine straight_prefix_grid_getD_untouched _ _ _ _ _ _ _ _ (fun m h1 h2 he => ?_)
      have := hinj (j + 1) m (by omega) (by omega) he
      omega
    by_cases hocc : s.grid.getD (straight_line_idx s.w l1 sx sy (j + 1)) 0 ≠ 0
    · rw [if_pos (by simp only [huntouched]; exact hocc)]
    · rw [if_neg (by simp only [huntouched]; exact hocc)]
      have hfold : (straight_prefix_grid s.grid s.w l1 sx sy n1 j).set
          (straight_line_idx s.w l1 sx sy (j + 1)) (n1 + (j + 1)) =
          straight_prefix_grid s.grid s.w l1 sx sy n1 (j + 1) := rfl
      rw [hfold]
      by_cases htrip : straight_trip s l1 sx sy n1 (j + 1)
      · rw [if_pos htrip]
      · rw [if_neg htrip]
        refine ih (j + 1) (by omega) ?_
        obtain ⟨k, h1, h2, hk⟩ := hbad
        refine ⟨k, ?_, h2, hk⟩
        rcases Nat.lt_or_ge (j + 1) k with h | h
        · exact h
        · exfalso
          have : k = j + 1 := by omega
          subst this
          rcases hk with hk | hk
          · exact hocc hk
          · exact htrip hk

theorem step_toward_self (a : Nat) : step_toward a a = 0 := by
  unfold step_toward; simp

theorem step_toward_pos {a b : Nat} (h : a < b) : step_toward a b = 1 := by
  unfold step_toward; rw [if_pos h]

theorem step_toward_neg {a b : Nat} (h : b < a) : step_toward a b = -1 := by
  unfold step_toward; rw [if_neg (by omega), if_pos h]

theorem nat_dist_eq_sub {a b : Nat} : Nat.dist a b = (a - b) + (b - a) := rfl

theorem row_major_inj (w : Nat) (x1 y1 x2 y2 : Int) (hw : (0 : Int) < w)
    (hx1 : 0 ≤ x1) (hx1w : x1 < w) (hx2 : 0 ≤ x2) (hx2w : x2 < w)
    (hy1 : 0 ≤ y1) (hy2 : 0 ≤ y2)
    (heq : (y1 * w + x1).toNat = (y2 * w + x2).toNat) : x1 = x2 ∧ y1 = y2 := by
  have hn1 : (0 : Int) ≤ y1 * w + x1 := add_nonneg (mul_nonneg hy1 (le_of_lt hw)) hx1
  have hn2 : (0 : Int) ≤ y2 * w + x2 := add_nonneg (mul_nonneg hy2 (le_of_lt hw)) hx2
  have h1 : y1 * w + x1 = y2 * w + x2 := by
    have e1 := Int.toNat_of_nonneg hn1
    have e2 := Int.toNat_of_nonneg hn2
    rw [← e1, ← e2, heq]
  have hyy : y1 = y2 := by
    by_contra hne
    rcases lt_or_gt_of_ne hne with hlt | hlt
    · have hstep : y1 + 1 ≤ y2 := by omega
      have hmono : (y1 + 1) * w ≤ y2 * w :=
        mul_le_mul_of_nonneg_right (by exact_mod_cast hstep) (le_of_lt hw)
      have hexp : (y1 + 1) * w = y1 * w + w := by ring
      have ha : y1 * w + w ≤ y2 * w := hexp ▸ hmono
      have hb := h1
      omega
    · have hstep : y2 + 1 ≤ y1 := by omega
      have hmono : (y2 + 1) * w ≤ y1 * w :=
        mul_le_mul_of_nonneg_right (by exact_mod_cast hstep) (le_of_lt hw)
      have hexp : (y2 + 1) * w = y2 * w + w := by ring
      have ha : y2 * w + w ≤ y1 * w := hexp ▸ hmono
      omega
  subst hyy
  exact ⟨by omega, rfl⟩

theorem row_major_lt (w h : Nat) (x y : Int)
    (hx0 : 0 ≤ x) (hx : x < w) (hy0 : 0 ≤ y) (hy : y < h) :
    (y * w + x).toNat < w * h := by
  have hstep : y + 1 ≤ (h : Int) := by omega
  have h1 : (y + 1) * w ≤ (h : Int) * w :=
    mul_le_mul_of_nonneg_right hstep (by omega)
  have h2 : (y + 1) * (w : Int) = y * w + w := by ring
  have h3 : (h : Int) * w = (w : Int) * h := by ring
  have h4 : (0 : Int) ≤ y * w := mul_nonneg hy0 (by omega)
  have h5 : ((w * h : Nat) : Int) = (w : Int) * h := by push_cast; ring
  omega

theorem straight_geometry (w h : Nat) (diagonal : Bool) (gap : gap_t)
    (hx1 : gap.l1.x < w) (hy1 : gap.l1.y < h) (hx2 : gap.l2.x < w) (hy2 : gap.l2.y < h)
    (happ : straight_path_applicable diagonal gap) :
    ∀ k, k ≤ gap.n2 - gap.n1 →
      0 ≤ (gap.l1.x : Int) + k * step_toward gap.l1.x gap.l2.x ∧
      (gap.l1.x : Int) + k * step_toward gap.l1.x gap.l2.x < w ∧
      0 ≤ (gap.l1.y : Int) + k * step_toward gap.l1.y gap.l2.y ∧
      (gap.l1.y : Int) + k * step_toward gap.l1.y gap.l2.y < h := by
  intro k hk
  obtain ⟨halign, hdist⟩ := happ
  unfold distance manhattan_distance chebyshev_distance at hdist
  have hxbound : Nat.dist gap.l1.x gap.l2.x ≤ gap.n2 - gap.n1 ∧
      (step_toward gap.l1.x gap.l2.x ≠ 0 → Nat.dist gap.l1.x gap.l2.x = gap.n2 - gap.n1) := by
    cases diagonal with
    | false =>
      rw [if_neg (by simp)] at halign
      rw [if_neg (by simp)] at hdist
      rcases halign with hxx | hyy
      · refine ⟨?_, fun hstep => ?_⟩
        · rw [hxx, Nat.dist_self]; omega
        · rw [hxx, step_toward_self] at hstep
          exact absurd rfl hstep
      · have h0 : Nat.dist gap.l1.y gap.l2.y = 0 := by rw [hyy]; exact Nat.dist_self _
        exact ⟨by omega, fun _ => by omega⟩
    | true =>
      rw [if_pos rfl] at halign
      rw [if_pos rfl] at hdist
      exact ⟨by omega, fun _ => by omega⟩
  have hybound : Nat.dist gap.l1.y gap.l2.y ≤ gap.n2 - gap.n1 ∧
      (step_toward gap.l1.y gap.l2.y ≠ 0 → Nat.dist gap.l1.y gap.l2.y = gap.n2 - gap.n1) := by
    cases diagonal with
    | false =>
      rw [if_neg (by simp)] at halign
      rw [if_neg (by simp)] at hdist
      rcases halign with hxx | hyy
      · have h0 : Nat.dist gap.l1.x gap.l2.x = 0 := by rw [hxx]; exact Nat.dist_self _
        exact ⟨by omega, fun _ => by omega⟩
      · refine ⟨?_, fun hstep => ?_⟩
        · rw [hyy, Nat.dist_self]; omega
        · rw [hyy, step_toward_self] at hstep
          exact absurd rfl hstep
    | true =>
      rw [if_pos rfl] at halign
      rw [if_pos rfl] at hdist
      exact ⟨by omega, fun _ => by omega⟩
  refine ⟨?_, ?_, ?_, ?_⟩
  · rcases Nat.lt_trichotomy gap.l1.x gap.l2.x with hlt | heq | hgt
    · rw [step_toward_pos hlt]; omega
    · rw [heq, step_toward_self]; omega
    · rw [step_toward_neg hgt]
      have hd := hxbound.2 (by rw [step_toward_neg hgt]; omega)
      rw [nat_dist_eq_sub] at hd
      omega
  · rcases Nat.lt_trichotomy gap.l1.x gap.l2.x with hlt | heq | hgt
    · rw [step_toward_pos hlt]
      have hd := hxbound.2 (by rw [step_toward_pos hlt]; omega)
      rw [nat_dist_eq_sub] at hd
      omega
    · rw [heq, step_toward_self]; omega
    · rw [step_toward_neg hgt]; omega
  · rcases Nat.lt_trichotomy gap.l1.y gap.l2.y with hlt | heq | hgt
    · rw [step_toward_pos hlt]; omega
    · rw [heq, step_toward_self]; omega
    · rw [step_toward_neg hgt]
      have hd := hybound.2 (by rw [step_toward_neg hgt]; omega)
      rw [nat_dist_eq_sub] at hd
      omega
  · rcases Nat.lt_trichotomy gap.l1.y gap.l2.y with hlt | heq | hgt
    · rw [step_toward_pos hlt]
      have hd := hybound.2 (by rw [step_toward_pos hlt]; omega)
      rw [nat_dist_eq_sub] at hd
      omega
    · rw [heq, step_toward_self]; omega
    · rw [step_toward_neg hgt]; omega

theorem step_toward_cases (a b : Nat) :
    step_toward a b = 1 ∨ step_toward a b = -1 ∨ (step_toward a b = 0 ∧ a = b) := by
  unfold step_toward
  rcases Nat.lt_trichotomy a b with h | h | h
  · left; rw [if_pos h]
  · right; right; subst h; rw [if_neg (by omega), if_neg (by omega)]; omega
  · right; left; rw [if_neg (by omega), if_pos h]

theorem straight_line_inj (w h : Nat) (diagonal : Bool) (gap : gap_t)
    (hx1 : gap.l1.x < w) (hy1 : gap.l1.y < h) (hx2 : gap.l2.x < w) (hy2 : gap.l2.y < h)
    (hn : gap.n1 < gap.n2)
    (happ : straight_path_applicable diagonal gap) :
    ∀ a b, a ≤ gap.n2 - gap.n1 → b ≤ gap.n2 - gap.n1 →
      straight_line_idx w gap.l1 (step_toward gap.l1.x gap.l2.x)
          (step_toward gap.l1.y gap.l2.y) a =
        straight_line_idx w gap.l1 (step_toward gap.l1.x gap.l2.x)
          (step_toward gap.l1.y gap.l2.y) b → a = b := by
  intro a b ha hb heq
  obtain ⟨hax0, haxw, hay0, hayh⟩ := straight_geometry w h diagonal gap hx1 hy1 hx2 hy2 happ a ha
  obtain ⟨hbx0, hbxw, hby0, hbyh⟩ := straight_geometry w h diagonal gap hx1 hy1 hx2 hy2 happ b hb
  obtain ⟨hxeq, hyeq⟩ := row_major_inj w _ _ _ _ (by omega)
    hax0 haxw hbx0 hbxw hay0 hby0 heq
  rcases step_toward_cases gap.l1.x gap.l2.x with hsx | hsx | hsx
  · rw [hsx] at hxeq; omega
  · rw [hsx] at hxeq; omega
  · rcases step_toward_cases gap.l1.y gap.l2.y with hsy | hsy | hsy
    · rw [hsy] at hyeq; omega
    · rw [hsy] at hyeq; omega
    · exfalso
      obtain ⟨-, hdist⟩ := happ
      rw [hsx.2, hsy.2] at hdist
      unfold distance manhattan_distance chebyshev_distance at hdist
      cases diagonal with
      | false =>
        rw [if_neg (by simp)] at hdist
        rw [Nat.dist_self, Nat.dist_self] at hdist
        omega
      | true =>
        rw [if_pos rfl] at hdist
        rw [Nat.dist_self, Nat.dist_self] at hdist
        omega

theorem natAbs_sub_eq_dist (a b : Nat) : ((a : Int) - b).natAbs = Nat.dist a b := by
  rw [nat_dist_eq_sub]; omega

theorem do_straight_path_not_applicable (s : solver_state_t) (g : Nat) (gap : gap_t)
    (hgap : s.gaps.getD g default = gap)
    (hnapp : ¬ straight_path_applicable s.diagonal gap) :
    do_straight_path s g = .didnt_move := by
  simp only [do_straight_path]
  rw [hgap]
  by_cases hdiag : s.diagonal = true
  · rw [if_pos hdiag]
    by_cases halt : ((gap.l2.x : Int) - gap.l1.x = (gap.l2.y : Int) - gap.l1.y ∨
        (gap.l2.x : Int) - gap.l1.x = -((gap.l2.y : Int) - gap.l1.y))
    · rw [if_pos halt]
      rw [if_pos ?hspan]
      case hspan =>
        intro hspan
        refine hnapp ⟨?_, ?_⟩
        · rw [if_pos hdiag]
          rw [← natAbs_sub_eq_dist, ← natAbs_sub_eq_dist]
          omega
        · unfold distance chebyshev_distance
          rw [if_pos hdiag]
          rw [← natAbs_sub_eq_dist, ← natAbs_sub_eq_dist]
          omega
    · rw [if_neg halt]
  · rw [if_neg hdiag]
    by_cases hxx : gap.l1.x = gap.l2.x
    · rw [if_pos hxx]
      rw [if_pos ?hspan2]
      case hspan2 =>
        intro hspan
        refine hnapp ⟨?_, ?_⟩
        · rw [if_neg hdiag]
          exact Or.inl hxx
        · unfold distance manhattan_distance
          rw [if_neg hdiag]
          rw [hxx, Nat.dist_self]
          rw [nat_dist_eq_sub] at hspan
          rw [nat_dist_eq_sub]
          omega
    · rw [if_neg hxx]
      by_cases hyy : gap.l1.y = gap.l2.y
      · rw [if_pos hyy]
        rw [if_pos ?hspan3]
        case hspan3 =>
          intro hspan
          refine hnapp ⟨?_, ?_⟩
          · rw [if_neg hdiag]
            exact Or.inr hyy
          · unfold distance manhattan_distance
            rw [if_neg hdiag]
            rw [hyy, Nat.dist_self]
            rw [nat_dist_eq_sub] at hspan
            rw [nat_dist_eq_sub]
            omega
      · rw [if_neg hyy]

theorem do_straight_path_eq_fill (s : solver_state_t) (g : Nat) (gap : gap_t)
    (hgap : s.gaps.getD g default = gap) (hn : gap.n1 < gap.n2)
    (happ : straight_path_applicable s.diagonal gap) :
    do_straight_path s g =
      straight_fill s g (gap.l1.x : Int) (gap.l1.y : Int)
        (step_toward gap.l1.x gap.l2.x) (step_toward gap.l1.y gap.l2.y)
        (gap.n1 + 1) (gap.n2 - gap.n1 - 1) := by
  obtain ⟨halign, hdist⟩ := happ
  unfold distance manhattan_distance chebyshev_distance at hdist
  simp only [do_straight_path]
  rw [hgap]
  by_cases hdiag : s.diagonal = true
  · rw [if_pos hdiag]
    rw [if_pos hdiag] at halign
    rw [if_pos hdiag] at hdist
    rw [← natAbs_sub_eq_dist, ← natAbs_sub_eq_dist] at halign
    rw [← natAbs_sub_eq_dist, ← natAbs_sub_eq_dist] at hdist
    have hne : (gap.l2.x : Int) - gap.l1.x ≠ 0 ∧ (gap.l2.y : Int) - gap.l1.y ≠ 0 := by
      constructor <;> intro h0 <;> omega
    rw [if_pos (by omega)]
    rw [if_neg (by omega)]
    have hsx : (if (0 : Int) < (gap.l2.x : Int) - gap.l1.x then (1 : Int) else -1) =
        step_toward gap.l1.x gap.l2.x := by
      rcases Nat.lt_trichotomy gap.l1.x gap.l2.x with h | h | h
      · rw [if_pos (by omega), step_toward_pos h]
      · exfalso; apply hne.1; omega
      · rw [if_neg (by omega), step_toward_neg h]
    have hsy : (if (0 : Int) < (gap.l2.y : Int) - gap.l1.y then (1 : Int) else -1) =
        step_toward gap.l1.y gap.l2.y := by
      rcases Nat.lt_trichotomy gap.l1.y gap.l2.y with h | h | h
      · rw [if_pos (by omega), step_toward_pos h]
      · exfalso; apply hne.2; omega
      · rw [if_neg (by omega), step_toward_neg h]
    rw [hsx, hsy]
  · rw [if_neg hdiag]
    rw [if_neg hdiag] at halign
    rw [if_neg hdiag] at hdist
    by_cases hxx : gap.l1.x = gap.l2.x
    · rw [if_pos hxx]
      have hdy : gap.n2 - gap.n1 = Nat.dist gap.l2.y gap.l1.y := by
        rw [hxx, Nat.dist_self] at hdist
        rw [Nat.dist_comm]
        omega
      rw [if_neg (by omega)]
      have hyne : gap.l1.y ≠ gap.l2.y := by
        intro h0
        rw [h0, Nat.dist_comm, Nat.dist_self] at hdy
        omega
      have hsy : (if ((gap.l1.y : Int)) < (gap.l2.y : Int) then (1 : Int) else -1) =
          step_toward gap.l1.y gap.l2.y := by
        rcases Nat.lt_trichotomy gap.l1.y gap.l2.y with h | h | h
        · rw [if_pos (by omega), step_toward_pos h]
        · exact absurd h hyne
        · rw [if_neg (by omega), step_toward_neg h]
      rw [hsy, show (0 : Int) = step_toward gap.l1.x gap.l2.x from by
        rw [hxx, step_toward_self]]
    · rw [if_neg hxx]
      have hyy : gap.l1.y = gap.l2.y := by
        rcases halign with h | h
        · exact absurd h hxx
        · exact h
      rw [if_pos hyy]
      have hdx : gap.n2 - gap.n1 = Nat.dist gap.l2.x gap.l1.x := by
        rw [hyy, Nat.dist_self] at hdist
        rw [Nat.dist_comm]
        omega
      rw [if_neg (by omega)]
      have hsx : (if ((gap.l1.x : Int)) < (gap.l2.x : Int) then (1 : Int) else -1) =
          step_toward gap.l1.x gap.l2.x := by
        rcases Nat.lt_trichotomy gap.l1.x gap.l2.x with h | h | h
        · rw [if_pos (by omega), step_toward_pos h]
        · exact absurd h hxx
        · rw [if_neg (by omega), step_toward_neg h]
      rw [hsx, show (0 : Int) = step_toward gap.l1.y gap.l2.y from by
        rw [hyy, step_toward_self]]

/-- C5: characterization of the straight-path rule on a gap with both
anchors present (in bounds).  It fires exactly when the anchors are
row/column aligned (exactly diagonally aligned when diagonal adjacency is
on) and their straight-line distance equals the numeric span `n2 - n1`;
when it fires it either fills every intermediate cell of the line with the
consecutive numbers `n1+1 .. n2-1`, leaving all other cells unchanged and
removing the gap, or reports a contradiction exactly when some
intermediate cell is already occupied or some placement trips the
blocked-number scan. -/
theorem claim_C5_straight_path_characterization
    (s : solver_state_t) (g : Nat) (gap : gap_t)
    (hgap : s.gaps.getD g default = gap)
    (hx1 : gap.l1.x < s.w) (hy1 : gap.l1.y < s.h)
    (hx2 : gap.l2.x < s.w) (hy2 : gap.l2.y < s.h)
    (hn : gap.n1 < gap.n2)
    (hlen : s.grid.length = s.w * s.h) :
    (¬ straight_path_applicable s.diagonal gap → do_straight_path s g = .didnt_move) ∧
    (straight_path_applicable s.diagonal gap →
      do_straight_path s g ≠ .didnt_move ∧
      ((∀ k, 1 ≤ k → k < gap.n2 - gap.n1 →
          s.grid.getD (straight_line_idx s.w gap.l1 (step_toward gap.l1.x gap.l2.x)
            (step_toward gap.l1.y gap.l2.y) k) 0 = 0 ∧
          ¬ straight_trip s gap.l1 (step_toward gap.l1.x gap.l2.x)
            (step_toward gap.l1.y gap.l2.y) gap.n1 k) →
        do_straight_path s g = .moved
          { s with
            grid := straight_prefix_grid s.grid s.w gap.l1
              (step_toward gap.l1.x gap.l2.x) (step_toward gap.l1.y gap.l2.y) gap.n1
              (gap.n2 - gap.n1 - 1),
            gaps := s.gaps.eraseIdx g }) ∧
      ((∃ k, 1 ≤ k ∧ k < gap.n2 - gap.n1 ∧
          (s.grid.getD (straight_line_idx s.w gap.l1 (step_toward gap.l1.x gap.l2.x)
              (step_toward gap.l1.y gap.l2.y) k) 0 ≠ 0 ∨
            straight_trip s gap.l1 (step_toward gap.l1.x gap.l2.x)
              (step_toward gap.l1.y gap.l2.y) gap.n1 k)) →
        do_straight_path s g = .unsolvable) ∧
      (∀ k, 1 ≤ k → k < gap.n2 - gap.n1 →
        (straight_prefix_grid s.grid s.w gap.l1 (step_toward gap.l1.x gap.l2.x)
            (step_toward gap.l1.y gap.l2.y) gap.n1 (gap.n2 - gap.n1 - 1)).getD
          (straight_line_idx s.w gap.l1 (step_toward gap.l1.x gap.l2.x)
            (step_toward gap.l1.y gap.l2.y) k) 0 = gap.n1 + k) ∧
      (∀ i, (∀ k, 1 ≤ k → k < gap.n2 - gap.n1 →
          i ≠ straight_line_idx s.w gap.l1 (step_toward gap.l1.x gap.l2.x)
            (step_toward gap.l1.y gap.l2.y) k) →
        (straight_prefix_grid s.grid s.w gap.l1 (step_toward gap.l1.x gap.l2.x)
            (step_toward gap.l1.y gap.l2.y) gap.n1 (gap.n2 - gap.n1 - 1)).getD i 0 =
          s.grid.getD i 0)) := by
  refine ⟨do_straight_path_not_applicable s g gap hgap, fun happ => ?_⟩
  have hfill := do_straight_path_eq_fill s g gap hgap hn happ
  have hinj := straight_line_inj s.w s.h s.diagonal gap hx1 hy1 hx2 hy2 hn happ
  have hmoved : (∀ k, 1 ≤ k → k < gap.n2 - gap.n1 →
      s.grid.getD (straight_line_idx s.w gap.l1 (step_toward gap.l1.x gap.l2.x)
        (step_toward gap.l1.y gap.l2.y) k) 0 = 0 ∧
      ¬ straight_trip s gap.l1 (step_toward gap.l1.x gap.l2.x)
        (step_toward gap.l1.y gap.l2.y) gap.n1 k) →
      do_straight_path s g = .moved
        { s with
          grid := straight_prefix_grid s.grid s.w gap.l1
            (step_toward gap.l1.x gap.l2.x) (step_toward gap.l1.y gap.l2.y) gap.n1
            (gap.n2 - gap.n1 - 1),
          gaps := s.gaps.eraseIdx g } := by
    intro hclean
    have hrun := straight_fill_run_clean s g gap.l1 (step_toward gap.l1.x gap.l2.x)
      (step_toward gap.l1.y gap.l2.y) gap.n1 (gap.n2 - gap.n1) hinj
      (gap.n2 - gap.n1 - 1) 0 (by omega) (fun k h1 h2 => hclean k (by omega) h2)
    simp only [straight_prefix_grid, Nat.cast_zero, zero_mul, add_zero, Nat.add_zero] at hrun
    rw [hfill]
    exact hrun
  have hunsolv : (∃ k, 1 ≤ k ∧ k < gap.n2 - gap.n1 ∧
      (s.grid.getD (straight_line_idx s.w gap.l1 (step_toward gap.l1.x gap.l2.x)
          (step_toward gap.l1.y gap.l2.y) k) 0 ≠ 0 ∨
        straight_trip s gap.l1 (step_toward gap.l1.x gap.l2.x)
          (step_toward gap.l1.y gap.l2.y) gap.n1 k)) →
      do_straight_path s g = .unsolvable := by
    rintro ⟨k, h1, h2, hk⟩
    have hrun := straight_fill_run_bad s g gap.l1 (step_toward gap.l1.x gap.l2.x)
      (step_toward gap.l1.y gap.l2.y) gap.n1 (gap.n2 - gap.n1) hinj
      (gap.n2 - gap.n1 - 1) 0 (by omega) ⟨k, by omega, h2, hk⟩
    simp only [straight_prefix_grid, Nat.cast_zero, zero_mul, add_zero, Nat.add_zero] at hrun
    rw [hfill]
    exact hrun
  refine ⟨?_, hmoved, hunsolv, ?_, ?_⟩
  · rcases Classical.em (∃ k, 1 ≤ k ∧ k < gap.n2 - gap.n1 ∧
        (s.grid.getD (straight_line_idx s.w gap.l1 (step_toward gap.l1.x gap.l2.x)
            (step_toward gap.l1.y gap.l2.y) k) 0 ≠ 0 ∨
          straight_trip s gap.l1 (step_toward gap.l1.x gap.l2.x)
            (step_toward gap.l1.y gap.l2.y) gap.n1 k)) with hb | hb
    · rw [hunsolv hb]
      simp
    · have hclean : ∀ k, 1 ≤ k → k < gap.n2 - gap.n1 →
          s.grid.getD (straight_line_idx s.w gap.l1 (step_toward gap.l1.x gap.l2.x)
            (step_toward gap.l1.y gap.l2.y) k) 0 = 0 ∧
          ¬ straight_trip s gap.l1 (step_toward gap.l1.x gap.l2.x)
            (step_toward gap.l1.y gap.l2.y) gap.n1 k := by
        intro k h1 h2
        constructor
        · by_contra hne
          exact hb ⟨k, h1, h2, Or.inl hne⟩
        · intro htr
          exact hb ⟨k, h1, h2, Or.inr htr⟩
      rw [hmoved hclean]
      simp
  · intro k h1 h2
    have hgeo := straight_geometry s.w s.h s.diagonal gap hx1 hy1 hx2 hy2 happ k (by omega)
    refine straight_prefix_grid_getD_written s.grid s.w gap.l1 _ _ gap.n1 _ k h1 (by omega)
      (fun a b ha hb => hinj a b (by omega) (by omega)) ?_
    rw [hlen]
    exact row_major_lt s.w s.h _ _ hgeo.1 hgeo.2.1 hgeo.2.2.1 hgeo.2.2.2
  · intro i hi
    exact straight_prefix_grid_getD_untouched s.grid s.w gap.l1 _ _ gap.n1 _ i
      (fun m hm1 hm2 => hi m hm1 (by omega))

/-- C5 witness: on the 4x1 state with clues 1 and 4 in the same row at
distance 3 (the numeric span), the straight-path rule fires. -/
theorem claim_C5_witness :
    ((⟨4, 1, false, -1, [1,0,0,4],
        [⟨1, 4, ⟨0, 0⟩, ⟨3, 0⟩⟩]⟩ : solver_state_t).gaps.getD 0 default =
        ⟨1, 4, ⟨0, 0⟩, ⟨3, 0⟩⟩ ∧
      (0 : Nat) < 4 ∧ (0 : Nat) < 1 ∧ (3 : Nat) < 4 ∧ (1 : Nat) < 4 ∧
      ([1,0,0,4] : List Nat).length = 4 * 1 ∧
      straight_path_applicable false ⟨1, 4, ⟨0, 0⟩, ⟨3, 0⟩⟩) ∧
    do_straight_path (⟨4, 1, false, -1, [1,0,0,4],
        [⟨1, 4, ⟨0, 0⟩, ⟨3, 0⟩⟩]⟩ : solver_state_t) 0 ≠ .didnt_move :=
  ⟨⟨by decide, by decide, by decide, by decide, by decide, by decide, by decide⟩,
    ((claim_C5_straight_path_characterization
        ⟨4, 1, false, -1, [1,0,0,4], [⟨1, 4, ⟨0, 0⟩, ⟨3, 0⟩⟩]⟩ 0
        ⟨1, 4, ⟨0, 0⟩, ⟨3, 0⟩⟩ (by decide) (by decide) (by decide) (by decide)
        (by decide) (by decide) (by decide)).2 (by decide)).1⟩

theorem set_getD_ne {α : Type} (l : List α) (i j : Nat) (v d : α) (h : i ≠ j) :
    (l.set i v).getD j d = l.getD j d := by
  simp [List.getD_eq_getElem?_getD, List.getElem?_set_ne h]

theorem set_getD_self {α : Type} (l : List α) (i : Nat) (v d : α) (h : i < l.length) :
    (l.set i v).getD i d = v := by
  simp [List.getD_eq_getElem?_getD, List.getElem?_set_self h]

/-- The in-bounds cells of a `w` by `h` grid, in the row-major order the
code scans them. -/
def cell_list (w h : Nat) : List location_t :=
  (List.range h).flatMap (fun y => (List.range w).map (fun x => ⟨x, y⟩))

theorem foldl_flatMap {α β γ : Type} (l : List α) (g : α → List β) (f : γ → β → γ)
    (init : γ) :
    (l.flatMap g).foldl f init = l.foldl (fun acc a => (g a).foldl f acc) init := by
  induction l generalizing init with
  | nil => rfl
  | cons a l ih => simp only [List.flatMap_cons, List.foldl_append, List.foldl_cons, ih]

theorem cell_list_mem (w h : Nat) (c : location_t) :
    c ∈ cell_list w h ↔ c.x < w ∧ c.y < h := by
  unfold cell_list
  simp only [List.mem_flatMap, List.mem_map, List.mem_range]
  constructor
  · rintro ⟨y, hy, x, hx, rfl⟩
    exact ⟨hx, hy⟩
  · rintro ⟨hx, hy⟩
    exact ⟨c.y, hy, c.x, hx, rfl⟩

/-- The number-to-location map as a single fold over the cell list. -/
theorem compute_number_to_location_map_eq_fold (grid : List Nat) (w h : Nat) :
    compute_number_to_location_map grid w h =
      (cell_list w h).foldl
        (fun m c =>
          if 0 < grid.getD (c.y * w + c.x) 0 then m.set (grid.getD (c.y * w + c.x) 0) c else m)
        (List.replicate (w * h + 1) (⟨NO_COORD, NO_COORD⟩ : location_t)) := by
  unfold compute_number_to_location_map cell_list
  rw [foldl_flatMap]
  simp only [List.foldl_map]

theorem map_fold_getD (grid : List Nat) (w : Nat) (n : Nat) (hn1 : 1 ≤ n) :
    ∀ (cells : List location_t) (m : List location_t), n < m.length →
      ((cells.foldl
          (fun m c =>
            if 0 < grid.getD (c.y * w + c.x) 0 then m.set (grid.getD (c.y * w + c.x) 0) c else m)
          m).getD n default) =
        (cells.filter (fun c => grid.getD (c.y * w + c.x) 0 == n)).getLastD
          (m.getD n default) := by
  intro cells
  induction cells with
  | nil => intro m _; rfl
  | cons c cs ih =>
    intro m hm
    rw [List.foldl_cons, List.filter_cons]
    by_cases hv : grid.getD (c.y * w + c.x) 0 = n
    · rw [if_pos (by omega)]
      rw [if_pos (by simp only [beq_iff_eq]; exact hv)]
      rw [hv]
      rw [ih (m.set n c) (by rw [List.length_set]; omega)]
      rw [set_getD_self m n c default hm]
      rw [List.getLastD_cons]
    · by_cases hz : 0 < grid.getD (c.y * w + c.x) 0
      · rw [if_pos hz]
        rw [if_neg (by simp only [beq_iff_eq]; exact hv)]
        rw [ih (m.set (grid.getD (c.y * w + c.x) 0) c) (by rw [List.length_set]; omega)]
        rw [set_getD_ne m _ n c default hv]
      · rw [if_neg hz]
        rw [if_neg (by simp only [beq_iff_eq]; exact hv)]
        exact ih m hm

theorem getD_replicate_nc (len n : Nat) (h : n < len) :
    (List.replicate len (⟨NO_COORD, NO_COORD⟩ : location_t)).getD n default =
      ⟨NO_COORD, NO_COORD⟩ := by
  simp [List.getD_eq_getElem?_getD, List.getElem?_replicate, h]

theorem getLastD_mem {α : Type} (l : List α) (d : α) (h : l ≠ []) : l.getLastD d ∈ l := by
  induction l generalizing d with
  | nil => exact absurd rfl h
  | cons a t ih =>
    cases t with
    | nil => simp [List.getLastD]
    | cons b t2 =>
      rw [List.getLastD_cons]
      exact List.mem_cons_of_mem a (ih a (by simp))

theorem nat_row_major_lt (w h x y : Nat) (hx : x < w) (hy : y < h) :
    y * w + x < w * h := by
  have h1 : y * w + x < (y + 1) * w := by
    have : (y + 1) * w = y * w + w := by ring
    omega
  have h2 : (y + 1) * w ≤ h * w := Nat.mul_le_mul_right w (by omega)
  have h3 : h * w = w * h := Nat.mul_comm h w
  omega

/-- The number `n` appears somewhere on the grid. -/
def number_present (grid : List Nat) (area n : Nat) : Prop :=
  ∃ i, i < area ∧ grid.getD i 0 = n

instance (grid : List Nat) (area n : Nat) : Decidable (number_present grid area n) := by
  unfold number_present; infer_instance

/-- Full characterization of a `compute_number_to_location_map` entry:
either the sentinel pair (and the number is absent), or an in-bounds cell
that stores the number. -/
theorem number_map_getD (grid : List Nat) (w h : Nat) (n : Nat)
    (hn1 : 1 ≤ n) (hn2 : n ≤ w * h) :
    ((compute_number_to_location_map grid w h).getD n default = ⟨NO_COORD, NO_COORD⟩ ∧
      ¬ number_present grid (w * h) n) ∨
    (((compute_number_to_location_map grid w h).getD n default).x < w ∧
      ((compute_number_to_location_map grid w h).getD n default).y < h ∧
      grid.getD (((compute_number_to_location_map grid w h).getD n default).y * w +
        ((compute_number_to_location_map grid w h).getD n default).x) 0 = n) := by
  rw [compute_number_to_location_map_eq_fold]
  rw [map_fold_getD grid w n hn1 (cell_list w h) _ (by rw [List.length_replicate]; omega)]
  rw [getD_replicate_nc _ _ (by omega)]
  cases hfil : (cell_list w h).filter (fun c => grid.getD (c.y * w + c.x) 0 == n) with
  | nil =>
    left
    refine ⟨rfl, ?_⟩
    rintro ⟨i, hi, hvi⟩
    have hw : 0 < w := by
      rcases Nat.eq_zero_or_pos w with h0 | h0
      · rw [h0, Nat.zero_mul] at hi; omega
      · exact h0
    have hcmem : (⟨i % w, i / w⟩ : location_t) ∈ cell_list w h := by
      rw [cell_list_mem]
      exact ⟨Nat.mod_lt _ hw, Nat.div_lt_of_lt_mul hi⟩
    have hvc : grid.getD ((i / w) * w + i % w) 0 = n := by
      rw [Nat.div_add_mod' i w]
      exact hvi
    have hmemf : (⟨i % w, i / w⟩ : location_t) ∈
        (cell_list w h).filter (fun c => grid.getD (c.y * w + c.x) 0 == n) := by
      rw [List.mem_filter]
      refine ⟨hcmem, ?_⟩
      show (grid.getD ((i / w) * w + i % w) 0 == n) = true
      exact beq_iff_eq.mpr hvc
    rw [hfil] at hmemf
    cases hmemf
  | cons c0 cs =>
    right
    have hmem0 :
        ((cell_list w h).filter (fun c => grid.getD (c.y * w + c.x) 0 == n)).getLastD
            (⟨NO_COORD, NO_COORD⟩ : location_t) ∈
          (cell_list w h).filter (fun c => grid.getD (c.y * w + c.x) 0 == n) :=
      getLastD_mem _ _ (by rw [hfil]; simp)
    obtain ⟨hcell, hval⟩ := List.mem_filter.mp hmem0
    rw [cell_list_mem] at hcell
    simp only [beq_iff_eq] at hval
    rw [hfil] at hcell hval
    exact ⟨hcell.1, hcell.2, hval⟩

/-- The number `n` has no location in the number map (its entry is the
`NO_COORD` sentinel, as the scan in `compute_gaps` tests via `.x`). -/
def gap_missing (number_map : List location_t) (n : Nat) : Prop :=
  (number_map.getD n default).x = NO_COORD

instance (number_map : List location_t) (n : Nat) : Decidable (gap_missing number_map n) := by
  unfold gap_missing; infer_instance

/-- The half-open gap record pushed by the scan in `compute_gaps` when a
run of missing numbers starts after the present number `a`. -/
def open_gap (number_map : List location_t) (a : Nat) : gap_t :=
  { n1 := a, l1 := number_map.getD a default, n2 := 0, l2 := ⟨NO_COORD, NO_COORD⟩ }

/-- A fully closed gap record as built by the `compute_gaps` scan: nonempty
interior of missing numbers, upper anchor present and recorded, and the
lower side either the leading sentinel gap or a present recorded anchor. -/
def gap_closed_ok (number_map : List location_t) (first last : Nat) (gp : gap_t) : Prop :=
  gp.n1 + 1 < gp.n2 ∧ gp.n2 ≤ last ∧
  ¬ gap_missing number_map gp.n2 ∧ gp.l2 = number_map.getD gp.n2 default ∧
  (∀ m, gp.n1 < m → m < gp.n2 → gap_missing number_map m) ∧
  ((gp.n1 = 0 ∧ gp.l1 = (⟨NO_COORD, NO_COORD⟩ : location_t) ∧ gp.n2 = first) ∨
   (first ≤ gp.n1 ∧ ¬ gap_missing number_map gp.n1 ∧ gp.l1 = number_map.getD gp.n1 default))

/-- The closed gaps accumulated by the `compute_gaps` scan before
position `i`: each is well formed and finished, and they are ordered. -/
def scan_closed_part (number_map : List location_t) (first last i : Nat)
    (cl : List gap_t) : Prop :=
  (∀ gp, gp ∈ cl → gap_closed_ok number_map first last gp ∧ gp.n2 ≤ i) ∧
  List.Pairwise (fun g1 g2 => g1.n2 ≤ g2.n1) cl

/-- Invariant of the `compute_gaps` scan with `i` the next number to
process: either every recorded gap is closed (and the previous and current
numbers are present), or the list ends in one half-open gap started at the
last present number `a`. -/
def scan_inv (number_map : List location_t) (first last i : Nat) (gaps : List gap_t) : Prop :=
  (scan_closed_part number_map first last i gaps ∧
    (first < i → ¬ gap_missing number_map (i - 1)) ∧
    (i ≤ last → ¬ gap_missing number_map i) ∧
    (∀ n, 1 ≤ n → n < i →
      (gap_missing number_map n ↔ ∃ gp, gp ∈ gaps ∧ gp.n1 < n ∧ n < gp.n2))) ∨
  (∃ cl a, gaps = cl ++ [open_gap number_map a] ∧
    scan_closed_part number_map first last i cl ∧
    (∀ gp, gp ∈ cl → gp.n2 ≤ a) ∧
    first ≤ a ∧ a < last ∧ a < i ∧
    ¬ gap_missing number_map a ∧ gap_missing number_map (a + 1) ∧
    (∀ m, a < m → m < i → gap_missing number_map m) ∧
    (∀ n, 1 ≤ n → n < i →
      (gap_missing number_map n ↔
        (∃ gp, gp ∈ cl ∧ gp.n1 < n ∧ n < gp.n2) ∨ a < n)))

theorem find?_range'_first (p : Nat → Bool) :
    ∀ (len start v : Nat), (List.range' start len).find? p = some v →
      p v = true ∧ start ≤ v ∧ v < start + len ∧
        ∀ j, start ≤ j → j < v → p j = false := by
  intro len
  induction len with
  | zero => intro start v h; simp [List.range'] at h
  | succ n ih =>
    intro start v h
    rw [List.range'_succ] at h
    by_cases hp : p start = true
    · rw [List.find?_cons_of_pos _ hp] at h
      have hv : start = v := by injection h
      subst hv
      exact ⟨hp, Nat.le_refl _, by omega, fun j h1 h2 => absurd h1 (by omega)⟩
    · rw [List.find?_cons_of_neg _ hp] at h
      obtain ⟨hpv, hle, hlt, hall⟩ := ih (start + 1) v h
      refine ⟨hpv, by omega, by omega, fun j h1 h2 => ?_⟩
      rcases Nat.eq_or_lt_of_le h1 with h3 | h3
      · rw [← h3]; exact Bool.eq_false_iff.mpr hp
      · exact hall j (by omega) h2

theorem find?_range'_last (p : Nat → Bool) :
    ∀ (len start v : Nat), ((List.range' start len).reverse).find? p = some v →
      p v = true ∧ start ≤ v ∧ v < start + len ∧
        ∀ j, v < j → j < start + len → p j = false := by
  intro len
  induction len with
  | zero => intro start v h; simp [List.range'] at h
  | succ n ih =>
    intro start v h
    rw [List.range'_concat, List.reverse_concat] at h
    by_cases hp : p (start + 1 * n) = true
    · rw [List.find?_cons_of_pos _ hp] at h
      have hv : start + 1 * n = v := by injection h
      subst hv
      refine ⟨hp, by omega, by omega, fun j h1 h2 => absurd h1 (by omega)⟩
    · rw [List.find?_cons_of_neg _ hp] at h
      obtain ⟨hpv, hle, hlt, hall⟩ := ih start v h
      refine ⟨hpv, hle, by omega, fun j h1 h2 => ?_⟩
      by_cases hj : j = start + n
      · rw [hj]
        have : start + 1 * n = start + n := by omega
        rw [this] at hp
        exact Bool.eq_false_iff.mpr hp
      · exact hall j h1 (by omega)

theorem scan_closed_part_mono (number_map : List location_t) (first last i j : Nat)
    (cl : List gap_t) (hij : i ≤ j)
    (h : scan_closed_part number_map first last i cl) :
    scan_closed_part number_map first last j cl :=
  ⟨fun gp hgp => ⟨(h.1 gp hgp).1, Nat.le_trans (h.1 gp hgp).2 hij⟩, h.2⟩

theorem scan_inv_step (number_map : List location_t) (first last i : Nat)
    (st : List gap_t × Nat) (hfi : first ≤ i) (hil : i ≤ last)
    (hinv : scan_inv number_map first last i st.1) :
    scan_inv number_map first last (i + 1)
      (compute_gaps_step number_map first last st i).1 := by
  by_cases hpi : gap_missing number_map i
  · -- `i` is missing: the step is a no-op.
    have h1 : ¬(first < i ∧ (number_map.getD i default).x ≠ NO_COORD ∧
        (number_map.getD (i - 1) default).x = NO_COORD) := by
      rintro ⟨-, hx, -⟩; exact hx hpi
    have h2 : ¬(i < last ∧ (number_map.getD i default).x ≠ NO_COORD ∧
        (number_map.getD (i + 1) default).x = NO_COORD) := by
      rintro ⟨-, hx, -⟩; exact hx hpi
    have hstep : (compute_gaps_step number_map first last st i).1 = st.1 := by
      unfold compute_gaps_step
      dsimp only
      rw [if_neg h1, if_neg h2]
    rw [hstep]
    rcases hinv with ⟨hclp, hprev, hcur, hcov⟩ |
      ⟨cl, a, hgaps, hclp, hbnd, hfa, hal, hai, hpa, hma1, hint, hcov⟩
    · exact absurd hpi (hcur hil)
    · right
      refine ⟨cl, a, hgaps, scan_closed_part_mono _ _ _ _ _ _ (by omega) hclp,
        hbnd, hfa, hal, by omega, hpa, hma1, ?_, ?_⟩
      · intro m hm1 hm2
        by_cases hmi : m = i
        · rw [hmi]; exact hpi
        · exact hint m hm1 (by omega)
      · intro n h1 h2
        by_cases hni : n = i
        · subst hni
          exact iff_of_true hpi (Or.inr hai)
        · exact hcov n h1 (by omega)
  · -- `i` is present.
    rcases hinv with ⟨hclp, hprev, hcur, hcov⟩ |
      ⟨cl, a, hgaps, hclp, hbnd, hfa, hal, hai, hpa, hma1, hint, hcov⟩
    · -- No pending gap: the close branch cannot fire.
      have h1 : ¬(first < i ∧ (number_map.getD i default).x ≠ NO_COORD ∧
          (number_map.getD (i - 1) default).x = NO_COORD) := by
        rintro ⟨hf, -, hm⟩; exact hprev hf hm
      by_cases hop : i < last ∧ gap_missing number_map (i + 1)
      · have hstep : (compute_gaps_step number_map first last st i).1 =
            st.1 ++ [open_gap number_map i] := by
          unfold compute_gaps_step
          dsimp only
          rw [if_neg h1, if_pos ⟨hop.1, hpi, hop.2⟩]
          rfl
        rw [hstep]
        right
        refine ⟨st.1, i, rfl, scan_closed_part_mono _ _ _ _ _ _ (by omega) hclp,
          fun gp hgp => (hclp.1 gp hgp).2, hfi, hop.1, by omega, hpi, hop.2,
          fun m hm1 hm2 => absurd hm1 (by omega), ?_⟩
        intro n hn1 hn2
        by_cases hni : n = i
        · subst hni
          refine iff_of_false hpi ?_
          rintro (⟨gp, hgp, hlt1, hlt2⟩ | hlt)
          · have := (hclp.1 gp hgp).2; omega
          · omega
        · have := hcov n hn1 (by omega)
          constructor
          · intro hm; exact Or.inl (this.mp hm)
          · rintro (hx | hlt)
            · exact this.mpr hx
            · omega
      · have h2 : ¬(i < last ∧ (number_map.getD i default).x ≠ NO_COORD ∧
            (number_map.getD (i + 1) default).x = NO_COORD) := by
          rintro ⟨hl, -, hm⟩; exact hop ⟨hl, hm⟩
        have hstep : (compute_gaps_step number_map first last st i).1 = st.1 := by
          unfold compute_gaps_step
          dsimp only
          rw [if_neg h1, if_neg h2]
        rw [hstep]
        left
        refine ⟨scan_closed_part_mono _ _ _ _ _ _ (by omega) hclp,
          fun _ => hpi, ?_, ?_⟩
        · intro hlast1
          by_contra hm
          exact hop ⟨by omega, hm⟩
        · intro n hn1 hn2
          by_cases hni : n = i
          · subst hni
            refine iff_of_false hpi ?_
            rintro ⟨gp, hgp, hlt1, hlt2⟩
            have := (hclp.1 gp hgp).2; omega
          · exact hcov n hn1 (by omega)
    · -- Pending gap opened at `a`: the close branch fires.
      have hane : a + 1 ≠ i := fun he => hpi (by rw [← he]; exact hma1)
      have ha1i : a + 1 < i := by omega
      have hmi1 : gap_missing number_map (i - 1) := hint (i - 1) (by omega) (by omega)
      have hclosec : first < i ∧ (number_map.getD i default).x ≠ NO_COORD ∧
          (number_map.getD (i - 1) default).x = NO_COORD := ⟨by omega, hpi, hmi1⟩
      have hGok : gap_closed_ok number_map first last
          ⟨a, i, number_map.getD a default, number_map.getD i default⟩ := by
        refine ⟨by show a + 1 < i; omega, hil, hpi, rfl, ?_, Or.inr ⟨hfa, hpa, rfl⟩⟩
        intro m hm1 hm2
        exact hint m hm1 hm2
      have hclp' : scan_closed_part number_map first last (i + 1)
          (cl ++ [⟨a, i, number_map.getD a default, number_map.getD i default⟩]) := by
        constructor
        · intro gp hgp
          rcases List.mem_append.mp hgp with hx | hx
          · exact ⟨(hclp.1 gp hx).1, by have := (hclp.1 gp hx).2; omega⟩
          · rw [List.mem_singleton.mp hx]
            exact ⟨hGok, by show i ≤ i + 1; omega⟩
        · refine List.pairwise_append.mpr ⟨hclp.2, List.pairwise_singleton _ _, ?_⟩
          intro g1 hg1 g2 hg2
          rw [List.mem_singleton.mp hg2]
          exact hbnd g1 hg1
      have hcov' : ∀ n, 1 ≤ n → n < i + 1 →
          (gap_missing number_map n ↔ ∃ gp,
            gp ∈ cl ++ [⟨a, i, number_map.getD a default, number_map.getD i default⟩] ∧
            gp.n1 < n ∧ n < gp.n2) := by
        intro n hn1 hn2
        by_cases hni : n = i
        · subst hni
          refine iff_of_false hpi ?_
          rintro ⟨gp, hgp, hlt1, hlt2⟩
          rcases List.mem_append.mp hgp with hx | hx
          · have := hbnd gp hx; omega
          · rw [List.mem_singleton.mp hx] at hlt2
            exact absurd hlt2 (by show ¬ n < n; omega)
        · have := hcov n hn1 (by omega)
          constructor
          · intro hm
            rcases this.mp hm with ⟨gp, hgp, hlt1, hlt2⟩ | hlt
            · exact ⟨gp, List.mem_append.mpr (Or.inl hgp), hlt1, hlt2⟩
            · exact ⟨_, List.mem_append.mpr (Or.inr (List.mem_singleton.mpr rfl)),
                hlt, by show n < i; omega⟩
          · rintro ⟨gp, hgp, hlt1, hlt2⟩
            rcases List.mem_append.mp hgp with hx | hx
            · exact this.mpr (Or.inl ⟨gp, hx, hlt1, hlt2⟩)
            · rw [List.mem_singleton.mp hx] at hlt1
              exact this.mpr (Or.inr hlt1)
      by_cases hop : i < last ∧ gap_missing number_map (i + 1)
      · have hstep : (compute_gaps_step number_map first last st i).1 =
            (cl ++ [⟨a, i, number_map.getD a default, number_map.getD i default⟩]) ++
              [open_gap number_map i] := by
          unfold compute_gaps_step
          dsimp only
          rw [if_pos hclosec, hgaps, List.getLast?_concat]
          dsimp only
          rw [List.dropLast_concat, if_pos ⟨hop.1, hpi, hop.2⟩]
          rfl
        rw [hstep]
        right
        refine ⟨_, i, rfl, hclp', ?_, hfi, hop.1, by omega, hpi, hop.2,
          fun m hm1 hm2 => absurd hm1 (by omega), ?_⟩
        · intro gp hgp
          rcases List.mem_append.mp hgp with hx | hx
          · have := hbnd gp hx; omega
          · rw [List.mem_singleton.mp hx]
        · intro n hn1 hn2
          have := hcov' n hn1 hn2
          constructor
          · intro hm; exact Or.inl (this.mp hm)
          · rintro (hx | hlt)
            · exact this.mpr hx
            · omega
      · have h2 : ¬(i < last ∧ (number_map.getD i default).x ≠ NO_COORD ∧
            (number_map.getD (i + 1) default).x = NO_COORD) := by
          rintro ⟨hl, -, hm⟩; exact hop ⟨hl, hm⟩
        have hstep : (compute_gaps_step number_map first last st i).1 =
            cl ++ [⟨a, i, number_map.getD a default, number_map.getD i default⟩] := by
          unfold compute_gaps_step
          dsimp only
          rw [if_pos hclosec, hgaps, List.getLast?_concat]
          dsimp only
          rw [List.dropLast_concat, if_neg h2]
          rfl
        rw [hstep]
        left
        refine ⟨hclp', fun _ => hpi, ?_, hcov'⟩
        intro hlast1
        by_contra hm
        exact hop ⟨by omega, hm⟩

theorem scan_inv_fold (number_map : List location_t) (first last : Nat) :
    ∀ (cnt i : Nat) (st : List gap_t × Nat), i + cnt = last + 1 → first ≤ i →
      scan_inv number_map first last i st.1 →
      scan_inv number_map first last (last + 1)
        ((List.range' i cnt).foldl (compute_gaps_step number_map first last) st).1 := by
  intro cnt
  induction cnt with
  | zero =>
    intro i st h1 h2 hinv
    have hi : i = last + 1 := by omega
    subst hi
    exact hinv
  | succ n ih =>
    intro i st h1 h2 hinv
    rw [List.range'_succ, List.foldl_cons]
    exact ih (i + 1) _ (by omega) (by omega)
      (scan_inv_step number_map first last i st h2 (by omega) hinv)

theorem scan_inv_final (number_map : List location_t) (first last : Nat) (gaps : List gap_t)
    (hplast : ¬ gap_missing number_map last)
    (hinv : scan_inv number_map first last (last + 1) gaps) :
    scan_closed_part number_map first last (last + 1) gaps ∧
    (∀ n, 1 ≤ n → n ≤ last →
      (gap_missing number_map n ↔ ∃ gp, gp ∈ gaps ∧ gp.n1 < n ∧ n < gp.n2)) := by
  rcases hinv with ⟨hclp, -, -, hcov⟩ |
    ⟨cl, a, hgaps, hclp, hbnd, hfa, hal, hai, hpa, hma1, hint, hcov⟩
  · exact ⟨hclp, fun n h1 h2 => hcov n h1 (by omega)⟩
  · exact absurd (hint last (by omega) (by omega)) hplast

/-- A number is missing from the number map exactly when it is absent from
the grid (for in-range numbers on grids at most 255 wide). -/
theorem gap_missing_iff_absent (grid : List Nat) (w h n : Nat) (hw : w ≤ 255)
    (hn1 : 1 ≤ n) (hn2 : n ≤ w * h) :
    gap_missing (compute_number_to_location_map grid w h) n ↔
      ¬ number_present grid (w * h) n := by
  rcases number_map_getD grid w h n hn1 hn2 with ⟨hs, hnp⟩ | ⟨hx, hy, hv⟩
  · constructor
    · intro _; exact hnp
    · intro _
      unfold gap_missing
      rw [hs]
  · constructor
    · intro hm
      exfalso
      unfold gap_missing NO_COORD at hm
      omega
    · intro hnp
      exact absurd ⟨_, nat_row_major_lt w h _ _ hx hy, hv⟩ hnp

theorem number_map_entry_real (grid : List Nat) (w h n : Nat)
    (h1 : 1 ≤ n) (h2 : n ≤ w * h)
    (hnm : ¬ gap_missing (compute_number_to_location_map grid w h) n) :
    ((compute_number_to_location_map grid w h).getD n default).x < w ∧
    ((compute_number_to_location_map grid w h).getD n default).y < h ∧
    grid.getD (((compute_number_to_location_map grid w h).getD n default).y * w +
      ((compute_number_to_location_map grid w h).getD n default).x) 0 = n := by
  rcases number_map_getD grid w h n h1 h2 with ⟨hs, -⟩ | hreal
  · exfalso
    apply hnm
    unfold gap_missing
    rw [hs]
  · exact hreal

theorem gap_anchor_of_closed (grid : List Nat) (w h first last : Nat) (gp : gap_t)
    (hw : w ≤ 255) (h1f : 1 ≤ first) (hll : last ≤ w * h)
    (hok : gap_closed_ok (compute_number_to_location_map grid w h) first last gp) :
    (gp.l1.x = NO_COORD ↔ gp.n1 = 0) ∧
    (gp.l1.x ≠ NO_COORD →
      gp.l1.x < w ∧ gp.l1.y < h ∧ grid.getD (gp.l1.y * w + gp.l1.x) 0 = gp.n1) ∧
    (gp.l2.x = NO_COORD ↔ gp.n2 = w * h + 1) ∧
    (gp.l2.x ≠ NO_COORD →
      gp.l2.x < w ∧ gp.l2.y < h ∧ grid.getD (gp.l2.y * w + gp.l2.x) 0 = gp.n2) := by
  obtain ⟨hn12, hn2l, hp2, hl2, hintm, hdisj⟩ := hok
  have hnc : NO_COORD = 255 := rfl
  have h2re := number_map_entry_real grid w h gp.n2 (by omega) (by omega) hp2
  have h2trip : gp.l2.x < w ∧ gp.l2.y < h ∧
      grid.getD (gp.l2.y * w + gp.l2.x) 0 = gp.n2 := by
    rw [hl2]
    exact h2re
  refine ⟨?_, ?_, ?_, fun _ => h2trip⟩
  · rcases hdisj with ⟨h0, hsent, -⟩ | ⟨hge, hnm1, hl1⟩
    · rw [hsent, h0]
      exact iff_of_true rfl rfl
    · have h1re := number_map_entry_real grid w h gp.n1 (by omega) (by omega) hnm1
      refine iff_of_false ?_ (by omega)
      rw [hl1]
      omega
  · rcases hdisj with ⟨h0, hsent, -⟩ | ⟨hge, hnm1, hl1⟩
    · intro hne
      exfalso
      apply hne
      rw [hsent]
    · intro _
      have h1re := number_map_entry_real grid w h gp.n1 (by omega) (by omega) hnm1
      rw [hl1]
      exact h1re
  · have := h2trip.1
    exact iff_of_false (by omega) (by omega)

/-- Soundness of `compute_gaps`: ordered non-overlapping gaps with nonempty
ranges covering exactly the missing numbers, with correct anchors. -/
theorem compute_gaps_sound (grid : List Nat) (w h : Nat)
    (hw : w ≤ 255)
    (hvals : ∀ i, i < w * h → grid.getD i 0 ≤ w * h)
    (hnz : ∃ i, i < w * h ∧ grid.getD i 0 ≠ 0) :
    ∃ gaps longest, compute_gaps grid w h = some (gaps, longest) ∧
      List.Pairwise (fun g1 g2 => g1.n2 ≤ g2.n1) gaps ∧
      (∀ gp, gp ∈ gaps → gp.n1 + 1 < gp.n2 ∧ gp.n2 ≤ w * h + 1) ∧
      (∀ n, 1 ≤ n → n ≤ w * h →
        (¬ number_present grid (w * h) n ↔ ∃ gp, gp ∈ gaps ∧ gp.n1 < n ∧ n < gp.n2)) ∧
      (∀ gp, gp ∈ gaps →
        (gp.l1.x = NO_COORD ↔ gp.n1 = 0) ∧
        (gp.l1.x ≠ NO_COORD →
          gp.l1.x < w ∧ gp.l1.y < h ∧ grid.getD (gp.l1.y * w + gp.l1.x) 0 = gp.n1) ∧
        (gp.l2.x = NO_COORD ↔ gp.n2 = w * h + 1) ∧
        (gp.l2.x ≠ NO_COORD →
          gp.l2.x < w ∧ gp.l2.y < h ∧ grid.getD (gp.l2.y * w + gp.l2.x) 0 = gp.n2)) := by
  obtain ⟨i0, hi0, hv0⟩ := hnz
  have hv1 : 1 ≤ grid.getD i0 0 := Nat.one_le_iff_ne_zero.mpr hv0
  have hvle : grid.getD i0 0 ≤ w * h := hvals i0 hi0
  have hpres : number_present grid (w * h) (grid.getD i0 0) := ⟨i0, hi0, rfl⟩
  have hnm : ¬ gap_missing (compute_number_to_location_map grid w h) (grid.getD i0 0) :=
    fun hm => (gap_missing_iff_absent grid w h _ hw hv1 hvle).mp hm hpres
  rcases hf1 : (List.range' 1 (w * h)).find?
      (fun i => decide (((compute_number_to_location_map grid w h).getD i default).x ≠
        NO_COORD)) with - | first
  · exfalso
    have hmem : grid.getD i0 0 ∈ List.range' 1 (w * h) :=
      List.mem_range'.mpr ⟨grid.getD i0 0 - 1, by omega, by omega⟩
    exact List.find?_eq_none.mp hf1 _ hmem (decide_eq_true hnm)
  obtain ⟨hpf, h1f, hfub, hminf⟩ := find?_range'_first _ _ _ _ hf1
  have hpfirst : ¬ gap_missing (compute_number_to_location_map grid w h) first :=
    of_decide_eq_true hpf
  have hfle : first ≤ w * h := by omega
  have hmissbelow : ∀ j, 1 ≤ j → j < first →
      gap_missing (compute_number_to_location_map grid w h) j := by
    intro j hj1 hj2
    have := hminf j hj1 hj2
    rw [decide_eq_false_iff_not, not_not] at this
    exact this
  have hfv : first ≤ grid.getD i0 0 := by
    by_contra hc
    exact hnm (hmissbelow _ hv1 (by omega))
  rcases hf2 : (List.range' first (w * h + 1 - first)).reverse.find?
      (fun i => decide (((compute_number_to_location_map grid w h).getD i default).x ≠
        NO_COORD)) with - | last
  · exfalso
    have hmem : grid.getD i0 0 ∈ List.range' first (w * h + 1 - first) :=
      List.mem_range'.mpr ⟨grid.getD i0 0 - first, by omega, by omega⟩
    exact List.find?_eq_none.mp hf2 _ (List.mem_reverse.mpr hmem) (decide_eq_true hnm)
  obtain ⟨hpl, hlfl, hlub, hmaxl⟩ := find?_range'_last _ _ _ _ hf2
  have hplast : ¬ gap_missing (compute_number_to_location_map grid w h) last :=
    of_decide_eq_true hpl
  have hlle : last ≤ w * h := by omega
  have hmissabove : ∀ j, last < j → j ≤ w * h →
      gap_missing (compute_number_to_location_map grid w h) j := by
    intro j hj1 hj2
    have := hmaxl j hj1 (by omega)
    rw [decide_eq_false_iff_not, not_not] at this
    exact this
  -- Invariant holds for the initial state.
  have hinv0 : scan_inv (compute_number_to_location_map grid w h) first last first
      ((if first ≠ 1 then
          ([(⟨0, first, ⟨NO_COORD, NO_COORD⟩,
              (compute_number_to_location_map grid w h).getD first default⟩ : gap_t)],
            max 0 (first - 1))
        else ([], 0) : List gap_t × Nat)).1 := by
    by_cases hf1' : first ≠ 1
    · rw [if_pos hf1']
      left
      refine ⟨⟨?_, List.pairwise_singleton _ _⟩, fun hlt => absurd hlt (by omega),
        fun _ => hpfirst, ?_⟩
      · intro gp hgp
        rw [List.mem_singleton.mp hgp]
        refine ⟨⟨by show 0 + 1 < first; omega, by show first ≤ last; omega, hpfirst, rfl,
          ?_, Or.inl ⟨rfl, rfl, rfl⟩⟩, by show first ≤ first; omega⟩
        intro m hm1 hm2
        exact hmissbelow m (by omega) hm2
      · intro n hn1 hn2
        refine iff_of_true (hmissbelow n hn1 hn2) ?_
        exact ⟨_, List.mem_singleton.mpr rfl, by show 0 < n; omega, by show n < first; omega⟩
    · rw [if_neg hf1']
      left
      refine ⟨⟨fun gp hgp => absurd hgp (List.not_mem_nil gp), List.Pairwise.nil⟩,
        fun hlt => absurd hlt (by omega), fun _ => hpfirst, ?_⟩
      intro n hn1 hn2
      exact absurd hn2 (by omega)
  have hinvF := scan_inv_fold (compute_number_to_location_map grid w h) first last
    (last + 1 - first) first _ (by omega) (Nat.le_refl first) hinv0
  obtain ⟨hclpF, hcovF⟩ := scan_inv_final (compute_number_to_location_map grid w h)
    first last _ hplast hinvF
  -- Reduce `compute_gaps` to the scan result.
  unfold compute_gaps
  dsimp only
  rw [hf1]
  dsimp only
  rw [hf2]
  dsimp only
  by_cases hla : last = w * h
  · rw [if_neg (fun hc => hc hla)]
    refine ⟨_, _, rfl, hclpF.2, ?_, ?_, ?_⟩
    · intro gp hgp
      have := hclpF.1 gp hgp
      exact ⟨this.1.1, by have := this.1.2.1; omega⟩
    · intro n hn1 hn2
      rw [← gap_missing_iff_absent grid w h n hw hn1 hn2]
      exact hcovF n hn1 (by omega)
    · intro gp hgp
      exact gap_anchor_of_closed grid w h first last gp hw (by omega) hlle
        (hclpF.1 gp hgp).1
  · rw [if_pos hla]
    refine ⟨_, _, rfl, ?_, ?_, ?_, ?_⟩
    · refine List.pairwise_append.mpr ⟨hclpF.2, List.pairwise_singleton _ _, ?_⟩
      intro g1 hg1 g2 hg2
      rw [List.mem_singleton.mp hg2]
      exact (hclpF.1 g1 hg1).1.2.1
    · intro gp hgp
      rcases List.mem_append.mp hgp with hx | hx
      · have := hclpF.1 gp hx
        exact ⟨this.1.1, by have := this.1.2.1; omega⟩
      · rw [List.mem_singleton.mp hx]
        exact ⟨by show last + 1 < w * h + 1; omega, by show w * h + 1 ≤ w * h + 1; omega⟩
    · intro n hn1 hn2
      rw [← gap_missing_iff_absent grid w h n hw hn1 hn2]
      by_cases hnl : n ≤ last
      · have := hcovF n hn1 hnl
        constructor
        · intro hm
          obtain ⟨gp, hgp, hi1, hi2⟩ := this.mp hm
          exact ⟨gp, List.mem_append.mpr (Or.inl hgp), hi1, hi2⟩
        · rintro ⟨gp, hgp, hi1, hi2⟩
          rcases List.mem_append.mp hgp with hx | hx
          · exact this.mpr ⟨gp, hx, hi1, hi2⟩
          · rw [List.mem_singleton.mp hx] at hi1
            exact absurd hi1 (by show ¬ last < n; omega)
      · refine iff_of_true (hmissabove n (by omega) hn2) ?_
        exact ⟨_, List.mem_append.mpr (Or.inr (List.mem_singleton.mpr rfl)),
          by show last < n; omega, by show n < w * h + 1; omega⟩
    · intro gp hgp
      rcases List.mem_append.mp hgp with hx | hx
      · exact gap_anchor_of_closed grid w h first last gp hw (by omega) hlle
          (hclpF.1 gp hx).1
      · rw [List.mem_singleton.mp hx]
        have hnc : NO_COORD = 255 := rfl
        obtain ⟨hre1, hre2, hre3⟩ :=
          number_map_entry_real grid w h last (Nat.le_trans h1f hlfl) hlle hplast
        refine ⟨iff_of_false
            (by show ¬ ((compute_number_to_location_map grid w h).getD last default).x =
                  NO_COORD
                rw [hnc]; omega)
            (by show ¬ last = 0; omega),
          fun _ => ⟨hre1, hre2, hre3⟩, iff_of_true rfl rfl, fun hne => absurd rfl hne⟩

theorem claim_C6_gap_list_invariant (grid : List Nat) (w h : Nat)
    (hw : w ≤ 255)
    (hvals : ∀ i, i < w * h → grid.getD i 0 ≤ w * h)
    (hnz : ∃ i, i < w * h ∧ grid.getD i 0 ≠ 0) :
    ∃ gaps longest, compute_gaps grid w h = some (gaps, longest) ∧
      List.Pairwise (fun g1 g2 => g1.n2 ≤ g2.n1) gaps ∧
      (∀ gp, gp ∈ gaps → gp.n1 + 1 < gp.n2 ∧ gp.n2 ≤ w * h + 1) ∧
      (∀ n, 1 ≤ n → n ≤ w * h →
        (¬ number_present grid (w * h) n ↔ ∃ gp, gp ∈ gaps ∧ gp.n1 < n ∧ n < gp.n2)) ∧
      (∀ gp, gp ∈ gaps →
        (gp.l1.x = NO_COORD ↔ gp.n1 = 0) ∧
        (gp.l1.x ≠ NO_COORD →
          gp.l1.x < w ∧ gp.l1.y < h ∧ grid.getD (gp.l1.y * w + gp.l1.x) 0 = gp.n1) ∧
        (gp.l2.x = NO_COORD ↔ gp.n2 = w * h + 1) ∧
        (gp.l2.x ≠ NO_COORD →
          gp.l2.x < w ∧ gp.l2.y < h ∧ grid.getD (gp.l2.y * w + gp.l2.x) 0 = gp.n2)) :=
  compute_gaps_sound grid w h hw hvals hnz

theorem claim_C6_witness :
    (3 ≤ 255 ∧ (∀ i, i < 3 * 1 → [1, 0, 3].getD i 0 ≤ 3 * 1) ∧
      (∃ i, i < 3 * 1 ∧ [1, 0, 3].getD i 0 ≠ 0)) ∧
    (∃ gaps longest, compute_gaps [1, 0, 3] 3 1 = some (gaps, longest) ∧
      List.Pairwise (fun g1 g2 => g1.n2 ≤ g2.n1) gaps ∧
      (∀ gp, gp ∈ gaps → gp.n1 + 1 < gp.n2 ∧ gp.n2 ≤ 3 * 1 + 1) ∧
      (∀ n, 1 ≤ n → n ≤ 3 * 1 →
        (¬ number_present [1, 0, 3] (3 * 1) n ↔ ∃ gp, gp ∈ gaps ∧ gp.n1 < n ∧ n < gp.n2)) ∧
      (∀ gp, gp ∈ gaps →
        (gp.l1.x = NO_COORD ↔ gp.n1 = 0) ∧
        (gp.l1.x ≠ NO_COORD →
          gp.l1.x < 3 ∧ gp.l1.y < 1 ∧ [1, 0, 3].getD (gp.l1.y * 3 + gp.l1.x) 0 = gp.n1) ∧
        (gp.l2.x = NO_COORD ↔ gp.n2 = 3 * 1 + 1) ∧
        (gp.l2.x ≠ NO_COORD →
          gp.l2.x < 3 ∧ gp.l2.y < 1 ∧ [1, 0, 3].getD (gp.l2.y * 3 + gp.l2.x) 0 = gp.n2))) :=
  ⟨⟨by decide, by decide, by decide⟩,
    claim_C6_gap_list_invariant [1, 0, 3] 3 1 (by decide) (by decide) (by decide)⟩

/-- Two cells are adjacent under the active adjacency mode (distance 1, as
the path code measures it). -/
def loc_adjacent (diagonal : Bool) (c1 c2 : location_t) : Prop :=
  distance c1.x c1.y c2.x c2.y diagonal = 1

instance (diagonal : Bool) (c1 c2 : location_t) : Decidable (loc_adjacent diagonal c1 c2) := by
  unfold loc_adjacent; infer_instance

theorem loc_adjacent_symm (diagonal : Bool) (c1 c2 : location_t)
    (h : loc_adjacent diagonal c1 c2) : loc_adjacent diagonal c2 c1 := by
  unfold loc_adjacent distance manhattan_distance chebyshev_distance at h ⊢
  rw [Nat.dist_comm c2.x c1.x, Nat.dist_comm c2.y c1.y]
  exact h

theorem loc_adjacent_orth (diagonal : Bool) (c1 c2 : location_t)
    (h : (Nat.dist c1.x c2.x = 1 ∧ c1.y = c2.y) ∨ (c1.x = c2.x ∧ Nat.dist c1.y c2.y = 1)) :
    loc_adjacent diagonal c1 c2 := by
  unfold loc_adjacent distance manhattan_distance chebyshev_distance
  rcases h with ⟨h1, h2⟩ | ⟨h1, h2⟩ <;> rw [h1, h2] <;> cases diagonal <;>
    simp [Nat.dist_self]

theorem loc_adjacent_diag (c1 c2 : location_t)
    (h1 : Nat.dist c1.x c2.x = 1) (h2 : Nat.dist c1.y c2.y = 1) :
    loc_adjacent true c1 c2 := by
  unfold loc_adjacent distance chebyshev_distance
  rw [h1, h2]
  rfl

/-- `path` is a Hamiltonian path of the `w` by `h` grid under the active
adjacency mode: it visits `area` pairwise-distinct in-bounds cells and each
consecutive pair is adjacent. -/
def IsHamPath (path : List location_t) (w h : Nat) (diagonal : Bool) : Prop :=
  path.length = w * h ∧ path.Nodup ∧ (∀ c ∈ path, c.x < w ∧ c.y < h) ∧
  List.Chain' (loc_adjacent diagonal) path

theorem reverse_locations_perm (l : List location_t) (k : Nat) :
    (reverse_locations l k).Perm l := by
  unfold reverse_locations
  calc ((l.take k).reverse ++ l.drop k).Perm (l.take k ++ l.drop k) :=
        (List.reverse_perm (l.take k)).append_right _
    _ = l := List.take_append_drop k l

theorem reverse_locations_all (l : List location_t) (k : Nat) (hk : l.length ≤ k) :
    reverse_locations l k = l.reverse := by
  unfold reverse_locations
  rw [List.take_of_length_le hk, List.drop_of_length_le hk, List.append_nil]

theorem IsHamPath_reverse (path : List location_t) (w h : Nat) (diagonal : Bool)
    (hp : IsHamPath path w h diagonal) : IsHamPath path.reverse w h diagonal := by
  obtain ⟨hlen, hnd, hmem, hch⟩ := hp
  refine ⟨by rw [List.length_reverse]; exact hlen, List.nodup_reverse.mpr hnd,
    fun c hc => hmem c (List.mem_reverse.mp hc), ?_⟩
  rw [List.chain'_reverse]
  exact hch.imp (fun a b hab => loc_adjacent_symm diagonal a b hab)

theorem chain'_reverse_locations (diagonal : Bool) (l : List location_t) (k : Nat)
    (hch : List.Chain' (loc_adjacent diagonal) l) (hk : k < l.length)
    (hadj : loc_adjacent diagonal (l.getD k default) (l.getD 0 default)) :
    List.Chain' (loc_adjacent diagonal) (reverse_locations l k) := by
  by_cases hk0 : k = 0
  · subst hk0
    unfold reverse_locations
    rw [List.take_zero, List.reverse_nil, List.drop_zero, List.nil_append]
    exact hch
  · unfold reverse_locations
    rw [List.chain'_append]
    refine ⟨?_, hch.drop k, ?_⟩
    · rw [List.chain'_reverse]
      exact (hch.take k).imp (fun a b hab => loc_adjacent_symm diagonal a b hab)
    · intro x hx y hy
      rw [List.getLast?_reverse, List.head?_take, if_neg hk0, List.head?_eq_getElem?,
        List.getElem?_eq_getElem (by omega)] at hx
      rw [List.head?_drop, List.getElem?_eq_getElem hk] at hy
      have hx' : x = l.getD 0 default := by
        rw [List.getD_eq_getElem?_getD, List.getElem?_eq_getElem (by omega)]
        cases hx
        rfl
      have hy' : y = l.getD k default := by
        rw [List.getD_eq_getElem?_getD, List.getElem?_eq_getElem hk]
        cases hy
        rfl
      rw [hx', hy']
      exact loc_adjacent_symm diagonal _ _ hadj

theorem IsHamPath_reverse_locations (path : List location_t) (w h : Nat) (diagonal : Bool)
    (k : Nat) (hp : IsHamPath path w h diagonal)
    (hcase : path.length ≤ k ∨ (k < path.length ∧
      loc_adjacent diagonal (path.getD k default) (path.getD 0 default))) :
    IsHamPath (reverse_locations path k) w h diagonal := by
  rcases hcase with hge | ⟨hlt, hadj⟩
  · rw [reverse_locations_all path k hge]
    exact IsHamPath_reverse path w h diagonal hp
  · obtain ⟨hlen, hnd, hmem, hch⟩ := hp
    have hperm := reverse_locations_perm path k
    exact ⟨by rw [hperm.length_eq]; exact hlen, hperm.nodup_iff.mpr hnd,
      fun c hc => hmem c (hperm.mem_iff.mp hc),
      chain'_reverse_locations diagonal path k hch hlt hadj⟩

theorem simple_hampath_length (w h : Nat) : (simple_hampath w h).length = w * h := by
  unfold simple_hampath
  rw [List.length_flatMap]
  have hmap : List.map (List.length ∘ fun y =>
      if y % 2 = 0 then (List.range w).map (fun x => (⟨x, y⟩ : location_t))
      else (List.range w).reverse.map (fun x => (⟨x, y⟩ : location_t))) (List.range h) =
      List.replicate h w := by
    rw [List.eq_replicate_iff]
    refine ⟨by rw [List.length_map, List.length_range], ?_⟩
    intro b hb
    rw [List.mem_map] at hb
    obtain ⟨y, -, hy⟩ := hb
    rw [← hy]
    by_cases hy2 : y % 2 = 0 <;> simp [hy2, Function.comp]
  rw [hmap, List.sum_replicate, smul_eq_mul, Nat.mul_comm]

theorem simple_hampath_mem (w h : Nat) (c : location_t) :
    c ∈ simple_hampath w h ↔ c.x < w ∧ c.y < h := by
  unfold simple_hampath
  rw [List.mem_flatMap]
  constructor
  · rintro ⟨y, hy, hc⟩
    rw [List.mem_range] at hy
    by_cases hy2 : y % 2 = 0
    · rw [if_pos hy2, List.mem_map] at hc
      obtain ⟨x, hx, rfl⟩ := hc
      rw [List.mem_range] at hx
      exact ⟨hx, hy⟩
    · rw [if_neg hy2, List.mem_map] at hc
      obtain ⟨x, hx, rfl⟩ := hc
      rw [List.mem_reverse, List.mem_range] at hx
      exact ⟨hx, hy⟩
  · rintro ⟨hx, hy⟩
    refine ⟨c.y, List.mem_range.mpr hy, ?_⟩
    by_cases hy2 : c.y % 2 = 0
    · rw [if_pos hy2, List.mem_map]
      exact ⟨c.x, List.mem_range.mpr hx, rfl⟩
    · rw [if_neg hy2, List.mem_map]
      exact ⟨c.x, List.mem_reverse.mpr (List.mem_range.mpr hx), rfl⟩

theorem simple_row_mem_y (w y : Nat) (c : location_t)
    (hc : c ∈ (if y % 2 = 0 then (List.range w).map (fun x => (⟨x, y⟩ : location_t))
      else (List.range w).reverse.map (fun x => (⟨x, y⟩ : location_t)))) :
    c.y = y := by
  by_cases hy2 : y % 2 = 0
  · rw [if_pos hy2, List.mem_map] at hc
    obtain ⟨x, -, rfl⟩ := hc
    rfl
  · rw [if_neg hy2, List.mem_map] at hc
    obtain ⟨x, -, rfl⟩ := hc
    rfl

theorem simple_hampath_nodup (w h : Nat) : (simple_hampath w h).Nodup := by
  unfold simple_hampath
  rw [List.nodup_flatMap]
  constructor
  · intro y hy
    have hinj : Function.Injective (fun x => (⟨x, y⟩ : location_t)) := by
      intro a b hab
      injection hab with h1 h2
    by_cases hy2 : y % 2 = 0
    · rw [if_pos hy2]
      exact List.Nodup.map hinj (List.nodup_range w)
    · rw [if_neg hy2]
      exact List.Nodup.map hinj (List.nodup_reverse.mpr (List.nodup_range w))
  · refine (List.pairwise_lt_range h).imp ?_
    intro y1 y2 hlt
    intro c hc1 hc2
    have h1 := simple_row_mem_y w y1 c hc1
    have h2 := simple_row_mem_y w y2 c hc2
    omega

theorem simple_row_chain (w y : Nat) (diagonal : Bool) :
    List.Chain' (loc_adjacent diagonal)
      (if y % 2 = 0 then (List.range w).map (fun x => (⟨x, y⟩ : location_t))
       else (List.range w).reverse.map (fun x => (⟨x, y⟩ : location_t))) := by
  by_cases hy2 : y % 2 = 0
  · rw [if_pos hy2, List.chain'_map]
    cases w with
    | zero => rw [List.range_zero]; exact List.chain'_nil
    | succ n =>
      rw [List.chain'_range_succ]
      intro m hm
      exact loc_adjacent_orth diagonal _ _
        (Or.inl ⟨by show Nat.dist m (m + 1) = 1; rw [nat_dist_eq_sub]; omega, rfl⟩)
  · rw [if_neg hy2, List.map_reverse, List.chain'_reverse, List.chain'_map]
    cases w with
    | zero => rw [List.range_zero]; exact List.chain'_nil
    | succ n =>
      rw [List.chain'_range_succ]
      intro m hm
      exact loc_adjacent_orth diagonal _ _
        (Or.inl ⟨by show Nat.dist (m + 1) m = 1; rw [nat_dist_eq_sub]; omega, rfl⟩)

theorem simple_row_head? (w y : Nat) (hw : 1 ≤ w) :
    (if y % 2 = 0 then (List.range w).map (fun x => (⟨x, y⟩ : location_t))
     else (List.range w).reverse.map (fun x => (⟨x, y⟩ : location_t))).head? =
      some (if y % 2 = 0 then (⟨0, y⟩ : location_t) else ⟨w - 1, y⟩) := by
  obtain ⟨n, rfl⟩ : ∃ n, w = n + 1 := ⟨w - 1, by omega⟩
  by_cases hy2 : y % 2 = 0
  · rw [if_pos hy2, if_pos hy2, List.head?_map, List.range_succ_eq_map]
    rfl
  · rw [if_neg hy2, if_neg hy2, List.head?_map, List.head?_reverse, List.range_succ,
      List.getLast?_concat]
    rfl

theorem simple_row_getLast? (w y : Nat) (hw : 1 ≤ w) :
    (if y % 2 = 0 then (List.range w).map (fun x => (⟨x, y⟩ : location_t))
     else (List.range w).reverse.map (fun x => (⟨x, y⟩ : location_t))).getLast? =
      some (if y % 2 = 0 then (⟨w - 1, y⟩ : location_t) else ⟨0, y⟩) := by
  obtain ⟨n, rfl⟩ : ∃ n, w = n + 1 := ⟨w - 1, by omega⟩
  by_cases hy2 : y % 2 = 0
  · rw [if_pos hy2, if_pos hy2, List.getLast?_map, List.range_succ, List.getLast?_concat]
    rfl
  · rw [if_neg hy2, if_neg hy2, List.getLast?_map, List.getLast?_reverse,
      List.range_succ_eq_map]
    rfl

theorem simple_hampath_getLast? (w h : Nat) (hw : 1 ≤ w) (hh : 1 ≤ h) :
    (simple_hampath w h).getLast? =
      some (if (h - 1) % 2 = 0 then (⟨w - 1, h - 1⟩ : location_t) else ⟨0, h - 1⟩) := by
  obtain ⟨k, rfl⟩ : ∃ k, h = k + 1 := ⟨h - 1, by omega⟩
  unfold simple_hampath
  rw [List.range_succ, List.flatMap_append, List.getLast?_append, List.flatMap_cons,
    List.flatMap_nil, List.append_nil, simple_row_getLast? _ _ hw]
  rfl

theorem simple_hampath_chain (w h : Nat) (hw : 1 ≤ w) (diagonal : Bool) :
    List.Chain' (loc_adjacent diagonal) (simple_hampath w h) := by
  induction h with
  | zero =>
    unfold simple_hampath
    rw [List.range_zero, List.flatMap_nil]
    exact List.chain'_nil
  | succ n ih =>
    have hstruct : simple_hampath w (n + 1) = simple_hampath w n ++
        (if n % 2 = 0 then (List.range w).map (fun x => (⟨x, n⟩ : location_t))
         else (List.range w).reverse.map (fun x => (⟨x, n⟩ : location_t))) := by
      unfold simple_hampath
      rw [List.range_succ, List.flatMap_append, List.flatMap_cons, List.flatMap_nil,
        List.append_nil]
    rw [hstruct, List.chain'_append]
    refine ⟨ih, simple_row_chain w n diagonal, ?_⟩
    intro x hx y hy
    cases n with
    | zero =>
      unfold simple_hampath at hx
      rw [List.range_zero, List.flatMap_nil] at hx
      cases hx
    | succ m =>
      rw [Option.mem_def] at hx hy
      rw [simple_hampath_getLast? w (m + 1) hw (by omega)] at hx
      rw [simple_row_head? w (m + 1) hw] at hy
      have hx' := Option.some.inj hx.symm
      have hy' := Option.some.inj hy.symm
      by_cases hm2 : m % 2 = 0
      · rw [if_pos (by show (m + 1 - 1) % 2 = 0; omega)] at hx'
        rw [if_neg (by omega)] at hy'
        rw [hx', hy']
        exact loc_adjacent_orth diagonal _ _
          (Or.inr ⟨rfl, by show Nat.dist (m + 1 - 1) (m + 1) = 1; rw [nat_dist_eq_sub]; omega⟩)
      · rw [if_neg (by show ¬ (m + 1 - 1) % 2 = 0; omega)] at hx'
        rw [if_pos (by omega)] at hy'
        rw [hx', hy']
        exact loc_adjacent_orth diagonal _ _
          (Or.inr ⟨rfl, by show Nat.dist (m + 1 - 1) (m + 1) = 1; rw [nat_dist_eq_sub]; omega⟩)

theorem simple_hampath_isHamPath (w h : Nat) (hw : 1 ≤ w) (diagonal : Bool) :
    IsHamPath (simple_hampath w h) w h diagonal :=
  ⟨simple_hampath_length w h, simple_hampath_nodup w h,
    fun c hc => (simple_hampath_mem w h c).mp hc, simple_hampath_chain w h hw diagonal⟩

theorem mem_if_single {P : Prop} [Decidable P] {c v : location_t}
    (h : c ∈ (if P then [v] else ([] : List location_t))) : P ∧ c = v := by
  by_cases hp : P
  · rw [if_pos hp] at h
    exact ⟨hp, List.mem_singleton.mp h⟩
  · rw [if_neg hp] at h
    cases h

theorem get_neighbors_except_spec (cursor except : location_t) (w h : Nat) (diagonal : Bool)
    (hcx : cursor.x < w) (hcy : cursor.y < h) (c : location_t)
    (hc : c ∈ get_neighbors_except cursor except w h diagonal) :
    c.x < w ∧ c.y < h ∧ c ≠ except ∧ loc_adjacent diagonal c cursor := by
  unfold get_neighbors_except at hc
  rw [List.mem_filter] at hc
  obtain ⟨hmem, hne⟩ := hc
  refine ⟨?_, ?_, of_decide_eq_true hne, ?_⟩ <;>
  · simp only [List.mem_append] at hmem
    rcases hmem with ((((h1 | h2) | h3) | h4) | h5)
    · obtain ⟨hp, rfl⟩ := mem_if_single h1
      first
        | exact hcx
        | (show cursor.y - 1 < h; omega)
        | exact loc_adjacent_orth diagonal _ _ (Or.inr ⟨rfl, by show Nat.dist (cursor.y - 1) cursor.y = 1; rw [nat_dist_eq_sub]; omega⟩)
    · obtain ⟨hp, rfl⟩ := mem_if_single h2
      first
        | exact hcx
        | (show cursor.y + 1 < h; omega)
        | exact loc_adjacent_orth diagonal _ _ (Or.inr ⟨rfl, by show Nat.dist (cursor.y + 1) cursor.y = 1; rw [nat_dist_eq_sub]; omega⟩)
    · obtain ⟨hp, rfl⟩ := mem_if_single h3
      first
        | (show cursor.x - 1 < w; omega)
        | exact hcy
        | exact loc_adjacent_orth diagonal _ _ (Or.inl ⟨by show Nat.dist (cursor.x - 1) cursor.x = 1; rw [nat_dist_eq_sub]; omega, rfl⟩)
    · obtain ⟨hp, rfl⟩ := mem_if_single h4
      first
        | (show cursor.x + 1 < w; omega)
        | exact hcy
        | exact loc_adjacent_orth diagonal _ _ (Or.inl ⟨by show Nat.dist (cursor.x + 1) cursor.x = 1; rw [nat_dist_eq_sub]; omega, rfl⟩)
    · cases diagonal with
      | false =>
        rw [if_neg (by simp)] at h5
        cases h5
      | true =>
        rw [if_pos rfl] at h5
        simp only [List.mem_append] at h5
        rcases h5 with ((h6 | h7) | h8) | h9
        · obtain ⟨hp, rfl⟩ := mem_if_single h6
          first
            | (show cursor.x - 1 < w; omega)
            | (show cursor.y - 1 < h; omega)
            | exact loc_adjacent_diag _ _ (by show Nat.dist (cursor.x - 1) cursor.x = 1; rw [nat_dist_eq_sub]; omega) (by show Nat.dist (cursor.y - 1) cursor.y = 1; rw [nat_dist_eq_sub]; omega)
        · obtain ⟨hp, rfl⟩ := mem_if_single h7
          first
            | (show cursor.x - 1 < w; omega)
            | (show cursor.y + 1 < h; omega)
            | exact loc_adjacent_diag _ _ (by show Nat.dist (cursor.x - 1) cursor.x = 1; rw [nat_dist_eq_sub]; omega) (by show Nat.dist (cursor.y + 1) cursor.y = 1; rw [nat_dist_eq_sub]; omega)
        · obtain ⟨hp, rfl⟩ := mem_if_single h8
          first
            | (show cursor.x + 1 < w; omega)
            | (show cursor.y - 1 < h; omega)
            | exact loc_adjacent_diag _ _ (by show Nat.dist (cursor.x + 1) cursor.x = 1; rw [nat_dist_eq_sub]; omega) (by show Nat.dist (cursor.y - 1) cursor.y = 1; rw [nat_dist_eq_sub]; omega)
        · obtain ⟨hp, rfl⟩ := mem_if_single h9
          first
            | (show cursor.x + 1 < w; omega)
            | (show cursor.y + 1 < h; omega)
            | exact loc_adjacent_diag _ _ (by show Nat.dist (cursor.x + 1) cursor.x = 1; rw [nat_dist_eq_sub]; omega) (by show Nat.dist (cursor.y + 1) cursor.y = 1; rw [nat_dist_eq_sub]; omega)

theorem filter_ne_length_pos (l : List location_t) (e v1 v2 : location_t)
    (h1 : v1 ∈ l) (h2 : v2 ∈ l) (hne : v1 ≠ v2) :
    0 < (l.filter (fun c => c ≠ e)).length := by
  by_cases hv1 : v1 = e
  · have hv2 : v2 ≠ e := fun he => hne (by rw [hv1, he])
    exact List.length_pos_of_mem (List.mem_filter.mpr ⟨h2, decide_eq_true hv2⟩)
  · exact List.length_pos_of_mem (List.mem_filter.mpr ⟨h1, decide_eq_true hv1⟩)

theorem get_neighbors_except_nonempty (cursor except : location_t) (w h : Nat)
    (diagonal : Bool) (hw : 2 ≤ w) (hh : 2 ≤ h) (hcx : cursor.x < w) (hcy : cursor.y < h) :
    0 < (get_neighbors_except cursor except w h diagonal).length := by
  unfold get_neighbors_except
  by_cases h1 : 1 ≤ cursor.y <;> by_cases h2 : 1 ≤ cursor.x
  · refine filter_ne_length_pos _ except ⟨cursor.x, cursor.y - 1⟩ ⟨cursor.x - 1, cursor.y⟩
      ?_ ?_ (by intro he; injection he with he1 he2; omega)
    · simp only [List.mem_append]
      refine Or.inl (Or.inl (Or.inl (Or.inl ?_)))
      rw [if_pos h1]
      exact List.mem_singleton.mpr rfl
    · simp only [List.mem_append]
      refine Or.inl (Or.inl (Or.inr ?_))
      rw [if_pos h2]
      exact List.mem_singleton.mpr rfl
  · refine filter_ne_length_pos _ except ⟨cursor.x, cursor.y - 1⟩ ⟨cursor.x + 1, cursor.y⟩
      ?_ ?_ (by intro he; injection he with he1 he2; omega)
    · simp only [List.mem_append]
      refine Or.inl (Or.inl (Or.inl (Or.inl ?_)))
      rw [if_pos h1]
      exact List.mem_singleton.mpr rfl
    · simp only [List.mem_append]
      refine Or.inl (Or.inr ?_)
      rw [if_pos (by omega : cursor.x + 1 < w)]
      exact List.mem_singleton.mpr rfl
  · refine filter_ne_length_pos _ except ⟨cursor.x, cursor.y + 1⟩ ⟨cursor.x - 1, cursor.y⟩
      ?_ ?_ (by intro he; injection he with he1 he2; omega)
    · simp only [List.mem_append]
      refine Or.inl (Or.inl (Or.inl (Or.inr ?_)))
      rw [if_pos (by omega : cursor.y + 1 < h)]
      exact List.mem_singleton.mpr rfl
    · simp only [List.mem_append]
      refine Or.inl (Or.inl (Or.inr ?_))
      rw [if_pos h2]
      exact List.mem_singleton.mpr rfl
  · refine filter_ne_length_pos _ except ⟨cursor.x, cursor.y + 1⟩ ⟨cursor.x + 1, cursor.y⟩
      ?_ ?_ (by intro he; injection he with he1 he2; omega)
    · simp only [List.mem_append]
      refine Or.inl (Or.inl (Or.inl (Or.inr ?_)))
      rw [if_pos (by omega : cursor.y + 1 < h)]
      exact List.mem_singleton.mpr rfl
    · simp only [List.mem_append]
      refine Or.inl (Or.inr ?_)
      rw [if_pos (by omega : cursor.x + 1 < w)]
      exact List.mem_singleton.mpr rfl

theorem getD_mem_loc (l : List location_t) (n : Nat) (hn : n < l.length) :
    l.getD n default ∈ l := by
  rw [List.getD_eq_getElem?_getD, List.getElem?_eq_getElem hn]
  exact List.getElem_mem hn

theorem IsHamPath_shuffle_reversal (w h : Nat) (diagonal : Bool)
    (hw : 2 ≤ w) (hh : 2 ≤ h)
    (path : List location_t) (hp : IsHamPath path w h diagonal) (b : location_t)
    (hb : b ∈ get_neighbors_except (path.getD 0 default) (path.getD 1 default) w h diagonal) :
    IsHamPath (reverse_locations path (find_location path b.x b.y)) w h diagonal := by
  have hlen0 : 0 < path.length := by
    rw [hp.1]
    have : 4 ≤ w * h := Nat.mul_le_mul hw hh
    omega
  have hcur : path.getD 0 default ∈ path := getD_mem_loc path 0 hlen0
  obtain ⟨hbx, hby, hbne, hbadj⟩ := get_neighbors_except_spec _ _ w h diagonal
    (hp.2.2.1 _ hcur).1 (hp.2.2.1 _ hcur).2 b hb
  unfold find_location
  rcases Nat.lt_or_ge (path.findIdx (fun c => c.x == b.x && c.y == b.y)) path.length
    with hlt | hge
  · apply IsHamPath_reverse_locations path w h diagonal _ hp
    right
    refine ⟨hlt, ?_⟩
    have hpred := @List.findIdx_getElem _ (fun c => c.x == b.x && c.y == b.y) path hlt
    rw [Bool.and_eq_true, beq_iff_eq, beq_iff_eq] at hpred
    have hfound : path.getD (path.findIdx (fun c => c.x == b.x && c.y == b.y)) default = b := by
      rw [List.getD_eq_getElem?_getD, List.getElem?_eq_getElem hlt]
      show path[path.findIdx (fun c => c.x == b.x && c.y == b.y)] = b
      rw [show path[path.findIdx (fun c => c.x == b.x && c.y == b.y)] =
          (⟨(path[path.findIdx (fun c => c.x == b.x && c.y == b.y)]).x,
            (path[path.findIdx (fun c => c.x == b.x && c.y == b.y)]).y⟩ : location_t) from rfl,
        hpred.1, hpred.2]
    rw [hfound]
    exact hbadj
  · exact IsHamPath_reverse_locations path w h diagonal _ hp (Or.inl hge)

theorem random_hampath_isHamPath (rs : random_state) (w h : Nat) (diagonal : Bool)
    (hw : 2 ≤ w) (hh : 2 ≤ h) :
    IsHamPath (random_hampath rs w h diagonal).1 w h diagonal := by
  have harea : 4 ≤ w * h := Nat.mul_le_mul hw hh
  have hfold : ∀ (f : (List location_t × random_state) → Nat → (List location_t × random_state)),
      (∀ acc i, IsHamPath acc.1 w h diagonal → IsHamPath (f acc i).1 w h diagonal) →
      ∀ (L : List Nat) (acc : List location_t × random_state),
        IsHamPath acc.1 w h diagonal → IsHamPath (L.foldl f acc).1 w h diagonal := by
    intro f hf L
    induction L with
    | nil => exact fun acc hacc => hacc
    | cons a L ih =>
      intro acc hacc
      rw [List.foldl_cons]
      exact ih _ (hf acc a hacc)
  unfold random_hampath
  dsimp only
  refine hfold _ ?_ _ _ (simple_hampath_isHamPath w h (by omega) diagonal)
  intro acc i hacc
  dsimp only
  have hcore : ∀ (P : List location_t), IsHamPath P w h diagonal →
      IsHamPath (reverse_locations P (find_location P
        ((get_neighbors_except (P.getD 0 default) (P.getD 1 default) w h diagonal).getD
          (random_upto acc.2 (get_neighbors_except (P.getD 0 default) (P.getD 1 default)
            w h diagonal).length).1 default).x
        ((get_neighbors_except (P.getD 0 default) (P.getD 1 default) w h diagonal).getD
          (random_upto acc.2 (get_neighbors_except (P.getD 0 default) (P.getD 1 default)
            w h diagonal).length).1 default).y)) w h diagonal := by
    intro P hP
    have hlen0 : 0 < P.length := by rw [hP.1]; omega
    have hcurb := hP.2.2.1 _ (getD_mem_loc P 0 hlen0)
    have hpos : 0 < (get_neighbors_except (P.getD 0 default) (P.getD 1 default)
        w h diagonal).length :=
      get_neighbors_except_nonempty _ _ w h diagonal hw hh hcurb.1 hcurb.2
    apply IsHamPath_shuffle_reversal w h diagonal hw hh P hP _
      (getD_mem_loc _ _ (Nat.mod_lt _ hpos))
  by_cases hc : i = SHUFFLE_FACTOR * (w * h)
  · simp only [if_pos hc]
    refine hcore _ ?_
    rw [reverse_locations_all _ _ (Nat.le_refl _)]
    exact IsHamPath_reverse _ _ _ _ hacc
  · simp only [if_neg hc]
    exact hcore _ hacc

theorem foldl_set_untouched (idx : Nat → Nat) :
    ∀ (L : List Nat) (g : List Nat) (j : Nat), (∀ i, i ∈ L → idx i ≠ j) →
      (L.foldl (fun g i => g.set (idx i) (i + 1)) g).getD j 0 = g.getD j 0 := by
  intro L
  induction L with
  | nil => intro g j _; rfl
  | cons a L ih =>
    intro g j hne
    rw [List.foldl_cons, ih _ _ (fun i hi => hne i (List.mem_cons_of_mem a hi))]
    exact set_getD_ne g _ j _ 0 (hne a (List.mem_cons_self a L))

theorem foldl_set_getD_at (idx : Nat → Nat) :
    ∀ (L : List Nat) (g : List Nat) (n : Nat), n ∈ L → L.Nodup →
      (∀ i, i ∈ L → idx i = idx n → i = n) → idx n < g.length →
      (L.foldl (fun g i => g.set (idx i) (i + 1)) g).getD (idx n) 0 = n + 1 := by
  intro L
  induction L with
  | nil => intro g n hn; cases hn
  | cons a L ih =>
    intro g n hn hnd hinj hr
    rw [List.foldl_cons]
    by_cases han : a = n
    · subst han
      have hnotin : a ∉ L := (List.nodup_cons.mp hnd).1
      rw [foldl_set_untouched idx L _ (idx a) ?_]
      · exact set_getD_self g (idx a) (a + 1) 0 hr
      · intro i hi hie
        have := hinj i (List.mem_cons_of_mem a hi) hie
        rw [this] at hi
        exact absurd hi hnotin
    · have hnL : n ∈ L := by
        rcases List.mem_cons.mp hn with hcase | hcase
        · exact absurd hcase.symm han
        · exact hcase
      exact ih _ n hnL (List.nodup_cons.mp hnd).2
        (fun i hi hie => hinj i (List.mem_cons_of_mem a hi) hie)
        (by rw [List.length_set]; exact hr)

theorem foldl_set_length (idx : Nat → Nat) :
    ∀ (L : List Nat) (g : List Nat),
      (L.foldl (fun g i => g.set (idx i) (i + 1)) g).length = g.length := by
  intro L
  induction L with
  | nil => intro g; rfl
  | cons a L ih =>
    intro g
    rw [List.foldl_cons, ih, List.length_set]

theorem row_major_decode (w x y : Nat) (hx : x < w) :
    (y * w + x) % w = x ∧ (y * w + x) / w = y := by
  constructor
  · rw [Nat.add_comm, Nat.add_mul_mod_self_right, Nat.mod_eq_of_lt hx]
  · rw [Nat.add_comm, Nat.add_mul_div_right _ _ (by omega : 0 < w), Nat.div_eq_of_lt hx,
      Nat.zero_add]

theorem row_major_nat_inj (w x1 y1 x2 y2 : Nat) (hx1 : x1 < w) (hx2 : x2 < w)
    (he : y1 * w + x1 = y2 * w + x2) : x1 = x2 ∧ y1 = y2 := by
  have h1 := row_major_decode w x1 y1 hx1
  have h2 := row_major_decode w x2 y2 hx2
  have hx : x1 = x2 := by rw [← h1.1, he, h2.1]
  have hy : y1 = y2 := by rw [← h1.2, he, h2.2]
  exact ⟨hx, hy⟩

theorem getD_replicate_zero (len j : Nat) :
    (List.replicate len (0 : Nat)).getD j 0 = 0 := by
  rw [List.getD_eq_getElem?_getD, List.getElem?_replicate]
  split <;> rfl

theorem path_to_grid_props (path : List location_t) (w h : Nat) (diagonal : Bool)
    (hp : IsHamPath path w h diagonal) :
    (∀ n, 1 ≤ n → n ≤ w * h → contains_exactly_once (path_to_grid path w h) (w * h) n) ∧
    consecutive_adjacent (path_to_grid path w h) w h diagonal := by
  obtain ⟨hlen, hnd, hbnd, hch⟩ := hp
  have hidxlt : ∀ i, i < path.length →
      (path.getD i default).y * w + (path.getD i default).x < w * h := by
    intro i hi
    have hm := hbnd _ (getD_mem_loc path i hi)
    exact nat_row_major_lt w h _ _ hm.1 hm.2
  have hinj : ∀ i n, i < path.length → n < path.length →
      (path.getD i default).y * w + (path.getD i default).x =
      (path.getD n default).y * w + (path.getD n default).x → i = n := by
    intro i n hi hn he
    have hmi := hbnd _ (getD_mem_loc path i hi)
    have hmn := hbnd _ (getD_mem_loc path n hn)
    obtain ⟨hx, hy⟩ := row_major_nat_inj w _ _ _ _ hmi.1 hmn.1 he
    have hloc : path.getD i default = path.getD n default := by
      have e1 : path.getD i default =
          (⟨(path.getD i default).x, (path.getD i default).y⟩ : location_t) := rfl
      have e2 : path.getD n default =
          (⟨(path.getD n default).x, (path.getD n default).y⟩ : location_t) := rfl
      rw [e1, e2, hx, hy]
    rw [List.getD_eq_getElem?_getD, List.getElem?_eq_getElem hi,
      List.getD_eq_getElem?_getD, List.getElem?_eq_getElem hn] at hloc
    exact (hnd.getElem_inj_iff).mp hloc
  have hval : ∀ i, i < path.length →
      (path_to_grid path w h).getD
        ((path.getD i default).y * w + (path.getD i default).x) 0 = i + 1 := by
    intro i hi
    unfold path_to_grid
    dsimp only
    exact foldl_set_getD_at (fun i => (path.getD i default).y * w + (path.getD i default).x)
      (List.range path.length) _ i (List.mem_range.mpr hi) (List.nodup_range _)
      (fun i2 hi2 hie => hinj i2 i (List.mem_range.mp hi2) hi hie)
      (by rw [List.length_replicate]; exact hidxlt i hi)
  have hzero : ∀ j, (∀ i, i < path.length →
      (path.getD i default).y * w + (path.getD i default).x ≠ j) →
      (path_to_grid path w h).getD j 0 = 0 := by
    intro j hno
    unfold path_to_grid
    dsimp only
    exact (foldl_set_untouched
      (fun i => (path.getD i default).y * w + (path.getD i default).x)
      (List.range path.length) _ j (fun i hi => hno i (List.mem_range.mp hi))).trans
      (getD_replicate_zero _ _)
  constructor
  · intro n h1 h2
    refine ⟨(path.getD (n - 1) default).y * w + (path.getD (n - 1) default).x,
      hidxlt (n - 1) (by rw [hlen]; omega), ?_, ?_⟩
    · have h3 := hval (n - 1) (by rw [hlen]; omega)
      rw [h3]
      omega
    · intro j hj hv
      by_cases hex : ∃ m, m < path.length ∧
          (path.getD m default).y * w + (path.getD m default).x = j
      · obtain ⟨m, hm, hjm⟩ := hex
        have h4 := hval m hm
        rw [hjm] at h4
        have hmn : m = n - 1 := by rw [hv] at h4; omega
        rw [← hjm, hmn]
      · push_neg at hex
        rw [hzero j (fun m hm => hex m hm)] at hv
        omega
  · intro i hi j hj h1 h2
    by_cases hexi : ∃ m, m < path.length ∧
        (path.getD m default).y * w + (path.getD m default).x = i
    · obtain ⟨m, hm, him⟩ := hexi
      by_cases hexj : ∃ m2, m2 < path.length ∧
          (path.getD m2 default).y * w + (path.getD m2 default).x = j
      · obtain ⟨m2, hm2, hjm⟩ := hexj
        have hv1 := hval m hm
        rw [him] at hv1
        have hv2 := hval m2 hm2
        rw [hjm] at hv2
        have hm2m : m2 = m + 1 := by rw [hv2, hv1] at h2; omega
        subst hm2m
        have hchain := List.chain'_iff_get.mp hch m (by omega)
        have hmi := hbnd _ (getD_mem_loc path m hm)
        have hmj := hbnd _ (getD_mem_loc path (m + 1) hm2)
        unfold cell_adjacent
        rw [← him, ← hjm]
        obtain ⟨d1, d2⟩ := row_major_decode w _ _ hmi.1
        obtain ⟨d3, d4⟩ := row_major_decode w _ _ hmj.1
        rw [d1, d2, d3, d4]
        have hg1 : path.getD m default = path.get ⟨m, hm⟩ := by
          rw [List.getD_eq_getElem?_getD, List.getElem?_eq_getElem hm]
          rfl
        have hg2 : path.getD (m + 1) default = path.get ⟨m + 1, hm2⟩ := by
          rw [List.getD_eq_getElem?_getD, List.getElem?_eq_getElem hm2]
          rfl
        rw [hg1, hg2]
        exact hchain
      · push_neg at hexj
        rw [hzero j (fun m2 hm2 => hexj m2 hm2)] at h2
        omega
    · push_neg at hexi
      rw [hzero i (fun m hm => hexi m hm)] at h1
      omega

/-- C3: for any dimensions at least 2 by 2 (area at most 99), any adjacency
mode and any randomness source, the grid built from the sampled path
contains each number `1..area` exactly once, and the cells holding `n` and
`n + 1` are always adjacent under the active mode: every shuffle step of
the sampler preserves the Hamiltonian-path property of the boustrophedon
start path. -/
theorem claim_C3_sampler_hamiltonian (rs : random_state) (w h : Nat) (diagonal : Bool)
    (hw : 2 ≤ w) (hh : 2 ≤ h) (harea : w * h ≤ 99) :
    (∀ n, 1 ≤ n → n ≤ w * h →
      contains_exactly_once (path_to_grid (random_hampath rs w h diagonal).1 w h)
        (w * h) n) ∧
    consecutive_adjacent (path_to_grid (random_hampath rs w h diagonal).1 w h)
      w h diagonal :=
  path_to_grid_props _ w h diagonal (random_hampath_isHamPath rs w h diagonal hw hh)

theorem claim_C3_witness :
    (2 ≤ 2 ∧ 2 * 2 ≤ 99) ∧
    ((∀ n, 1 ≤ n → n ≤ 2 * 2 →
      contains_exactly_once
        (path_to_grid (random_hampath ⟨fun _ => 0, 0⟩ 2 2 false).1 2 2) (2 * 2) n) ∧
    consecutive_adjacent
      (path_to_grid (random_hampath ⟨fun _ => 0, 0⟩ 2 2 false).1 2 2) 2 2 false) :=
  ⟨⟨by decide, by decide⟩,
    claim_C3_sampler_hamiltonian ⟨fun _ => 0, 0⟩ 2 2 false (by decide) (by decide) (by decide)⟩

theorem getD_mem {α : Type} (l : List α) (n : Nat) (d : α) (hn : n < l.length) :
    l.getD n d ∈ l := by
  rw [List.getD_eq_getElem?_getD, List.getElem?_eq_getElem hn]
  exact List.getElem_mem hn

theorem mem_eraseIdx_getElem {α : Type} (l : List α) (i : Nat) (b : α)
    (hb : b ∈ l.eraseIdx i) : ∃ j, ∃ hj : j < l.length, j ≠ i ∧ l[j] = b := by
  obtain ⟨k, hk, hkb⟩ := List.mem_iff_getElem.mp hb
  rw [List.getElem_eraseIdx] at hkb
  by_cases hki : k < i
  · rw [dif_pos hki] at hkb
    have hkl : k < l.length := by
      have := hk
      rw [List.length_eraseIdx] at this
      split at this <;> omega
    exact ⟨k, hkl, by omega, hkb⟩
  · rw [dif_neg hki] at hkb
    have hkl : k + 1 < l.length := by
      have := hk
      rw [List.length_eraseIdx] at this
      split at this <;> omega
    exact ⟨k + 1, hkl, by omega, hkb⟩

theorem mem_set_cases {α : Type} (l : List α) (i : Nat) (a b : α)
    (hb : b ∈ l.set i a) : b = a ∨ ∃ j, ∃ hj : j < l.length, j ≠ i ∧ l[j] = b := by
  obtain ⟨k, hk, hkb⟩ := List.mem_iff_getElem.mp hb
  rw [List.getElem_set] at hkb
  by_cases hki : i = k
  · rw [if_pos hki] at hkb
    exact Or.inl hkb.symm
  · rw [if_neg hki] at hkb
    have hkl : k < l.length := by rw [List.length_set] at hk; exact hk
    exact Or.inr ⟨k, hkl, fun he => hki he.symm, hkb⟩

theorem mem_of_mem_eraseIdx {α : Type} (l : List α) (i : Nat) (b : α)
    (hb : b ∈ l.eraseIdx i) : b ∈ l :=
  (List.eraseIdx_sublist l i).mem hb

theorem pairwise_rel_of_eraseIdx {α : Type} (R : α → α → Prop)
    (hsym : ∀ a b, R a b → R b a) (l : List α) (hp : List.Pairwise R l)
    (i : Nat) (hi : i < l.length) :
    ∀ b ∈ l.eraseIdx i, R l[i] b := by
  intro b hb
  obtain ⟨j, hj, hji, hjb⟩ := mem_eraseIdx_getElem l i b hb
  rcases Nat.lt_or_ge i j with hij | hij
  · rw [← hjb]
    exact List.pairwise_iff_getElem.mp hp i j hi hj hij
  · have hji' : j < i := by omega
    rw [← hjb]
    exact hsym _ _ (List.pairwise_iff_getElem.mp hp j i hj hi hji')

theorem pairwise_set_of {α : Type} (R : α → α → Prop) (l : List α) (i : Nat) (a : α)
    (hp : List.Pairwise R l) (hi : i < l.length)
    (h1 : ∀ b ∈ l.eraseIdx i, R a b) (h2 : ∀ b ∈ l.eraseIdx i, R b a) :
    List.Pairwise R (l.set i a) := by
  rw [List.pairwise_iff_getElem]
  intro j k hj hk hjk
  rw [List.length_set] at hj hk
  rw [List.getElem_set, List.getElem_set]
  have hget : ∀ m, ∀ hm : m < l.length, m ≠ i → l[m] ∈ l.eraseIdx i := by
    intro m hm hmi
    rw [List.mem_iff_getElem]
    rcases Nat.lt_or_ge m i with hlt | hge
    · refine ⟨m, ?_, ?_⟩
      · rw [List.length_eraseIdx, if_pos hi]; omega
      · rw [List.getElem_eraseIdx, dif_pos hlt]
    · have hgt : i < m := by omega
      refine ⟨m - 1, ?_, ?_⟩
      · rw [List.length_eraseIdx, if_pos hi]; omega
      · rw [List.getElem_eraseIdx, dif_neg (by omega)]
        congr 1
        omega
  by_cases hji : i = j
  · rw [if_pos hji]
    rw [if_neg (by omega)]
    exact h1 _ (hget k hk (by omega))
  · rw [if_neg hji]
    by_cases hki : i = k
    · rw [if_pos hki]
      exact h2 _ (hget j hj (by omega))
    · rw [if_neg hki]
      exact List.pairwise_iff_getElem.mp hp j k hj hk hjk

/-- Two gap records have disjoint interiors. -/
def gaps_disjoint (g1 g2 : gap_t) : Prop :=
  ∀ m, g1.n1 < m → m < g1.n2 → ¬(g2.n1 < m ∧ m < g2.n2)

theorem gaps_disjoint_symm (g1 g2 : gap_t) (h : gaps_disjoint g1 g2) :
    gaps_disjoint g2 g1 := by
  intro m h1 h2 ⟨h3, h4⟩
  exact h m h3 h4 ⟨h1, h2⟩

/-- The solver-state soundness invariant for claim C4, relative to the
original input grid `orig`: dimensions fixed, clue cells preserved, values
in range and pairwise distinct, every live gap well anchored with a
nonempty all-missing interior, every missing number covered by a gap,
interiors pairwise disjoint, and every pair of consecutive present numbers
on adjacent cells unless both numbers were already clues of `orig`. -/
structure solver_inv (orig : List Nat) (w h : Nat) (diagonal : Bool)
    (st : solver_state_t) : Prop where
  hw : st.w = w
  hh : st.h = h
  hdiag : st.diagonal = diagonal
  hlen : st.grid.length = w * h
  hclue : ∀ i, i < w * h → orig.getD i 0 ≠ 0 → st.grid.getD i 0 = orig.getD i 0
  hrange : ∀ i, i < w * h → st.grid.getD i 0 ≤ w * h
  huniq : ∀ n i j, 1 ≤ n → i < w * h → j < w * h →
    st.grid.getD i 0 = n → st.grid.getD j 0 = n → i = j
  hgaps : ∀ gp, gp ∈ st.gaps →
    gp.n1 + 1 < gp.n2 ∧
    (gp.l1.x = NO_COORD → gp.n1 = 0) ∧
    (gp.l1.x ≠ NO_COORD → gp.l1.x < w ∧ gp.l1.y < h ∧ 1 ≤ gp.n1 ∧
      st.grid.getD (gp.l1.y * w + gp.l1.x) 0 = gp.n1) ∧
    (gp.l2.x = NO_COORD → gp.n2 = w * h + 1) ∧
    (gp.l2.x ≠ NO_COORD → gp.l2.x < w ∧ gp.l2.y < h ∧ gp.n2 ≤ w * h ∧
      st.grid.getD (gp.l2.y * w + gp.l2.x) 0 = gp.n2) ∧
    ¬(gp.l1.x = NO_COORD ∧ gp.l2.x = NO_COORD) ∧
    (∀ m, gp.n1 < m → m < gp.n2 → ¬ number_present st.grid (w * h) m)
  hcover : ∀ m, 1 ≤ m → m ≤ w * h → ¬ number_present st.grid (w * h) m →
    ∃ gp, gp ∈ st.gaps ∧ gp.n1 < m ∧ m < gp.n2
  hdisj : List.Pairwise gaps_disjoint st.gaps
  hadj : ∀ n i j, 1 ≤ n → i < w * h → j < w * h →
    st.grid.getD i 0 = n → st.grid.getD j 0 = n + 1 →
    cell_adjacent w diagonal i j ∨
    (number_present orig (w * h) n ∧ number_present orig (w * h) (n + 1))

theorem getElem_mem_eraseIdx {α : Type} (l : List α) (i : Nat) (hi : i < l.length)
    (j : Nat) (hj : j < l.length) (hne : j ≠ i) : l[j] ∈ l.eraseIdx i := by
  rw [List.mem_iff_getElem]
  rcases Nat.lt_or_ge j i with hlt | hge
  · refine ⟨j, ?_, ?_⟩
    · rw [List.length_eraseIdx, if_pos hi]; omega
    · rw [List.getElem_eraseIdx, dif_pos hlt]
  · have hgt : i < j := by omega
    refine ⟨j - 1, ?_, ?_⟩
    · rw [List.length_eraseIdx, if_pos hi]; omega
    · rw [List.getElem_eraseIdx, dif_neg (by omega)]
      congr 1
      omega

theorem mem_eraseIdx_to_set {α : Type} (l : List α) (i : Nat) (hi : i < l.length)
    (a b : α) (hb : b ∈ l.eraseIdx i) : b ∈ l.set i a := by
  obtain ⟨j, hj, hji, hjb⟩ := mem_eraseIdx_getElem l i b hb
  rw [List.mem_iff_getElem]
  refine ⟨j, by rw [List.length_set]; exact hj, ?_⟩
  rw [List.getElem_set, if_neg (fun he => hji he.symm)]
  exact hjb

theorem eq_getD_of_not_mem_eraseIdx {α : Type} (l : List α) (i : Nat) (d : α)
    (hi : i < l.length) (a : α) (ha : a ∈ l) (hne : a ∉ l.eraseIdx i) :
    a = l.getD i d := by
  obtain ⟨j, hj, hja⟩ := List.mem_iff_getElem.mp ha
  by_cases hji : j = i
  · subst hji
    have hgd : l.getD j d = l[j] := by
      rw [List.getD_eq_getElem?_getD, List.getElem?_eq_getElem hj]
      rfl
    rw [hgd]
    exact hja.symm
  · exact absurd (hja ▸ getElem_mem_eraseIdx l i hi j hj hji) hne

theorem present_set_mono (grid : List Nat) (area idx v m : Nat) (hm1 : 1 ≤ m)
    (hempty : grid.getD idx 0 = 0) (hm : number_present grid area m) :
    number_present (grid.set idx v) area m := by
  obtain ⟨i, hi, hvi⟩ := hm
  refine ⟨i, hi, ?_⟩
  rw [set_getD_ne _ _ _ _ _ (fun he => by rw [← he, hempty] at hvi; omega)]
  exact hvi

theorem present_set_back (grid : List Nat) (area idx v m : Nat) (hm1 : 1 ≤ m)
    (hmv : m ≠ v) (hm : number_present (grid.set idx v) area m) :
    number_present grid area m := by
  obtain ⟨i, hi, hvi⟩ := hm
  refine ⟨i, hi, ?_⟩
  by_cases hii : idx = i
  · subst hii
    by_cases hlt : idx < grid.length
    · rw [set_getD_self _ _ _ _ hlt] at hvi
      exact absurd hvi.symm hmv
    · rw [List.getD_eq_getElem?_getD, List.getElem?_eq_none (by rw [List.length_set]; omega)]
        at hvi
      simp at hvi
      omega
  · rw [set_getD_ne _ _ _ _ _ hii] at hvi
    exact hvi

theorem present_set_new (grid : List Nat) (area idx v : Nat)
    (hidx : idx < area) (hlen : idx < grid.length) :
    number_present (grid.set idx v) area v :=
  ⟨idx, hidx, set_getD_self _ _ _ _ hlen⟩

theorem distance_comm (x1 y1 x2 y2 : Nat) (d : Bool) :
    distance x1 y1 x2 y2 d = distance x2 y2 x1 y1 d := by
  unfold distance manhattan_distance chebyshev_distance
  rw [Nat.dist_comm x1 x2, Nat.dist_comm y1 y2]

theorem distance_eq_zero (x1 y1 x2 y2 : Nat) (d : Bool)
    (h : distance x1 y1 x2 y2 d = 0) : x1 = x2 ∧ y1 = y2 := by
  unfold distance manhattan_distance chebyshev_distance at h
  rw [nat_dist_eq_sub, nat_dist_eq_sub] at h
  cases d
  · rw [if_neg (by simp)] at h
    omega
  · rw [if_pos rfl] at h
    rw [Nat.max_eq_zero_iff] at h
    omega

theorem grid_set_inv_core (orig : List Nat) (w h : Nat) (diagonal : Bool)
    (st : solver_state_t) (x y v : Nat)
    (hinv : solver_inv orig w h diagonal st)
    (hx : x < w) (hy : y < h)
    (hempty : st.grid.getD (y * w + x) 0 = 0)
    (hv1 : 1 ≤ v) (hva : v ≤ w * h)
    (hfresh : ¬ number_present st.grid (w * h) v)
    (hlow : ∀ j, j < w * h → 1 ≤ v - 1 → st.grid.getD j 0 = v - 1 →
      cell_adjacent w diagonal j (y * w + x))
    (hhigh : ∀ j, j < w * h → st.grid.getD j 0 = v + 1 →
      cell_adjacent w diagonal (y * w + x) j) :
    (st.grid.set (y * w + x) v).length = w * h ∧
    (∀ i, i < w * h → orig.getD i 0 ≠ 0 →
      (st.grid.set (y * w + x) v).getD i 0 = orig.getD i 0) ∧
    (∀ i, i < w * h → (st.grid.set (y * w + x) v).getD i 0 ≤ w * h) ∧
    (∀ n i j, 1 ≤ n → i < w * h → j < w * h →
      (st.grid.set (y * w + x) v).getD i 0 = n →
      (st.grid.set (y * w + x) v).getD j 0 = n → i = j) ∧
    (∀ n i j, 1 ≤ n → i < w * h → j < w * h →
      (st.grid.set (y * w + x) v).getD i 0 = n →
      (st.grid.set (y * w + x) v).getD j 0 = n + 1 →
      cell_adjacent w diagonal i j ∨
      (number_present orig (w * h) n ∧ number_present orig (w * h) (n + 1))) := by
  have hidxa : y * w + x < w * h := nat_row_major_lt w h x y hx hy
  have hidxlen : y * w + x < st.grid.length := by rw [hinv.hlen]; exact hidxa
  have hgid : (st.grid.set (y * w + x) v).getD (y * w + x) 0 = v :=
    set_getD_self _ _ _ _ hidxlen
  have hgne : ∀ i, i ≠ y * w + x →
      (st.grid.set (y * w + x) v).getD i 0 = st.grid.getD i 0 := by
    intro i hne
    exact set_getD_ne _ _ _ _ _ (fun he => hne he.symm)
  refine ⟨by rw [List.length_set]; exact hinv.hlen, ?_, ?_, ?_, ?_⟩
  · intro i hi ho
    by_cases hii : i = y * w + x
    · exfalso
      have hcl := hinv.hclue i hi ho
      rw [hii, hempty] at hcl
      apply ho
      rw [hii]
      exact hcl.symm
    · rw [hgne i hii]
      exact hinv.hclue i hi ho
  · intro i hi
    by_cases hii : i = y * w + x
    · subst hii
      rw [hgid]
      exact hva
    · rw [hgne i hii]
      exact hinv.hrange i hi
  · intro n i j hn hi hj hvi hvj
    by_cases hii : i = y * w + x <;> by_cases hjj : j = y * w + x
    · rw [hii, hjj]
    · exfalso
      rw [hii, hgid] at hvi
      rw [hgne j hjj] at hvj
      rw [← hvi] at hvj
      exact hfresh ⟨j, hj, hvj⟩
    · exfalso
      rw [hjj, hgid] at hvj
      rw [hgne i hii] at hvi
      rw [← hvj] at hvi
      exact hfresh ⟨i, hi, hvi⟩
    · rw [hgne i hii] at hvi
      rw [hgne j hjj] at hvj
      exact hinv.huniq n i j hn hi hj hvi hvj
  · intro n i j hn hi hj hvi hvj
    by_cases hii : i = y * w + x <;> by_cases hjj : j = y * w + x
    · exfalso
      rw [hii, hgid] at hvi
      rw [hjj, hgid] at hvj
      omega
    · -- the new number is n, its successor sits at j
      rw [hii, hgid] at hvi
      rw [hgne j hjj] at hvj
      subst hvi
      left
      rw [hii]
      exact hhigh j hj hvj
    · -- the new number is n + 1, its predecessor sits at i
      rw [hjj, hgid] at hvj
      rw [hgne i hii] at hvi
      left
      rw [hjj]
      have hnv : n = v - 1 := by omega
      exact hlow i hi (by omega) (by rw [← hnv]; exact hvi)
    · rw [hgne i hii] at hvi
      rw [hgne j hjj] at hvj
      exact hinv.hadj n i j hn hi hj hvi hvj

theorem gap_facts_on_set (orig : List Nat) (w h : Nat) (diagonal : Bool)
    (st : solver_state_t) (x y v : Nat)
    (hinv : solver_inv orig w h diagonal st)
    (hempty : st.grid.getD (y * w + x) 0 = 0)
    (gp : gap_t) (hmem : gp ∈ st.gaps)
    (hnotin : ¬(gp.n1 < v ∧ v < gp.n2)) :
    gp.n1 + 1 < gp.n2 ∧
    (gp.l1.x = NO_COORD → gp.n1 = 0) ∧
    (gp.l1.x ≠ NO_COORD → gp.l1.x < w ∧ gp.l1.y < h ∧ 1 ≤ gp.n1 ∧
      (st.grid.set (y * w + x) v).getD (gp.l1.y * w + gp.l1.x) 0 = gp.n1) ∧
    (gp.l2.x = NO_COORD → gp.n2 = w * h + 1) ∧
    (gp.l2.x ≠ NO_COORD → gp.l2.x < w ∧ gp.l2.y < h ∧ gp.n2 ≤ w * h ∧
      (st.grid.set (y * w + x) v).getD (gp.l2.y * w + gp.l2.x) 0 = gp.n2) ∧
    ¬(gp.l1.x = NO_COORD ∧ gp.l2.x = NO_COORD) ∧
    (∀ m, gp.n1 < m → m < gp.n2 →
      ¬ number_present (st.grid.set (y * w + x) v) (w * h) m) := by
  obtain ⟨hn12, hs1, hr1, hs2, hr2, hnb, hint⟩ := hinv.hgaps gp hmem
  refine ⟨hn12, hs1, ?_, hs2, ?_, hnb, ?_⟩
  · intro hx1
    obtain ⟨ha, hb, hc, hd⟩ := hr1 hx1
    refine ⟨ha, hb, hc, ?_⟩
    rw [set_getD_ne _ _ _ _ _ (fun he => by rw [← he, hempty] at hd; omega)]
    exact hd
  · intro hx2
    obtain ⟨ha, hb, hc, hd⟩ := hr2 hx2
    refine ⟨ha, hb, hc, ?_⟩
    rw [set_getD_ne _ _ _ _ _ (fun he => by rw [← he, hempty] at hd; omega)]
    exact hd
  · intro m hm1 hm2 hpres
    have hmv : m ≠ v := fun he => hnotin ⟨by omega, by omega⟩
    exact hint m hm1 hm2 (present_set_back st.grid (w * h) _ v m (by omega) hmv hpres)

theorem place_number_l1_inv (orig : List Nat) (w h : Nat) (diagonal : Bool)
    (st : solver_state_t) (g x y : Nat) (st' : solver_state_t)
    (hw255 : w ≤ 255)
    (hinv : solver_inv orig w h diagonal st)
    (hg : g < st.gaps.length)
    (hl1 : (st.gaps.getD g default).l1.x ≠ NO_COORD)
    (hx : x < w) (hy : y < h)
    (hempty : st.grid.getD (y * w + x) 0 = 0)
    (hadj1 : distance x y (st.gaps.getD g default).l1.x (st.gaps.getD g default).l1.y
      diagonal = 1)
    (hres : place_number_l1 st g x y = some st') :
    solver_inv orig w h diagonal st' := by
  have hnc : NO_COORD = 255 := rfl
  have hmemG : st.gaps.getD g default ∈ st.gaps := getD_mem _ _ _ hg
  obtain ⟨hn12, hs1, hr1, hs2, hr2, hnb, hint⟩ := hinv.hgaps _ hmemG
  obtain ⟨hl1x, hl1y, hn1pos, hl1val⟩ := hr1 hl1
  have hidxa : y * w + x < w * h := nat_row_major_lt w h x y hx hy
  have hidxlen : y * w + x < st.grid.length := by rw [hinv.hlen]; exact hidxa
  have hn2b : (st.gaps.getD g default).n2 ≤ w * h + 1 := by
    by_cases h2 : (st.gaps.getD g default).l2.x = NO_COORD
    · rw [hs2 h2]
    · have := (hr2 h2).2.2.1
      omega
  have hv1 : 1 ≤ (st.gaps.getD g default).n1 + 1 := by omega
  have hva : (st.gaps.getD g default).n1 + 1 ≤ w * h := by omega
  have hfresh : ¬ number_present st.grid (w * h) ((st.gaps.getD g default).n1 + 1) :=
    hint _ (by omega) (by omega)
  have hGel : st.gaps[g] = st.gaps.getD g default := by
    rw [List.getD_eq_getElem?_getD, List.getElem?_eq_getElem hg]
    rfl
  have hdisjG : ∀ b ∈ st.gaps.eraseIdx g, gaps_disjoint (st.gaps.getD g default) b := by
    intro b hb
    rw [← hGel]
    exact pairwise_rel_of_eraseIdx gaps_disjoint gaps_disjoint_symm st.gaps hinv.hdisj g hg b hb
  unfold place_number_l1 at hres
  rw [hinv.hw, hinv.hdiag] at hres
  dsimp only at hres
  split at hres
  · exact Option.noConfusion hres
  case isFalse hfar =>
  split at hres
  · exact Option.noConfusion hres
  case isFalse hblocked =>
  -- the adjacency inputs for the grid core
  have hlow : ∀ j, j < w * h → 1 ≤ (st.gaps.getD g default).n1 + 1 - 1 →
      st.grid.getD j 0 = (st.gaps.getD g default).n1 + 1 - 1 →
      cell_adjacent w diagonal j (y * w + x) := by
    intro j hj hpos hval
    have hjl1 : j = (st.gaps.getD g default).l1.y * w + (st.gaps.getD g default).l1.x := by
      refine hinv.huniq ((st.gaps.getD g default).n1 + 1 - 1) j _ (by omega) hj
        (nat_row_major_lt w h _ _ hl1x hl1y) hval ?_
      rw [show (st.gaps.getD g default).n1 + 1 - 1 = (st.gaps.getD g default).n1 from rfl]
      exact hl1val
    unfold cell_adjacent
    rw [hjl1]
    obtain ⟨d1, d2⟩ := row_major_decode w _ (st.gaps.getD g default).l1.y hl1x
    obtain ⟨d3, d4⟩ := row_major_decode w x y hx
    rw [d1, d2, d3, d4]
    rw [distance_comm]
    exact hadj1
  have hhigh : ∀ j, j < w * h →
      st.grid.getD j 0 = (st.gaps.getD g default).n1 + 1 + 1 →
      cell_adjacent w diagonal (y * w + x) j := by
    intro j hj hval
    by_cases hvn : (st.gaps.getD g default).n1 + 1 + 1 < (st.gaps.getD g default).n2
    · exact absurd ⟨j, hj, hval⟩ (hint _ (by omega) hvn)
    · have hveq : (st.gaps.getD g default).n1 + 1 + 1 = (st.gaps.getD g default).n2 := by
        omega
      by_cases h2 : (st.gaps.getD g default).l2.x = NO_COORD
      · exfalso
        have := hinv.hrange j hj
        rw [hval, hveq, hs2 h2] at this
        omega
      · obtain ⟨hl2x, hl2y, hn2a, hl2val⟩ := hr2 h2
        have hjl2 : j = (st.gaps.getD g default).l2.y * w + (st.gaps.getD g default).l2.x := by
          refine hinv.huniq ((st.gaps.getD g default).n2) j _ (by omega) hj
            (nat_row_major_lt w h _ _ hl2x hl2y) (by rw [← hveq]; exact hval) hl2val
        have hdle : distance x y (st.gaps.getD g default).l2.x
            (st.gaps.getD g default).l2.y diagonal ≤ 1 := by
          by_contra hgt
          exact hfar ⟨h2, by omega⟩
        have hdne : distance x y (st.gaps.getD g default).l2.x
            (st.gaps.getD g default).l2.y diagonal ≠ 0 := by
          intro h0
          obtain ⟨he1, he2⟩ := distance_eq_zero _ _ _ _ _ h0
          rw [← he1, ← he2] at hl2val
          rw [hempty] at hl2val
          omega
        unfold cell_adjacent
        rw [hjl2]
        obtain ⟨d1, d2⟩ := row_major_decode w _ (st.gaps.getD g default).l2.y hl2x
        obtain ⟨d3, d4⟩ := row_major_decode w x y hx
        rw [d3, d4, d1, d2]
        omega
  obtain ⟨hLen, hClue, hRange, hUniq, hAdj⟩ := grid_set_inv_core orig w h diagonal st x y
    ((st.gaps.getD g default).n1 + 1) hinv hx hy hempty hv1 hva hfresh hlow hhigh
  have hpresV : number_present (st.grid.set (y * w + x) ((st.gaps.getD g default).n1 + 1))
      (w * h) ((st.gaps.getD g default).n1 + 1) :=
    present_set_new st.grid (w * h) _ _ hidxa hidxlen
  split at hres
  case isTrue hclose =>
    have hst' := Option.some.inj hres
    rw [← hst']
    refine ⟨rfl, hinv.hh, rfl, hLen, hClue, hRange, hUniq, ?_, ?_, ?_, hAdj⟩
    · -- gaps of the erased list
      intro gp hgp
      have hgpmem : gp ∈ st.gaps := mem_of_mem_eraseIdx _ _ _ hgp
      have hnotin : ¬(gp.n1 < (st.gaps.getD g default).n1 + 1 ∧
          (st.gaps.getD g default).n1 + 1 < gp.n2) :=
        hdisjG gp hgp _ (by omega) (by omega)
      exact gap_facts_on_set orig w h diagonal st x y _ hinv hempty gp hgpmem hnotin
    · -- cover
      intro m hm1 hm2 hmiss
      have hmissold : ¬ number_present st.grid (w * h) m := by
        intro hp
        exact hmiss (present_set_mono st.grid (w * h) _ _ m hm1 hempty hp)
      obtain ⟨gp, hgp, hi1, hi2⟩ := hinv.hcover m hm1 hm2 hmissold
      by_cases hgpe : gp ∈ st.gaps.eraseIdx g
      · exact ⟨gp, hgpe, hi1, hi2⟩
      · exfalso
        have hgpG := eq_getD_of_not_mem_eraseIdx st.gaps g default hg gp hgp hgpe
        rw [hgpG] at hi1 hi2
        have hmv : m = (st.gaps.getD g default).n1 + 1 := by omega
        rw [hmv] at hmiss
        exact hmiss hpresV
    · exact List.Pairwise.sublist (List.eraseIdx_sublist _ _) hinv.hdisj
  case isFalse hnoclose =>
    have hst' := Option.some.inj hres
    rw [← hst']
    refine ⟨rfl, hinv.hh, rfl, hLen, hClue, hRange, hUniq, ?_, ?_, ?_, hAdj⟩
    · intro gp hgp
      rcases mem_set_cases _ _ _ _ hgp with hnew | ⟨j, hj, hjg, hjgp⟩
      · -- the updated gap record
        subst hnew
        refine ⟨?_, ?_, ?_, ?_, ?_, ?_, ?_⟩
        · show (st.gaps.getD g default).n1 + 1 + 1 < (st.gaps.getD g default).n2
          omega
        · intro hxs
          exfalso
          rw [show ({ st.gaps.getD g default with
            n1 := (st.gaps.getD g default).n1 + 1,
            l1 := ⟨x, y⟩ } : gap_t).l1.x = x from rfl] at hxs
          omega
        · intro _
          refine ⟨hx, hy, ?_, ?_⟩
          · show 1 ≤ (st.gaps.getD g default).n1 + 1
            omega
          · show (st.grid.set (y * w + x) ((st.gaps.getD g default).n1 + 1)).getD
              (y * w + x) 0 = (st.gaps.getD g default).n1 + 1
            exact set_getD_self _ _ _ _ hidxlen
        · intro h2
          exact hs2 h2
        · intro h2
          obtain ⟨hl2x, hl2y, hn2a, hl2val⟩ := hr2 h2
          refine ⟨hl2x, hl2y, hn2a, ?_⟩
          rw [set_getD_ne _ _ _ _ _ (fun he => by rw [← he, hempty] at hl2val; omega)]
          exact hl2val
        · rintro ⟨hxs, -⟩
          rw [show ({ st.gaps.getD g default with
            n1 := (st.gaps.getD g default).n1 + 1,
            l1 := ⟨x, y⟩ } : gap_t).l1.x = x from rfl] at hxs
          omega
        · intro m hm1 hm2
          intro hp
          have h5 : (st.gaps.getD g default).n1 + 1 < m := hm1
          have h6 : m < (st.gaps.getD g default).n2 := hm2
          have hmold : number_present st.grid (w * h) m :=
            present_set_back st.grid (w * h) _ _ m (by omega)
              (by show m ≠ (st.gaps.getD g default).n1 + 1; omega) hp
          exact hint m (by omega) h6 hmold
      · -- an untouched gap at another position
        have hgpmem : gp ∈ st.gaps := by rw [← hjgp]; exact List.getElem_mem hj
        have hgpe : gp ∈ st.gaps.eraseIdx g := by
          rw [← hjgp]
          exact getElem_mem_eraseIdx _ _ hg _ hj hjg
        have hnotin : ¬(gp.n1 < (st.gaps.getD g default).n1 + 1 ∧
            (st.gaps.getD g default).n1 + 1 < gp.n2) :=
          hdisjG gp hgpe _ (by omega) (by omega)
        exact gap_facts_on_set orig w h diagonal st x y _ hinv hempty gp hgpmem hnotin
    · intro m hm1 hm2 hmiss
      have hmissold : ¬ number_present st.grid (w * h) m := by
        intro hp
        exact hmiss (present_set_mono st.grid (w * h) _ _ m hm1 hempty hp)
      obtain ⟨gp, hgp, hi1, hi2⟩ := hinv.hcover m hm1 hm2 hmissold
      by_cases hgpe : gp ∈ st.gaps.eraseIdx g
      · exact ⟨gp, mem_eraseIdx_to_set _ _ hg _ _ hgpe, hi1, hi2⟩
      · have hgpG := eq_getD_of_not_mem_eraseIdx st.gaps g default hg gp hgp hgpe
        rw [hgpG] at hi1 hi2
        have hmv : m ≠ (st.gaps.getD g default).n1 + 1 := by
          intro he
          rw [he] at hmiss
          exact hmiss hpresV
        refine ⟨_, List.mem_set st.gaps g hg _, ?_, ?_⟩
        · show (st.gaps.getD g default).n1 + 1 < m
          omega
        · show m < (st.gaps.getD g default).n2
          omega
    · refine pairwise_set_of gaps_disjoint st.gaps g _ hinv.hdisj hg ?_ ?_
      · intro b hb m hm1 hm2
        have h5 : (st.gaps.getD g default).n1 + 1 < m := hm1
        have h6 : m < (st.gaps.getD g default).n2 := hm2
        exact hdisjG b hb m (by omega) h6
      · intro b hb m hm1 hm2 hc
        have h5 : (st.gaps.getD g default).n1 + 1 < m := hc.1
        have h6 : m < (st.gaps.getD g default).n2 := hc.2
        exact gaps_disjoint_symm _ _ (hdisjG b hb) m hm1 hm2 ⟨by omega, h6⟩

theorem place_number_l2_inv (orig : List Nat) (w h : Nat) (diagonal : Bool)
    (st : solver_state_t) (g x y : Nat) (st' : solver_state_t)
    (hw255 : w ≤ 255)
    (hinv : solver_inv orig w h diagonal st)
    (hg : g < st.gaps.length)
    (hl2 : (st.gaps.getD g default).l2.x ≠ NO_COORD)
    (hx : x < w) (hy : y < h)
    (hempty : st.grid.getD (y * w + x) 0 = 0)
    (hadj2 : distance x y (st.gaps.getD g default).l2.x (st.gaps.getD g default).l2.y
      diagonal = 1)
    (hres : place_number_l2 st g x y = some st') :
    solver_inv orig w h diagonal st' := by
  have hnc : NO_COORD = 255 := rfl
  have hmemG : st.gaps.getD g default ∈ st.gaps := getD_mem _ _ _ hg
  obtain ⟨hn12, hs1, hr1, hs2, hr2, hnb, hint⟩ := hinv.hgaps _ hmemG
  obtain ⟨hl2x, hl2y, hn2a, hl2val⟩ := hr2 hl2
  have hidxa : y * w + x < w * h := nat_row_major_lt w h x y hx hy
  have hidxlen : y * w + x < st.grid.length := by rw [hinv.hlen]; exact hidxa
  have hv1 : 1 ≤ (st.gaps.getD g default).n2 - 1 := by omega
  have hva : (st.gaps.getD g default).n2 - 1 ≤ w * h := by omega
  have hfresh : ¬ number_present st.grid (w * h) ((st.gaps.getD g default).n2 - 1) :=
    hint _ (by omega) (by omega)
  have hGel : st.gaps[g] = st.gaps.getD g default := by
    rw [List.getD_eq_getElem?_getD, List.getElem?_eq_getElem hg]
    rfl
  have hdisjG : ∀ b ∈ st.gaps.eraseIdx g, gaps_disjoint (st.gaps.getD g default) b := by
    intro b hb
    rw [← hGel]
    exact pairwise_rel_of_eraseIdx gaps_disjoint gaps_disjoint_symm st.gaps hinv.hdisj g hg b hb
  unfold place_number_l2 at hres
  rw [hinv.hw, hinv.hdiag] at hres
  dsimp only at hres
  split at hres
  · exact Option.noConfusion hres
  case isFalse hfar =>
  split at hres
  · exact Option.noConfusion hres
  case isFalse hblocked =>
  have hlow : ∀ j, j < w * h → 1 ≤ (st.gaps.getD g default).n2 - 1 - 1 →
      st.grid.getD j 0 = (st.gaps.getD g default).n2 - 1 - 1 →
      cell_adjacent w diagonal j (y * w + x) := by
    intro j hj hpos hval
    by_cases hvn : (st.gaps.getD g default).n1 < (st.gaps.getD g default).n2 - 1 - 1
    · exact absurd ⟨j, hj, hval⟩ (hint _ hvn (by omega))
    · have hveq : (st.gaps.getD g default).n2 - 1 - 1 = (st.gaps.getD g default).n1 := by
        omega
      by_cases h1s : (st.gaps.getD g default).l1.x = NO_COORD
      · exfalso
        have h10 := hs1 h1s
        omega
      · obtain ⟨hl1x, hl1y, hn1pos, hl1val⟩ := hr1 h1s
        have hjl1 : j = (st.gaps.getD g default).l1.y * w + (st.gaps.getD g default).l1.x := by
          refine hinv.huniq ((st.gaps.getD g default).n1) j _ (by omega) hj
            (nat_row_major_lt w h _ _ hl1x hl1y) (by rw [← hveq]; exact hval) hl1val
        have hdle : distance x y (st.gaps.getD g default).l1.x
            (st.gaps.getD g default).l1.y diagonal ≤ 1 := by
          by_contra hgt
          exact hfar ⟨h1s, by omega⟩
        have hdne : distance x y (st.gaps.getD g default).l1.x
            (st.gaps.getD g default).l1.y diagonal ≠ 0 := by
          intro h0
          obtain ⟨he1, he2⟩ := distance_eq_zero _ _ _ _ _ h0
          rw [← he1, ← he2] at hl1val
          rw [hempty] at hl1val
          omega
        unfold cell_adjacent
        rw [hjl1]
        obtain ⟨d1, d2⟩ := row_major_decode w _ (st.gaps.getD g default).l1.y hl1x
        obtain ⟨d3, d4⟩ := row_major_decode w x y hx
        rw [d1, d2, d3, d4]
        rw [distance_comm]
        omega
  have hhigh : ∀ j, j < w * h →
      st.grid.getD j 0 = (st.gaps.getD g default).n2 - 1 + 1 →
      cell_adjacent w diagonal (y * w + x) j := by
    intro j hj hval
    have hveq : (st.gaps.getD g default).n2 - 1 + 1 = (st.gaps.getD g default).n2 := by
      omega
    have hjl2 : j = (st.gaps.getD g default).l2.y * w + (st.gaps.getD g default).l2.x := by
      refine hinv.huniq ((st.gaps.getD g default).n2) j _ (by omega) hj
        (nat_row_major_lt w h _ _ hl2x hl2y) (by rw [← hveq]; exact hval) hl2val
    unfold cell_adjacent
    rw [hjl2]
    obtain ⟨d1, d2⟩ := row_major_decode w _ (st.gaps.getD g default).l2.y hl2x
    obtain ⟨d3, d4⟩ := row_major_decode w x y hx
    rw [d3, d4, d1, d2]
    exact hadj2
  obtain ⟨hLen, hClue, hRange, hUniq, hAdj⟩ := grid_set_inv_core orig w h diagonal st x y
    ((st.gaps.getD g default).n2 - 1) hinv hx hy hempty hv1 hva hfresh hlow hhigh
  have hpresV : number_present (st.grid.set (y * w + x) ((st.gaps.getD g default).n2 - 1))
      (w * h) ((st.gaps.getD g default).n2 - 1) :=
    present_set_new st.grid (w * h) _ _ hidxa hidxlen
  split at hres
  case isTrue hclose =>
    have hst' := Option.some.inj hres
    rw [← hst']
    refine ⟨rfl, hinv.hh, rfl, hLen, hClue, hRange, hUniq, ?_, ?_, ?_, hAdj⟩
    · intro gp hgp
      have hgpmem : gp ∈ st.gaps := mem_of_mem_eraseIdx _ _ _ hgp
      have hnotin : ¬(gp.n1 < (st.gaps.getD g default).n2 - 1 ∧
          (st.gaps.getD g default).n2 - 1 < gp.n2) :=
        hdisjG gp hgp _ (by omega) (by omega)
      exact gap_facts_on_set orig w h diagonal st x y _ hinv hempty gp hgpmem hnotin
    · intro m hm1 hm2 hmiss
      have hmissold : ¬ number_present st.grid (w * h) m := by
        intro hp
        exact hmiss (present_set_mono st.grid (w * h) _ _ m hm1 hempty hp)
      obtain ⟨gp, hgp, hi1, hi2⟩ := hinv.hcover m hm1 hm2 hmissold
      by_cases hgpe : gp ∈ st.gaps.eraseIdx g
      · exact ⟨gp, hgpe, hi1, hi2⟩
      · exfalso
        have hgpG := eq_getD_of_not_mem_eraseIdx st.gaps g default hg gp hgp hgpe
        rw [hgpG] at hi1 hi2
        have hmv : m = (st.gaps.getD g default).n2 - 1 := by
          have hcl : (st.gaps.getD g default).n2 - 1 - 1 = (st.gaps.getD g default).n1 :=
            hclose
          omega
        rw [hmv] at hmiss
        exact hmiss hpresV
    · exact List.Pairwise.sublist (List.eraseIdx_sublist _ _) hinv.hdisj
  case isFalse hnoclose =>
    have hst' := Option.some.inj hres
    rw [← hst']
    refine ⟨rfl, hinv.hh, rfl, hLen, hClue, hRange, hUniq, ?_, ?_, ?_, hAdj⟩
    · intro gp hgp
      rcases mem_set_cases _ _ _ _ hgp with hnew | ⟨j, hj, hjg, hjgp⟩
      · subst hnew
        have hnocl : ¬ ((st.gaps.getD g default).n2 - 1 - 1 = (st.gaps.getD g default).n1) :=
          hnoclose
        refine ⟨?_, ?_, ?_, ?_, ?_, ?_, ?_⟩
        · show (st.gaps.getD g default).n1 + 1 < (st.gaps.getD g default).n2 - 1
          omega
        · intro hxs
          exact hs1 hxs
        · intro h1s
          obtain ⟨hl1x, hl1y, hn1pos, hl1val⟩ := hr1 h1s
          refine ⟨hl1x, hl1y, hn1pos, ?_⟩
          rw [set_getD_ne _ _ _ _ _ (fun he => by rw [← he, hempty] at hl1val; omega)]
          exact hl1val
        · intro hxs
          exfalso
          have : x = NO_COORD := hxs
          omega
        · intro _
          refine ⟨hx, hy, ?_, ?_⟩
          · show (st.gaps.getD g default).n2 - 1 ≤ w * h
            omega
          · show (st.grid.set (y * w + x) ((st.gaps.getD g default).n2 - 1)).getD
              (y * w + x) 0 = (st.gaps.getD g default).n2 - 1
            exact set_getD_self _ _ _ _ hidxlen
        · rintro ⟨-, hxs⟩
          have : x = NO_COORD := hxs
          omega
        · intro m hm1 hm2
          intro hp
          have h5 : (st.gaps.getD g default).n1 < m := hm1
          have h6 : m < (st.gaps.getD g default).n2 - 1 := hm2
          have hmold : number_present st.grid (w * h) m :=
            present_set_back st.grid (w * h) _ _ m (by omega)
              (by show m ≠ (st.gaps.getD g default).n2 - 1; omega) hp
          exact hint m h5 (by omega) hmold
      · have hgpmem : gp ∈ st.gaps := by rw [← hjgp]; exact List.getElem_mem hj
        have hgpe : gp ∈ st.gaps.eraseIdx g := by
          rw [← hjgp]
          exact getElem_mem_eraseIdx _ _ hg _ hj hjg
        have hnotin : ¬(gp.n1 < (st.gaps.getD g default).n2 - 1 ∧
            (st.gaps.getD g default).n2 - 1 < gp.n2) :=
          hdisjG gp hgpe _ (by omega) (by omega)
        exact gap_facts_on_set orig w h diagonal st x y _ hinv hempty gp hgpmem hnotin
    · intro m hm1 hm2 hmiss
      have hmissold : ¬ number_present st.grid (w * h) m := by
        intro hp
        exact hmiss (present_set_mono st.grid (w * h) _ _ m hm1 hempty hp)
      obtain ⟨gp, hgp, hi1, hi2⟩ := hinv.hcover m hm1 hm2 hmissold
      by_cases hgpe : gp ∈ st.gaps.eraseIdx g
      · exact ⟨gp, mem_eraseIdx_to_set _ _ hg _ _ hgpe, hi1, hi2⟩
      · have hgpG := eq_getD_of_not_mem_eraseIdx st.gaps g default hg gp hgp hgpe
        rw [hgpG] at hi1 hi2
        have hmv : m ≠ (st.gaps.getD g default).n2 - 1 := by
          intro he
          rw [he] at hmiss
          exact hmiss hpresV
        refine ⟨_, List.mem_set st.gaps g hg _, ?_, ?_⟩
        · show (st.gaps.getD g default).n1 < m
          omega
        · show m < (st.gaps.getD g default).n2 - 1
          omega
    · refine pairwise_set_of gaps_disjoint st.gaps g _ hinv.hdisj hg ?_ ?_
      · intro b hb m hm1 hm2
        have h5 : (st.gaps.getD g default).n1 < m := hm1
        have h6 : m < (st.gaps.getD g default).n2 - 1 := hm2
        exact hdisjG b hb m h5 (by omega)
      · intro b hb m hm1 hm2 hc
        have h5 : (st.gaps.getD g default).n1 < m := hc.1
        have h6 : m < (st.gaps.getD g default).n2 - 1 := hc.2
        exact gaps_disjoint_symm _ _ (hdisjG b hb) m hm1 hm2 ⟨h5, by omega⟩

theorem find_only_move_go_spec (grid : List Nat) (w : Nat) :
    ∀ (cs : List location_t) (acc : Option location_t) (c : location_t),
      find_only_move_go grid w cs acc = some c →
      (c ∈ cs ∧ grid.getD (c.y * w + c.x) 0 = 0) ∨ acc = some c := by
  intro cs
  induction cs with
  | nil => intro acc c hres; exact Or.inr hres
  | cons d cs ih =>
    intro acc c hres
    simp only [find_only_move_go] at hres
    split at hres
    case isTrue hde =>
      cases acc with
      | some a => exact Option.noConfusion hres
      | none =>
        rcases ih (some d) c hres with ⟨hm, he⟩ | hacc
        · exact Or.inl ⟨List.mem_cons_of_mem d hm, he⟩
        · have hdc : d = c := Option.some.inj hacc
          subst hdc
          exact Or.inl ⟨List.mem_cons_self d cs, hde⟩
    case isFalse hde =>
      rcases ih acc c hres with ⟨hm, he⟩ | hacc
      · exact Or.inl ⟨List.mem_cons_of_mem d hm, he⟩
      · exact Or.inr hacc

theorem find_only_move_spec (grid : List Nat) (w h : Nat) (diagonal : Bool) (x y : Nat)
    (hx : x < w) (hy : y < h) (c : location_t)
    (hres : find_only_move grid w h diagonal x y = some c) :
    c.x < w ∧ c.y < h ∧ grid.getD (c.y * w + c.x) 0 = 0 ∧
      distance c.x c.y x y diagonal = 1 := by
  unfold find_only_move at hres
  dsimp only at hres
  rcases find_only_move_go_spec grid w _ none c hres with ⟨hmem, hempty⟩ | hacc
  · refine ⟨?_, ?_, hempty, ?_⟩ <;>
    · simp only [List.mem_append] at hmem
      rcases hmem with ((((h1 | h2) | h3) | h4) | h5)
      · obtain ⟨hp, rfl⟩ := mem_if_single h1
        first
          | (show x - 1 < w; omega)
          | exact hy
          | (show distance (x - 1) y x y diagonal = 1
             exact loc_adjacent_orth diagonal ⟨x - 1, y⟩ ⟨x, y⟩
               (Or.inl ⟨by show Nat.dist (x - 1) x = 1; rw [nat_dist_eq_sub]; omega, rfl⟩))
      · obtain ⟨hp, rfl⟩ := mem_if_single h2
        first
          | (show x + 1 < w; omega)
          | exact hy
          | (show distance (x + 1) y x y diagonal = 1
             exact loc_adjacent_orth diagonal ⟨x + 1, y⟩ ⟨x, y⟩
               (Or.inl ⟨by show Nat.dist (x + 1) x = 1; rw [nat_dist_eq_sub]; omega, rfl⟩))
      · obtain ⟨hp, rfl⟩ := mem_if_single h3
        first
          | exact hx
          | (show y - 1 < h; omega)
          | (show distance x (y - 1) x y diagonal = 1
             exact loc_adjacent_orth diagonal ⟨x, y - 1⟩ ⟨x, y⟩
               (Or.inr ⟨rfl, by show Nat.dist (y - 1) y = 1; rw [nat_dist_eq_sub]; omega⟩))
      · obtain ⟨hp, rfl⟩ := mem_if_single h4
        first
          | exact hx
          | (show y + 1 < h; omega)
          | (show distance x (y + 1) x y diagonal = 1
             exact loc_adjacent_orth diagonal ⟨x, y + 1⟩ ⟨x, y⟩
               (Or.inr ⟨rfl, by show Nat.dist (y + 1) y = 1; rw [nat_dist_eq_sub]; omega⟩))
      · cases diagonal with
        | false =>
          rw [if_neg (by simp)] at h5
          cases h5
        | true =>
          rw [if_pos rfl] at h5
          simp only [List.mem_append] at h5
          rcases h5 with ((h6 | h7) | h8) | h9
          · obtain ⟨hp, rfl⟩ := mem_if_single h6
            first
              | (show x - 1 < w; omega)
              | (show y - 1 < h; omega)
              | (show distance (x - 1) (y - 1) x y true = 1
                 exact loc_adjacent_diag ⟨x - 1, y - 1⟩ ⟨x, y⟩
                   (by show Nat.dist (x - 1) x = 1; rw [nat_dist_eq_sub]; omega)
                   (by show Nat.dist (y - 1) y = 1; rw [nat_dist_eq_sub]; omega))
          · obtain ⟨hp, rfl⟩ := mem_if_single h7
            first
              | (show x + 1 < w; omega)
              | (show y - 1 < h; omega)
              | (show distance (x + 1) (y - 1) x y true = 1
                 exact loc_adjacent_diag ⟨x + 1, y - 1⟩ ⟨x, y⟩
                   (by show Nat.dist (x + 1) x = 1; rw [nat_dist_eq_sub]; omega)
                   (by show Nat.dist (y - 1) y = 1; rw [nat_dist_eq_sub]; omega))
          · obtain ⟨hp, rfl⟩ := mem_if_single h8
            first
              | (show x - 1 < w; omega)
              | (show y + 1 < h; omega)
              | (show distance (x - 1) (y + 1) x y true = 1
                 exact loc_adjacent_diag ⟨x - 1, y + 1⟩ ⟨x, y⟩
                   (by show Nat.dist (x - 1) x = 1; rw [nat_dist_eq_sub]; omega)
                   (by show Nat.dist (y + 1) y = 1; rw [nat_dist_eq_sub]; omega))
          · obtain ⟨hp, rfl⟩ := mem_if_single h9
            first
              | (show x + 1 < w; omega)
              | (show y + 1 < h; omega)
              | (show distance (x + 1) (y + 1) x y true = 1
                 exact loc_adjacent_diag ⟨x + 1, y + 1⟩ ⟨x, y⟩
                   (by show Nat.dist (x + 1) x = 1; rw [nat_dist_eq_sub]; omega)
                   (by show Nat.dist (y + 1) y = 1; rw [nat_dist_eq_sub]; omega))
  · exact Option.noConfusion hacc

theorem do_only_move_inv (orig : List Nat) (w h : Nat) (diagonal : Bool)
    (st : solver_state_t) (g : Nat) (st' : solver_state_t)
    (hw255 : w ≤ 255)
    (hinv : solver_inv orig w h diagonal st)
    (hg : g < st.gaps.length)
    (hres : do_only_move st g = .moved st') :
    solver_inv orig w h diagonal st' := by
  unfold do_only_move at hres
  rw [hinv.hw, hinv.hh, hinv.hdiag] at hres
  dsimp only at hres
  split at hres
  next loc hsome =>
    have hl1 : (st.gaps.getD g default).l1.x ≠ NO_COORD := by
      by_contra hs
      rw [if_neg (fun hne => hne hs)] at hsome
      exact Option.noConfusion hsome
    rw [if_pos hl1] at hsome
    obtain ⟨-, -, hr1, -, -, -, -⟩ := hinv.hgaps _ (getD_mem _ _ _ hg)
    obtain ⟨hl1x, hl1y, -, -⟩ := hr1 hl1
    obtain ⟨hcx, hcy, hcempty, hcdist⟩ :=
      find_only_move_spec st.grid w h diagonal _ _ hl1x hl1y loc hsome
    split at hres
    next st2 hplace =>
      have hst2 : st2 = st' := by
        cases hres
        rfl
      rw [← hst2]
      exact place_number_l1_inv orig w h diagonal st g loc.x loc.y st2 hw255 hinv hg hl1
        hcx hcy hcempty hcdist hplace
    next hplace => exact move_result_t.noConfusion hres
  next hnone =>
    split at hres
    next loc hsome =>
      have hl2 : (st.gaps.getD g default).l2.x ≠ NO_COORD := by
        by_contra hs
        rw [if_neg (fun hne => hne hs)] at hsome
        exact Option.noConfusion hsome
      rw [if_pos hl2] at hsome
      obtain ⟨-, -, -, -, hr2, -, -⟩ := hinv.hgaps _ (getD_mem _ _ _ hg)
      obtain ⟨hl2x, hl2y, -, -⟩ := hr2 hl2
      obtain ⟨hcx, hcy, hcempty, hcdist⟩ :=
        find_only_move_spec st.grid w h diagonal _ _ hl2x hl2y loc hsome
      split at hres
      next st2 hplace =>
        have hst2 : st2 = st' := by
          cases hres
          rfl
        rw [← hst2]
        exact place_number_l2_inv orig w h diagonal st g loc.x loc.y st2 hw255 hinv hg hl2
          hcx hcy hcempty hcdist hplace
      next hplace => exact move_result_t.noConfusion hres
    next hnone2 => exact move_result_t.noConfusion hres

theorem do_straight_path_moved_form (s : solver_state_t) (g : Nat) (gap : gap_t)
    (hgap : s.gaps.getD g default = gap)
    (hx1 : gap.l1.x < s.w) (hy1 : gap.l1.y < s.h)
    (hx2 : gap.l2.x < s.w) (hy2 : gap.l2.y < s.h)
    (hn : gap.n1 < gap.n2)
    (st' : solver_state_t)
    (hres : do_straight_path s g = .moved st') :
    straight_path_applicable s.diagonal gap ∧
    (∀ k, 1 ≤ k → k < gap.n2 - gap.n1 →
      s.grid.getD (straight_line_idx s.w gap.l1 (step_toward gap.l1.x gap.l2.x)
        (step_toward gap.l1.y gap.l2.y) k) 0 = 0) ∧
    st' = { s with
      grid := straight_prefix_grid s.grid s.w gap.l1 (step_toward gap.l1.x gap.l2.x)
        (step_toward gap.l1.y gap.l2.y) gap.n1 (gap.n2 - gap.n1 - 1),
      gaps := s.gaps.eraseIdx g } := by
  have happ : straight_path_applicable s.diagonal gap := by
    by_contra hna
    rw [do_straight_path_not_applicable s g gap hgap hna] at hres
    exact move_result_t.noConfusion hres
  have hinj := straight_line_inj s.w s.h s.diagonal gap hx1 hy1 hx2 hy2 hn happ
  have hfill := do_straight_path_eq_fill s g gap hgap hn happ
  rcases Classical.em (∃ k, 1 ≤ k ∧ k < gap.n2 - gap.n1 ∧
      (s.grid.getD (straight_line_idx s.w gap.l1 (step_toward gap.l1.x gap.l2.x)
          (step_toward gap.l1.y gap.l2.y) k) 0 ≠ 0 ∨
        straight_trip s gap.l1 (step_toward gap.l1.x gap.l2.x)
          (step_toward gap.l1.y gap.l2.y) gap.n1 k)) with hb | hb
  · exfalso
    obtain ⟨k, h1, h2, hk⟩ := hb
    have hrun := straight_fill_run_bad s g gap.l1 (step_toward gap.l1.x gap.l2.x)
      (step_toward gap.l1.y gap.l2.y) gap.n1 (gap.n2 - gap.n1) hinj
      (gap.n2 - gap.n1 - 1) 0 (by omega) ⟨k, by omega, h2, hk⟩
    simp only [straight_prefix_grid, Nat.cast_zero, zero_mul, add_zero, Nat.add_zero] at hrun
    rw [hfill, hrun] at hres
    exact move_result_t.noConfusion hres
  · have hclean : ∀ k, 1 ≤ k → k < gap.n2 - gap.n1 →
        s.grid.getD (straight_line_idx s.w gap.l1 (step_toward gap.l1.x gap.l2.x)
          (step_toward gap.l1.y gap.l2.y) k) 0 = 0 ∧
        ¬ straight_trip s gap.l1 (step_toward gap.l1.x gap.l2.x)
          (step_toward gap.l1.y gap.l2.y) gap.n1 k := by
      intro k h1 h2
      constructor
      · by_contra hne
        exact hb ⟨k, h1, h2, Or.inl hne⟩
      · intro htr
        exact hb ⟨k, h1, h2, Or.inr htr⟩
    have hrun := straight_fill_run_clean s g gap.l1 (step_toward gap.l1.x gap.l2.x)
      (step_toward gap.l1.y gap.l2.y) gap.n1 (gap.n2 - gap.n1) hinj
      (gap.n2 - gap.n1 - 1) 0 (by omega) (fun k hk1 hk2 => hclean k (by omega) hk2)
    simp only [straight_prefix_grid, Nat.cast_zero, zero_mul, add_zero, Nat.add_zero] at hrun
    rw [hfill, hrun] at hres
    have hst' := move_result_t.moved.inj hres
    exact ⟨happ, fun k h1 h2 => (hclean k h1 h2).1, hst'.symm⟩

theorem toNat_row_major_int (w : Nat) (X Y : Int) (hX : 0 ≤ X) (hY : 0 ≤ Y) :
    (Y * w + X).toNat = Y.toNat * w + X.toNat := by
  have h1 : ((Y.toNat * w + X.toNat : Nat) : Int) = Y * w + X := by
    push_cast [Int.toNat_of_nonneg hX, Int.toNat_of_nonneg hY]
    ring
  rw [← h1, Int.toNat_natCast]

theorem straight_line_zero (w : Nat) (l1 : location_t) (sx sy : Int) :
    straight_line_idx w l1 sx sy 0 = l1.y * w + l1.x := by
  unfold straight_line_idx
  rw [Nat.cast_zero, zero_mul, zero_mul, add_zero, add_zero,
    toNat_row_major_int w _ _ (by omega) (by omega), Int.toNat_natCast, Int.toNat_natCast]

theorem straight_line_coords (w h : Nat) (diagonal : Bool) (gap : gap_t)
    (hx1 : gap.l1.x < w) (hy1 : gap.l1.y < h) (hx2 : gap.l2.x < w) (hy2 : gap.l2.y < h)
    (happ : straight_path_applicable diagonal gap) (k : Nat) (hk : k ≤ gap.n2 - gap.n1) :
    ∃ xk yk : Nat, xk < w ∧ yk < h ∧
      ((xk : Int) = (gap.l1.x : Int) + k * step_toward gap.l1.x gap.l2.x) ∧
      ((yk : Int) = (gap.l1.y : Int) + k * step_toward gap.l1.y gap.l2.y) ∧
      straight_line_idx w gap.l1 (step_toward gap.l1.x gap.l2.x)
        (step_toward gap.l1.y gap.l2.y) k = yk * w + xk := by
  obtain ⟨h1, h2, h3, h4⟩ := straight_geometry w h diagonal gap hx1 hy1 hx2 hy2 happ k hk
  refine ⟨((gap.l1.x : Int) + k * step_toward gap.l1.x gap.l2.x).toNat,
    ((gap.l1.y : Int) + k * step_toward gap.l1.y gap.l2.y).toNat,
    by omega, by omega, Int.toNat_of_nonneg h1, Int.toNat_of_nonneg h3, ?_⟩
  unfold straight_line_idx
  exact toNat_row_major_int w _ _ h1 h3

theorem straight_span_dist (diagonal : Bool) (gap : gap_t)
    (happ : straight_path_applicable diagonal gap) :
    (gap.l1.x ≠ gap.l2.x → Nat.dist gap.l1.x gap.l2.x = gap.n2 - gap.n1) ∧
    (gap.l1.y ≠ gap.l2.y → Nat.dist gap.l1.y gap.l2.y = gap.n2 - gap.n1) := by
  obtain ⟨halign, hdist⟩ := happ
  unfold distance manhattan_distance chebyshev_distance at hdist
  cases diagonal with
  | false =>
    rw [if_neg (by simp)] at halign
    rw [if_neg (by simp)] at hdist
    constructor
    · intro hne
      rcases halign with hxx | hyy
      · exact absurd hxx hne
      · have h0 : Nat.dist gap.l1.y gap.l2.y = 0 := by rw [hyy]; exact Nat.dist_self _
        omega
    · intro hne
      rcases halign with hxx | hyy
      · have h0 : Nat.dist gap.l1.x gap.l2.x = 0 := by rw [hxx]; exact Nat.dist_self _
        omega
      · exact absurd hyy hne
  | true =>
    rw [if_pos rfl] at halign
    rw [if_pos rfl] at hdist
    exact ⟨fun _ => by omega, fun _ => by omega⟩

theorem straight_line_last (w h : Nat) (diagonal : Bool) (gap : gap_t)
    (hx1 : gap.l1.x < w) (hy1 : gap.l1.y < h) (hx2 : gap.l2.x < w) (hy2 : gap.l2.y < h)
    (happ : straight_path_applicable diagonal gap) :
    straight_line_idx w gap.l1 (step_toward gap.l1.x gap.l2.x)
      (step_toward gap.l1.y gap.l2.y) (gap.n2 - gap.n1) = gap.l2.y * w + gap.l2.x := by
  obtain ⟨hdx, hdy⟩ := straight_span_dist diagonal gap happ
  have hex : (gap.l1.x : Int) + ((gap.n2 - gap.n1 : Nat) : Int) * step_toward gap.l1.x gap.l2.x
      = gap.l2.x := by
    rcases Nat.lt_trichotomy gap.l1.x gap.l2.x with hlt | heq | hgt
    · rw [step_toward_pos hlt]
      have hd := hdx (by omega)
      rw [nat_dist_eq_sub] at hd
      omega
    · rw [heq, step_toward_self, mul_zero, add_zero]
    · rw [step_toward_neg hgt]
      have hd := hdx (by omega)
      rw [nat_dist_eq_sub] at hd
      omega
  have hey : (gap.l1.y : Int) + ((gap.n2 - gap.n1 : Nat) : Int) * step_toward gap.l1.y gap.l2.y
      = gap.l2.y := by
    rcases Nat.lt_trichotomy gap.l1.y gap.l2.y with hlt | heq | hgt
    · rw [step_toward_pos hlt]
      have hd := hdy (by omega)
      rw [nat_dist_eq_sub] at hd
      omega
    · rw [heq, step_toward_self, mul_zero, add_zero]
    · rw [step_toward_neg hgt]
      have hd := hdy (by omega)
      rw [nat_dist_eq_sub] at hd
      omega
  unfold straight_line_idx
  rw [hex, hey, toNat_row_major_int w _ _ (by omega) (by omega),
    Int.toNat_natCast, Int.toNat_natCast]

theorem straight_consec_adjacent (w h : Nat) (diagonal : Bool) (gap : gap_t)
    (hx1 : gap.l1.x < w) (hy1 : gap.l1.y < h) (hx2 : gap.l2.x < w) (hy2 : gap.l2.y < h)
    (hn : gap.n1 < gap.n2)
    (happ : straight_path_applicable diagonal gap) (k : Nat)
    (hk : k + 1 ≤ gap.n2 - gap.n1) :
    cell_adjacent w diagonal
      (straight_line_idx w gap.l1 (step_toward gap.l1.x gap.l2.x)
        (step_toward gap.l1.y gap.l2.y) k)
      (straight_line_idx w gap.l1 (step_toward gap.l1.x gap.l2.x)
        (step_toward gap.l1.y gap.l2.y) (k + 1)) := by
  obtain ⟨xk, yk, hxkw, hykh, hxk, hyk, hidxk⟩ :=
    straight_line_coords w h diagonal gap hx1 hy1 hx2 hy2 happ k (by omega)
  obtain ⟨xk1, yk1, hxk1w, hyk1h, hxk1, hyk1, hidxk1⟩ :=
    straight_line_coords w h diagonal gap hx1 hy1 hx2 hy2 happ (k + 1) hk
  rw [hidxk, hidxk1]
  unfold cell_adjacent
  rw [(row_major_decode w xk yk hxkw).1, (row_major_decode w xk yk hxkw).2,
      (row_major_decode w xk1 yk1 hxk1w).1, (row_major_decode w xk1 yk1 hxk1w).2]
  have hspan1 : 1 ≤ gap.n2 - gap.n1 := by omega
  have hxs : (xk1 : Int) = (xk : Int) + step_toward gap.l1.x gap.l2.x := by
    rw [hxk1, hxk]
    push_cast
    ring
  have hys : (yk1 : Int) = (yk : Int) + step_toward gap.l1.y gap.l2.y := by
    rw [hyk1, hyk]
    push_cast
    ring
  have hdx01 : (gap.l1.x = gap.l2.x ∧ Nat.dist xk xk1 = 0) ∨
      (gap.l1.x ≠ gap.l2.x ∧ Nat.dist xk xk1 = 1) := by
    rcases step_toward_cases gap.l1.x gap.l2.x with hsx | hsx | hsx
    · refine Or.inr ⟨fun he => ?_, ?_⟩
      · rw [he, step_toward_self] at hsx
        exact absurd hsx (by decide)
      · rw [hsx] at hxs
        rw [nat_dist_eq_sub]
        omega
    · refine Or.inr ⟨fun he => ?_, ?_⟩
      · rw [he, step_toward_self] at hsx
        exact absurd hsx (by decide)
      · rw [hsx] at hxs
        rw [nat_dist_eq_sub]
        omega
    · refine Or.inl ⟨hsx.2, ?_⟩
      rw [hsx.1] at hxs
      rw [nat_dist_eq_sub]
      omega
  have hdy01 : (gap.l1.y = gap.l2.y ∧ Nat.dist yk yk1 = 0) ∨
      (gap.l1.y ≠ gap.l2.y ∧ Nat.dist yk yk1 = 1) := by
    rcases step_toward_cases gap.l1.y gap.l2.y with hsy | hsy | hsy
    · refine Or.inr ⟨fun he => ?_, ?_⟩
      · rw [he, step_toward_self] at hsy
        exact absurd hsy (by decide)
      · rw [hsy] at hys
        rw [nat_dist_eq_sub]
        omega
    · refine Or.inr ⟨fun he => ?_, ?_⟩
      · rw [he, step_toward_self] at hsy
        exact absurd hsy (by decide)
      · rw [hsy] at hys
        rw [nat_dist_eq_sub]
        omega
    · refine Or.inl ⟨hsy.2, ?_⟩
      rw [hsy.1] at hys
      rw [nat_dist_eq_sub]
      omega
  have hnotboth : ¬(gap.l1.x = gap.l2.x ∧ gap.l1.y = gap.l2.y) := by
    rintro ⟨hxx, hyy⟩
    have hz : distance gap.l1.x gap.l1.y gap.l2.x gap.l2.y diagonal = 0 := by
      unfold distance manhattan_distance chebyshev_distance
      rw [hxx, hyy, Nat.dist_self, Nat.dist_self]
      cases diagonal <;> simp
    have hd := happ.2
    omega
  unfold distance manhattan_distance chebyshev_distance
  cases diagonal with
  | false =>
    rw [if_neg (by simp)]
    rcases hdx01 with ⟨hxe, hd0⟩ | ⟨hxne, hd1⟩
    · rcases hdy01 with ⟨hye, he0⟩ | ⟨hyne, he1⟩
      · exact absurd ⟨hxe, hye⟩ hnotboth
      · rw [hd0, he1]
    · rcases hdy01 with ⟨hye, he0⟩ | ⟨hyne, he1⟩
      · rw [hd1, he0]
      · exfalso
        obtain ⟨halign, -⟩ := happ
        rw [if_neg (by simp)] at halign
        rcases halign with hxx | hyy
        · exact hxne hxx
        · exact hyne hyy
  | true =>
    rw [if_pos rfl]
    rcases hdx01 with ⟨hxe, hd0⟩ | ⟨hxne, hd1⟩
    · rcases hdy01 with ⟨hye, he0⟩ | ⟨hyne, he1⟩
      · exact absurd ⟨hxe, hye⟩ hnotboth
      · exfalso
        obtain ⟨halign, -⟩ := happ
        rw [if_pos rfl] at halign
        have h0 : Nat.dist gap.l1.x gap.l2.x = 0 := by rw [hxe]; exact Nat.dist_self _
        rw [h0] at halign
        rw [nat_dist_eq_sub] at halign
        exact hyne (by omega)
    · rcases hdy01 with ⟨hye, he0⟩ | ⟨hyne, he1⟩
      · exfalso
        obtain ⟨halign, -⟩ := happ
        rw [if_pos rfl] at halign
        have h0 : Nat.dist gap.l1.y gap.l2.y = 0 := by rw [hye]; exact Nat.dist_self _
        rw [h0] at halign
        rw [nat_dist_eq_sub] at halign
        exact hxne (by omega)
      · rw [hd1, he1]
        exact max_self 1

theorem do_straight_path_anchors_real (orig : List Nat) (w h : Nat) (diagonal : Bool)
    (st : solver_state_t) (g : Nat) (st' : solver_state_t)
    (harea : w * h ≤ 99)
    (hinv : solver_inv orig w h diagonal st)
    (hg : g < st.gaps.length)
    (hres : do_straight_path st g = .moved st') :
    (st.gaps.getD g default).l1.x ≠ NO_COORD ∧
    (st.gaps.getD g default).l2.x ≠ NO_COORD := by
  have hnc : NO_COORD = 255 := rfl
  have hmemG : st.gaps.getD g default ∈ st.gaps := getD_mem _ _ _ hg
  obtain ⟨hn12, hs1, hr1, hs2, hr2, hnb, hint⟩ := hinv.hgaps _ hmemG
  by_cases h1 : (st.gaps.getD g default).l1.x = NO_COORD
  · exfalso
    have hn10 : (st.gaps.getD g default).n1 = 0 := hs1 h1
    have h2 : (st.gaps.getD g default).l2.x ≠ NO_COORD := fun h2e => hnb ⟨h1, h2e⟩
    obtain ⟨hl2x, hl2y, hn2b, -⟩ := hr2 h2
    have hh1 : 1 ≤ h := by omega
    have hw99 : w ≤ 99 := by
      have := Nat.le_mul_of_pos_right w hh1
      omega
    have hna : ¬ straight_path_applicable st.diagonal (st.gaps.getD g default) := by
      rintro ⟨halign, hdist⟩
      unfold distance manhattan_distance chebyshev_distance at hdist
      cases hB : st.diagonal
      · rw [hB] at halign hdist
        rw [if_neg (by simp)] at halign
        rw [if_neg (by simp)] at hdist
        rcases halign with hxx | hyy
        · rw [h1, hnc] at hxx
          omega
        · rw [hyy, Nat.dist_self] at hdist
          rw [h1, hnc, nat_dist_eq_sub] at hdist
          omega
      · rw [hB] at halign hdist
        rw [if_pos rfl] at hdist
        rw [h1, hnc, nat_dist_eq_sub, nat_dist_eq_sub] at hdist
        omega
    rw [do_straight_path_not_applicable st g _ rfl hna] at hres
    exact move_result_t.noConfusion hres
  · refine ⟨h1, ?_⟩
    by_cases h2 : (st.gaps.getD g default).l2.x = NO_COORD
    · exfalso
      have hn2v : (st.gaps.getD g default).n2 = w * h + 1 := hs2 h2
      obtain ⟨hl1x, hl1y, hn1b, -⟩ := hr1 h1
      have hh1 : 1 ≤ h := by omega
      have hw99 : w ≤ 99 := by
        have := Nat.le_mul_of_pos_right w hh1
        omega
      have hna : ¬ straight_path_applicable st.diagonal (st.gaps.getD g default) := by
        rintro ⟨halign, hdist⟩
        unfold distance manhattan_distance chebyshev_distance at hdist
        cases hB : st.diagonal
        · rw [hB] at halign hdist
          rw [if_neg (by simp)] at halign
          rw [if_neg (by simp)] at hdist
          rcases halign with hxx | hyy
          · rw [h2, hnc] at hxx
            omega
          · rw [hyy, Nat.dist_self] at hdist
            rw [h2, hnc, nat_dist_eq_sub] at hdist
            omega
        · rw [hB] at halign hdist
          rw [if_pos rfl] at hdist
          rw [h2, hnc, nat_dist_eq_sub, nat_dist_eq_sub] at hdist
          omega
      rw [do_straight_path_not_applicable st g _ rfl hna] at hres
      exact move_result_t.noConfusion hres
    · exact h2

theorem straight_fill_preserves_inv (orig : List Nat) (w h : Nat) (diagonal : Bool)
    (st : solver_state_t) (g : Nat) (G : gap_t)
    (hinv : solver_inv orig w h diagonal st)
    (hg : g < st.gaps.length)
    (hGdef : st.gaps.getD g default = G)
    (happ : straight_path_applicable diagonal G)
    (hclean : ∀ k, 1 ≤ k → k < G.n2 - G.n1 →
      st.grid.getD (straight_line_idx w G.l1 (step_toward G.l1.x G.l2.x)
        (step_toward G.l1.y G.l2.y) k) 0 = 0)
    (h1 : G.l1.x ≠ NO_COORD) (h2 : G.l2.x ≠ NO_COORD) :
    solver_inv orig w h diagonal { st with
      grid := straight_prefix_grid st.grid w G.l1 (step_toward G.l1.x G.l2.x)
        (step_toward G.l1.y G.l2.y) G.n1 (G.n2 - G.n1 - 1),
      gaps := st.gaps.eraseIdx g } := by
  have hmemG : G ∈ st.gaps := by rw [← hGdef]; exact getD_mem _ _ _ hg
  obtain ⟨hn12, hs1, hr1, hs2, hr2, hnb, hint⟩ := hinv.hgaps G hmemG
  obtain ⟨hl1x, hl1y, hn1pos, hl1val⟩ := hr1 h1
  obtain ⟨hl2x, hl2y, hn2b, hl2val⟩ := hr2 h2
  have hn : G.n1 < G.n2 := by omega
  have hspan2 : 2 ≤ G.n2 - G.n1 := by omega
  have hinj := straight_line_inj w h diagonal G hl1x hl1y hl2x hl2y hn happ
  have hgeom := straight_geometry w h diagonal G hl1x hl1y hl2x hl2y happ
  have hline_lt : ∀ k, k ≤ G.n2 - G.n1 →
      straight_line_idx w G.l1 (step_toward G.l1.x G.l2.x)
        (step_toward G.l1.y G.l2.y) k < w * h := by
    intro k hk
    obtain ⟨ha, hb, hc, hd⟩ := hgeom k hk
    unfold straight_line_idx
    exact row_major_lt w h _ _ ha hb hc hd
  have hline0 := straight_line_zero w G.l1 (step_toward G.l1.x G.l2.x)
    (step_toward G.l1.y G.l2.y)
  have hlineS := straight_line_last w h diagonal G hl1x hl1y hl2x hl2y happ
  have hadjline : ∀ k, k + 1 ≤ G.n2 - G.n1 → cell_adjacent w diagonal
      (straight_line_idx w G.l1 (step_toward G.l1.x G.l2.x)
        (step_toward G.l1.y G.l2.y) k)
      (straight_line_idx w G.l1 (step_toward G.l1.x G.l2.x)
        (step_toward G.l1.y G.l2.y) (k + 1)) :=
    fun k hk => straight_consec_adjacent w h diagonal G hl1x hl1y hl2x hl2y hn happ k hk
  have hl1lt : G.l1.y * w + G.l1.x < w * h := nat_row_major_lt w h G.l1.x G.l1.y hl1x hl1y
  have hl2lt : G.l2.y * w + G.l2.x < w * h := nat_row_major_lt w h G.l2.x G.l2.y hl2x hl2y
  have hFlen : (straight_prefix_grid st.grid w G.l1 (step_toward G.l1.x G.l2.x)
      (step_toward G.l1.y G.l2.y) G.n1 (G.n2 - G.n1 - 1)).length = w * h := by
    rw [straight_prefix_grid_length]
    exact hinv.hlen
  have hwrit : ∀ m, 1 ≤ m → m ≤ G.n2 - G.n1 - 1 →
      (straight_prefix_grid st.grid w G.l1 (step_toward G.l1.x G.l2.x)
        (step_toward G.l1.y G.l2.y) G.n1 (G.n2 - G.n1 - 1)).getD
        (straight_line_idx w G.l1 (step_toward G.l1.x G.l2.x)
          (step_toward G.l1.y G.l2.y) m) 0 = G.n1 + m := by
    intro m hm1 hm2
    exact straight_prefix_grid_getD_written st.grid w G.l1 _ _ G.n1 (G.n2 - G.n1 - 1)
      m hm1 hm2 (fun a b ha hb he => hinj a b (by omega) (by omega) he)
      (by rw [hinv.hlen]; exact hline_lt m (by omega))
  have huntouch : ∀ i, (∀ m, 1 ≤ m → m ≤ G.n2 - G.n1 - 1 →
      i ≠ straight_line_idx w G.l1 (step_toward G.l1.x G.l2.x)
        (step_toward G.l1.y G.l2.y) m) →
      (straight_prefix_grid st.grid w G.l1 (step_toward G.l1.x G.l2.x)
        (step_toward G.l1.y G.l2.y) G.n1 (G.n2 - G.n1 - 1)).getD i 0 =
        st.grid.getD i 0 :=
    fun i hi => straight_prefix_grid_getD_untouched st.grid w G.l1 _ _ G.n1
      (G.n2 - G.n1 - 1) i hi
  have huntouch_nonzero : ∀ i, st.grid.getD i 0 ≠ 0 →
      (straight_prefix_grid st.grid w G.l1 (step_toward G.l1.x G.l2.x)
        (step_toward G.l1.y G.l2.y) G.n1 (G.n2 - G.n1 - 1)).getD i 0 =
        st.grid.getD i 0 := by
    intro i hnz
    refine huntouch i (fun m hm1 hm2 he => hnz ?_)
    rw [he]
    exact hclean m hm1 (by omega)
  have hclass : ∀ i, (∃ m, 1 ≤ m ∧ m ≤ G.n2 - G.n1 - 1 ∧
      i = straight_line_idx w G.l1 (step_toward G.l1.x G.l2.x)
        (step_toward G.l1.y G.l2.y) m) ∨
      (straight_prefix_grid st.grid w G.l1 (step_toward G.l1.x G.l2.x)
        (step_toward G.l1.y G.l2.y) G.n1 (G.n2 - G.n1 - 1)).getD i 0 =
        st.grid.getD i 0 := by
    intro i
    rcases Classical.em (∃ m, 1 ≤ m ∧ m ≤ G.n2 - G.n1 - 1 ∧
        i = straight_line_idx w G.l1 (step_toward G.l1.x G.l2.x)
          (step_toward G.l1.y G.l2.y) m) with he | he
    · exact Or.inl he
    · exact Or.inr (huntouch i (fun m hm1 hm2 hieq => he ⟨m, hm1, hm2, hieq⟩))
  have hGel : st.gaps[g] = G := by
    rw [← hGdef, List.getD_eq_getElem?_getD, List.getElem?_eq_getElem hg]
    rfl
  have hdisjG : ∀ b ∈ st.gaps.eraseIdx g, gaps_disjoint G b := by
    intro b hb
    rw [← hGel]
    exact pairwise_rel_of_eraseIdx gaps_disjoint gaps_disjoint_symm st.gaps hinv.hdisj g hg b hb
  refine ⟨hinv.hw, hinv.hh, hinv.hdiag, hFlen, ?_, ?_, ?_, ?_, ?_, ?_, ?_⟩
  · -- clue preservation
    intro i hi hne
    have hso := hinv.hclue i hi hne
    show (straight_prefix_grid st.grid w G.l1 (step_toward G.l1.x G.l2.x)
      (step_toward G.l1.y G.l2.y) G.n1 (G.n2 - G.n1 - 1)).getD i 0 = orig.getD i 0
    rw [huntouch_nonzero i (by rw [hso]; exact hne)]
    exact hso
  · -- range
    intro i hi
    show (straight_prefix_grid st.grid w G.l1 (step_toward G.l1.x G.l2.x)
      (step_toward G.l1.y G.l2.y) G.n1 (G.n2 - G.n1 - 1)).getD i 0 ≤ w * h
    rcases hclass i with ⟨m, hm1, hm2, hieq⟩ | hui
    · rw [hieq, hwrit m hm1 hm2]
      omega
    · rw [hui]
      exact hinv.hrange i hi
  · -- uniqueness
    intro n i j hn1' hi hj hfi hfj
    have hfi' : (straight_prefix_grid st.grid w G.l1 (step_toward G.l1.x G.l2.x)
      (step_toward G.l1.y G.l2.y) G.n1 (G.n2 - G.n1 - 1)).getD i 0 = n := hfi
    have hfj' : (straight_prefix_grid st.grid w G.l1 (step_toward G.l1.x G.l2.x)
      (step_toward G.l1.y G.l2.y) G.n1 (G.n2 - G.n1 - 1)).getD j 0 = n := hfj
    rcases hclass i with ⟨mi, hmi1, hmi2, hieq⟩ | hui
    · rw [hieq, hwrit mi hmi1 hmi2] at hfi'
      rcases hclass j with ⟨mj, hmj1, hmj2, hjeq⟩ | huj
      · rw [hjeq, hwrit mj hmj1 hmj2] at hfj'
        have hmm : mi = mj := by omega
        rw [hieq, hjeq, hmm]
      · exfalso
        rw [huj] at hfj'
        exact hint n (by omega) (by omega) ⟨j, hj, hfj'⟩
    · rcases hclass j with ⟨mj, hmj1, hmj2, hjeq⟩ | huj
      · exfalso
        rw [hjeq, hwrit mj hmj1 hmj2] at hfj'
        rw [hui] at hfi'
        exact hint n (by omega) (by omega) ⟨i, hi, hfi'⟩
      · rw [hui] at hfi'
        rw [huj] at hfj'
        exact hinv.huniq n i j hn1' hi hj hfi' hfj'
  · -- per-gap facts for the surviving gaps
    intro gp hmem'
    have hmem : gp ∈ st.gaps := mem_of_mem_eraseIdx _ _ _ hmem'
    obtain ⟨gn12, gs1, gr1, gs2, gr2, gnb, gint⟩ := hinv.hgaps gp hmem
    have hdgp : gaps_disjoint G gp := hdisjG gp hmem'
    refine ⟨gn12, gs1, ?_, gs2, ?_, gnb, ?_⟩
    · intro hx
      obtain ⟨ga, gb, gc, gd⟩ := gr1 hx
      refine ⟨ga, gb, gc, ?_⟩
      show (straight_prefix_grid st.grid w G.l1 (step_toward G.l1.x G.l2.x)
        (step_toward G.l1.y G.l2.y) G.n1 (G.n2 - G.n1 - 1)).getD
        (gp.l1.y * w + gp.l1.x) 0 = gp.n1
      rw [huntouch_nonzero _ (by rw [gd]; omega)]
      exact gd
    · intro hx
      obtain ⟨ga, gb, gc, gd⟩ := gr2 hx
      refine ⟨ga, gb, gc, ?_⟩
      show (straight_prefix_grid st.grid w G.l1 (step_toward G.l1.x G.l2.x)
        (step_toward G.l1.y G.l2.y) G.n1 (G.n2 - G.n1 - 1)).getD
        (gp.l2.y * w + gp.l2.x) 0 = gp.n2
      rw [huntouch_nonzero _ (by rw [gd]; omega)]
      exact gd
    · intro m hma hmb hpres
      unfold number_present at hpres
      obtain ⟨i, hi, hival⟩ := hpres
      rcases hclass i with ⟨mi, hmi1, hmi2, hieq⟩ | hui
      · rw [hieq, hwrit mi hmi1 hmi2] at hival
        exact hdgp m (by omega) (by omega) ⟨hma, hmb⟩
      · rw [hui] at hival
        exact gint m hma hmb ⟨i, hi, hival⟩
  · -- coverage
    intro m hm1 hm2 hmiss
    have hmissold : ¬ number_present st.grid (w * h) m := by
      intro hp
      unfold number_present at hp
      obtain ⟨i, hi, hival⟩ := hp
      refine hmiss ⟨i, hi, ?_⟩
      show (straight_prefix_grid st.grid w G.l1 (step_toward G.l1.x G.l2.x)
        (step_toward G.l1.y G.l2.y) G.n1 (G.n2 - G.n1 - 1)).getD i 0 = m
      rw [huntouch_nonzero i (by rw [hival]; omega)]
      exact hival
    obtain ⟨gp, hgp, hi1, hi2⟩ := hinv.hcover m hm1 hm2 hmissold
    by_cases hgpe : gp ∈ st.gaps.eraseIdx g
    · exact ⟨gp, hgpe, hi1, hi2⟩
    · exfalso
      have hgpG := eq_getD_of_not_mem_eraseIdx st.gaps g default hg gp hgp hgpe
      rw [hgpG, hGdef] at hi1 hi2
      refine hmiss ⟨straight_line_idx w G.l1 (step_toward G.l1.x G.l2.x)
        (step_toward G.l1.y G.l2.y) (m - G.n1), hline_lt _ (by omega), ?_⟩
      show (straight_prefix_grid st.grid w G.l1 (step_toward G.l1.x G.l2.x)
        (step_toward G.l1.y G.l2.y) G.n1 (G.n2 - G.n1 - 1)).getD
        (straight_line_idx w G.l1 (step_toward G.l1.x G.l2.x)
          (step_toward G.l1.y G.l2.y) (m - G.n1)) 0 = m
      rw [hwrit (m - G.n1) (by omega) (by omega)]
      omega
  · -- disjointness
    exact List.Pairwise.sublist (List.eraseIdx_sublist _ _) hinv.hdisj
  · -- adjacency of consecutive values
    intro n i j hn1' hi hj hfi hfj
    have hfi' : (straight_prefix_grid st.grid w G.l1 (step_toward G.l1.x G.l2.x)
      (step_toward G.l1.y G.l2.y) G.n1 (G.n2 - G.n1 - 1)).getD i 0 = n := hfi
    have hfj' : (straight_prefix_grid st.grid w G.l1 (step_toward G.l1.x G.l2.x)
      (step_toward G.l1.y G.l2.y) G.n1 (G.n2 - G.n1 - 1)).getD j 0 = n + 1 := hfj
    rcases hclass i with ⟨mi, hmi1, hmi2, hieq⟩ | hui
    · rw [hieq, hwrit mi hmi1 hmi2] at hfi'
      rcases hclass j with ⟨mj, hmj1, hmj2, hjeq⟩ | huj
      · -- both on the line: consecutive indices
        rw [hjeq, hwrit mj hmj1 hmj2] at hfj'
        have hmm : mj = mi + 1 := by omega
        left
        rw [hieq, hjeq, hmm]
        exact hadjline mi (by omega)
      · -- j off the line holds n1+mi+1
        rw [huj] at hfj'
        by_cases hmiS : mi = G.n2 - G.n1 - 1
        · -- n+1 = n2, so j is the far anchor cell
          have hjn2 : st.grid.getD j 0 = G.n2 := by rw [hfj']; omega
          have hjl2 : j = G.l2.y * w + G.l2.x :=
            hinv.huniq G.n2 j _ (by omega) hj hl2lt hjn2 hl2val
          left
          rw [hieq, hjl2, ← hlineS, hmiS]
          have hSS : G.n2 - G.n1 = (G.n2 - G.n1 - 1) + 1 := by omega
          rw [hSS]
          exact hadjline (G.n2 - G.n1 - 1) (by omega)
        · -- n+1 is interior, contradiction with missing interior
          exfalso
          exact hint (n + 1) (by omega) (by omega) ⟨j, hj, hfj'⟩
    · rcases hclass j with ⟨mj, hmj1, hmj2, hjeq⟩ | huj
      · -- i off the line holds n1+mj-1
        rw [hjeq, hwrit mj hmj1 hmj2] at hfj'
        rw [hui] at hfi'
        by_cases hmj1e : mj = 1
        · -- n = n1, so i is the near anchor cell
          have hin1 : st.grid.getD i 0 = G.n1 := by rw [hfi']; omega
          have hil1 : i = G.l1.y * w + G.l1.x :=
            hinv.huniq G.n1 i _ (by omega) hi hl1lt hin1 hl1val
          left
          rw [hil1, hjeq, ← hline0, hmj1e]
          exact hadjline 0 (by omega)
        · -- n is interior, contradiction with missing interior
          exfalso
          exact hint n (by omega) (by omega) ⟨i, hi, hfi'⟩
      · rw [hui] at hfi'
        rw [huj] at hfj'
        exact hinv.hadj n i j hn1' hi hj hfi' hfj'

theorem do_straight_path_inv (orig : List Nat) (w h : Nat) (diagonal : Bool)
    (st : solver_state_t) (g : Nat) (st' : solver_state_t)
    (harea : w * h ≤ 99)
    (hinv : solver_inv orig w h diagonal st)
    (hg : g < st.gaps.length)
    (hres : do_straight_path st g = .moved st') :
    solver_inv orig w h diagonal st' := by
  obtain ⟨h1, h2⟩ := do_straight_path_anchors_real orig w h diagonal st g st' harea hinv hg hres
  have hmemG : st.gaps.getD g default ∈ st.gaps := getD_mem _ _ _ hg
  obtain ⟨hn12, hs1, hr1, hs2, hr2, hnb, hint⟩ := hinv.hgaps _ hmemG
  obtain ⟨hl1x, hl1y, hn1pos, hl1val⟩ := hr1 h1
  obtain ⟨hl2x, hl2y, hn2b, hl2val⟩ := hr2 h2
  obtain ⟨happ, hclean, hst'⟩ := do_straight_path_moved_form st g _ rfl
    (by rw [hinv.hw]; exact hl1x) (by rw [hinv.hh]; exact hl1y)
    (by rw [hinv.hw]; exact hl2x) (by rw [hinv.hh]; exact hl2y)
    (by omega) st' hres
  rw [hinv.hw] at hclean
  rw [hinv.hdiag] at happ
  rw [hst']
  convert straight_fill_preserves_inv orig w h diagonal st g _ hinv hg rfl happ hclean h1 h2
    using 2
  rw [hinv.hw]

theorem do_necessary_moves_go_inv (orig : List Nat) (w h : Nat) (diagonal : Bool)
    (hw255 : w ≤ 255) (harea : w * h ≤ 99) :
    ∀ fuel st g changed st',
      solver_inv orig w h diagonal st →
      do_necessary_moves_go fuel st g changed = some (some st') →
      solver_inv orig w h diagonal st' := by
  intro fuel
  induction fuel with
  | zero =>
    intro st g changed st' hinv hres
    exact Option.noConfusion hres
  | succ fuel ih =>
    intro st g changed st' hinv hres
    unfold do_necessary_moves_go at hres
    split at hres
    case isTrue hglt =>
      split at hres
      case h_1 hsp =>
        exact Option.noConfusion (Option.some.inj hres)
      case h_2 st2 hsp =>
        exact ih st2 g true st'
          (do_straight_path_inv orig w h diagonal st g st2 harea hinv hglt hsp) hres
      case h_3 hsp =>
        split at hres
        case h_1 hom =>
          exact Option.noConfusion (Option.some.inj hres)
        case h_2 st2 hom =>
          exact ih st2 g true st'
            (do_only_move_inv orig w h diagonal st g st2 hw255 hinv hglt hom) hres
        case h_3 hom =>
          exact ih st (g + 1) changed st' hinv hres
    case isFalse hgge =>
      split at hres
      case isTrue hch =>
        exact ih st 0 false st' hinv hres
      case isFalse hch =>
        cases hres
        exact hinv

theorem do_necessary_moves_inv (orig : List Nat) (w h : Nat) (diagonal : Bool)
    (fuel : Nat) (st st' : solver_state_t)
    (hw255 : w ≤ 255) (harea : w * h ≤ 99)
    (hinv : solver_inv orig w h diagonal st)
    (hres : do_necessary_moves fuel st = some (some st')) :
    solver_inv orig w h diagonal st' := by
  unfold do_necessary_moves at hres
  exact do_necessary_moves_go_inv orig w h diagonal hw255 harea fuel st 0 false st' hinv hres

theorem sort_gaps_inv (orig : List Nat) (w h : Nat) (diagonal : Bool)
    (st : solver_state_t)
    (hinv : solver_inv orig w h diagonal st) :
    solver_inv orig w h diagonal { st with gaps := sort_gaps diagonal st.gaps } := by
  have hperm : List.Perm (sort_gaps diagonal st.gaps) st.gaps :=
    List.perm_insertionSort _ st.gaps
  refine ⟨hinv.hw, hinv.hh, hinv.hdiag, hinv.hlen, hinv.hclue, hinv.hrange, hinv.huniq,
    ?_, ?_, ?_, hinv.hadj⟩
  · intro gp hmem
    exact hinv.hgaps gp (hperm.mem_iff.mp hmem)
  · intro m hm1 hm2 hmiss
    obtain ⟨gp, hgp, hi1, hi2⟩ := hinv.hcover m hm1 hm2 hmiss
    exact ⟨gp, hperm.mem_iff.mpr hgp, hi1, hi2⟩
  · exact (List.Perm.pairwise_iff
      (fun hab => gaps_disjoint_symm _ _ hab) hperm.symm).mp hinv.hdisj

theorem init_solver_inv (grid : List Nat) (w h : Nat) (diagonal : Bool)
    (steps_limit : Int) (st : solver_state_t) (longest : Nat)
    (hw255 : w ≤ 255)
    (hglen : grid.length = w * h)
    (hvals : ∀ i, i < w * h → grid.getD i 0 ≤ w * h)
    (hguniq : ∀ n i j, 1 ≤ n → i < w * h → j < w * h →
      grid.getD i 0 = n → grid.getD j 0 = n → i = j)
    (hnz : ∃ i, i < w * h ∧ grid.getD i 0 ≠ 0)
    (hres : init_solver_state grid w h diagonal steps_limit = some (st, longest)) :
    solver_inv grid w h diagonal st := by
  obtain ⟨gaps, longest', hcg, hpair, hginfo, hiff, hanchor⟩ :=
    compute_gaps_sound grid w h hw255 hvals hnz
  unfold init_solver_state at hres
  rw [hcg] at hres
  have hst : st = ⟨w, h, diagonal, steps_limit, grid, gaps⟩ := by
    cases hres
    rfl
  subst hst
  refine ⟨rfl, rfl, rfl, hglen, fun i hi hne => rfl, hvals, hguniq, ?_, ?_, ?_, ?_⟩
  · intro gp hmem
    obtain ⟨hn12, hn2b⟩ := hginfo gp hmem
    obtain ⟨hiff1, hre1, hiff2, hre2⟩ := hanchor gp hmem
    refine ⟨hn12, fun hx => hiff1.mp hx, ?_, fun hx => hiff2.mp hx, ?_, ?_, ?_⟩
    · intro hx
      obtain ⟨ha, hb, hc⟩ := hre1 hx
      have hn10 : gp.n1 ≠ 0 := fun h0 => hx (hiff1.mpr h0)
      exact ⟨ha, hb, by omega, hc⟩
    · intro hx
      obtain ⟨ha, hb, hc⟩ := hre2 hx
      have hn2e : gp.n2 ≠ w * h + 1 := fun h0 => hx (hiff2.mpr h0)
      exact ⟨ha, hb, by omega, hc⟩
    · rintro ⟨hx1, hx2⟩
      obtain ⟨i0, hi0, hv0⟩ := hnz
      have hn10 : gp.n1 = 0 := hiff1.mp hx1
      have hn2e : gp.n2 = w * h + 1 := hiff2.mp hx2
      have hv1 : 1 ≤ grid.getD i0 0 := Nat.one_le_iff_ne_zero.mpr hv0
      have hvle : grid.getD i0 0 ≤ w * h := hvals i0 hi0
      have hmiss := (hiff (grid.getD i0 0) hv1 hvle).mpr
        ⟨gp, hmem, by omega, by omega⟩
      exact hmiss ⟨i0, hi0, rfl⟩
    · intro m hma hmb
      have hm1 : 1 ≤ m := by omega
      have hm2 : m ≤ w * h := by omega
      exact (hiff m hm1 hm2).mpr ⟨gp, hmem, hma, hmb⟩
  · intro m hm1 hm2 hmiss
    exact (hiff m hm1 hm2).mp hmiss
  · exact List.Pairwise.imp
      (fun hle m h1 h2 hc => by omega) hpair
  · intro n i j hn1 hi hj hfi hfj
    exact Or.inr ⟨⟨i, hi, hfi⟩, ⟨j, hj, hfj⟩⟩

theorem solver_inv_final (orig : List Nat) (w h : Nat) (diagonal : Bool)
    (st : solver_state_t)
    (hinv : solver_inv orig w h diagonal st)
    (hempty : st.gaps.length = 0) :
    st.grid.length = w * h ∧
    (∀ i, i < w * h → orig.getD i 0 ≠ 0 → st.grid.getD i 0 = orig.getD i 0) ∧
    (∀ n, n ≤ w * h → 1 ≤ n → contains_exactly_once st.grid (w * h) n) ∧
    (∀ n i j, 1 ≤ n → i < w * h → j < w * h →
      st.grid.getD i 0 = n → st.grid.getD j 0 = n + 1 →
      cell_adjacent w diagonal i j ∨
      (number_present orig (w * h) n ∧ number_present orig (w * h) (n + 1))) := by
  have hnil : st.gaps = [] := List.length_eq_zero.mp hempty
  refine ⟨hinv.hlen, hinv.hclue, ?_, hinv.hadj⟩
  intro n hn2 hn1
  have hpres : number_present st.grid (w * h) n := by
    by_contra hmiss
    obtain ⟨gp, hgp, -, -⟩ := hinv.hcover n hn1 hn2 hmiss
    rw [hnil] at hgp
    exact absurd hgp (List.not_mem_nil gp)
  unfold number_present at hpres
  obtain ⟨i, hi, hival⟩ := hpres
  exact ⟨i, hi, hival, fun j hj hjval => hinv.huniq n j i hn1 hj hi hjval hival⟩

theorem recursive_step_candidates_spec (w h : Nat) (diagonal : Bool) (x y : Nat)
    (hx : x < w) (hy : y < h) (c : location_t)
    (hc : c ∈ recursive_step_candidates w h diagonal x y) :
    c.x < w ∧ c.y < h ∧ distance c.x c.y x y diagonal = 1 := by
  unfold recursive_step_candidates at hc
  rcases List.mem_append.mp hc with hc4 | hcE
  · rcases List.mem_append.mp hc4 with hc3 | hD
    · rcases List.mem_append.mp hc3 with hc2 | hC
      · rcases List.mem_append.mp hc2 with hA | hB
        · obtain ⟨hcond, hceq⟩ := mem_if_single hA
          rw [hceq]
          refine ⟨by show x - 1 < w; omega, by show y < h; omega, ?_⟩
          show distance (x - 1) y x y diagonal = 1
          unfold distance manhattan_distance chebyshev_distance
          rw [nat_dist_eq_sub, nat_dist_eq_sub]
          cases diagonal
          · rw [if_neg (by simp)]
            omega
          · rw [if_pos rfl]
            omega
        · obtain ⟨hcond, hceq⟩ := mem_if_single hB
          rw [hceq]
          refine ⟨by show x < w; omega, by show y - 1 < h; omega, ?_⟩
          show distance x (y - 1) x y diagonal = 1
          unfold distance manhattan_distance chebyshev_distance
          rw [nat_dist_eq_sub, nat_dist_eq_sub]
          cases diagonal
          · rw [if_neg (by simp)]
            omega
          · rw [if_pos rfl]
            omega
      · obtain ⟨hcond, hceq⟩ := mem_if_single hC
        rw [hceq]
        refine ⟨by show x + 1 < w; omega, by show y < h; omega, ?_⟩
        show distance (x + 1) y x y diagonal = 1
        unfold distance manhattan_distance chebyshev_distance
        rw [nat_dist_eq_sub, nat_dist_eq_sub]
        cases diagonal
        · rw [if_neg (by simp)]
          omega
        · rw [if_pos rfl]
          omega
    · obtain ⟨hcond, hceq⟩ := mem_if_single hD
      rw [hceq]
      refine ⟨by show x < w; omega, by show y + 1 < h; omega, ?_⟩
      show distance x (y + 1) x y diagonal = 1
      unfold distance manhattan_distance chebyshev_distance
      rw [nat_dist_eq_sub, nat_dist_eq_sub]
      cases diagonal
      · rw [if_neg (by simp)]
        omega
      · rw [if_pos rfl]
        omega
  · cases hEd : diagonal
    · rw [hEd] at hcE
      rw [if_neg (by simp)] at hcE
      cases hcE
    · rw [hEd] at hcE
      rw [if_pos rfl] at hcE
      rcases List.mem_append.mp hcE with hcE3 | hE4
      · rcases List.mem_append.mp hcE3 with hcE2 | hE3
        · rcases List.mem_append.mp hcE2 with hE1 | hE2
          · obtain ⟨hcond, hceq⟩ := mem_if_single hE1
            rw [hceq]
            refine ⟨by show x - 1 < w; omega, by show y - 1 < h; omega, ?_⟩
            show distance (x - 1) (y - 1) x y true = 1
            unfold distance manhattan_distance chebyshev_distance
            rw [if_pos rfl, nat_dist_eq_sub, nat_dist_eq_sub]
            omega
          · obtain ⟨hcond, hceq⟩ := mem_if_single hE2
            rw [hceq]
            refine ⟨by show x - 1 < w; omega, by show y + 1 < h; exact hcond.2, ?_⟩
            show distance (x - 1) (y + 1) x y true = 1
            unfold distance manhattan_distance chebyshev_distance
            rw [if_pos rfl, nat_dist_eq_sub, nat_dist_eq_sub]
            omega
        · obtain ⟨hcond, hceq⟩ := mem_if_single hE3
          rw [hceq]
          refine ⟨by show x + 1 < w; exact hcond.1, by show y - 1 < h; omega, ?_⟩
          show distance (x + 1) (y - 1) x y true = 1
          unfold distance manhattan_distance chebyshev_distance
          rw [if_pos rfl, nat_dist_eq_sub, nat_dist_eq_sub]
          omega
      · obtain ⟨hcond, hceq⟩ := mem_if_single hE4
        rw [hceq]
        refine ⟨by show x + 1 < w; exact hcond.1, by show y + 1 < h; exact hcond.2, ?_⟩
        show distance (x + 1) (y + 1) x y true = 1
        unfold distance manhattan_distance chebyshev_distance
        rw [if_pos rfl, nat_dist_eq_sub, nat_dist_eq_sub]
        omega

/-- The threaded solution slot is sound: any recorded grid is a full valid
numbering preserving the original clues, with consecutive pairs adjacent
unless both numbers were already clues of the original grid. -/
def sol_ok (orig : List Nat) (w h : Nat) (diagonal : Bool)
    (sol : Option (List Nat)) : Prop :=
  ∀ s, sol = some s →
    s.length = w * h ∧
    (∀ i, i < w * h → orig.getD i 0 ≠ 0 → s.getD i 0 = orig.getD i 0) ∧
    (∀ n, n ≤ w * h → 1 ≤ n → contains_exactly_once s (w * h) n) ∧
    (∀ n i j, 1 ≤ n → i < w * h → j < w * h →
      s.getD i 0 = n → s.getD j 0 = n + 1 →
      cell_adjacent w diagonal i j ∨
      (number_present orig (w * h) n ∧ number_present orig (w * h) (n + 1)))

theorem foldl_preserves {α β : Type} (P : β → Prop) (f : β → α → β) :
    ∀ (l : List α) (b : β), P b → (∀ a ∈ l, ∀ x, P x → P (f x a)) → P (l.foldl f b) := by
  intro l
  induction l with
  | nil => intro b hb _; exact hb
  | cons a l ih =>
    intro b hb hf
    exact ih (f b a) (hf a (List.mem_cons_self a l) b hb)
      (fun a' ha' x hx => hf a' (List.mem_cons_of_mem a ha') x hx)

theorem do_recursive_solve_step_ok (orig : List Nat) (w h : Nat) (diagonal : Bool)
    (hw255 : w ≤ 255)
    (recur : solver_state_t → Option (List Nat) → Bool → Nat →
      Option (Bool × Option (List Nat) × Bool × Nat))
    (hrecur : ∀ s so mu stp r, solver_inv orig w h diagonal s →
      sol_ok orig w h diagonal so → recur s so mu stp = some r →
      sol_ok orig w h diagonal r.2.1)
    (st : solver_state_t) (use_l1 : Bool)
    (hinv : solver_inv orig w h diagonal st)
    (hg0 : 0 < st.gaps.length)
    (hanchor : if use_l1 = true then (st.gaps.getD 0 default).l1.x ≠ NO_COORD
      else (st.gaps.getD 0 default).l2.x ≠ NO_COORD)
    (c : location_t) (hcx : c.x < w) (hcy : c.y < h)
    (hcdist : distance c.x c.y
      (if use_l1 = true then (st.gaps.getD 0 default).l1.x
        else (st.gaps.getD 0 default).l2.x)
      (if use_l1 = true then (st.gaps.getD 0 default).l1.y
        else (st.gaps.getD 0 default).l2.y)
      diagonal = 1)
    (acc : Option (Bool × Option (List Nat) × Bool × Nat))
    (hacc : ∀ r, acc = some r → sol_ok orig w h diagonal r.2.1) :
    ∀ r, do_recursive_solve_step recur st use_l1 acc c = some r →
      sol_ok orig w h diagonal r.2.1 := by
  intro r hr
  unfold do_recursive_solve_step at hr
  cases acc with
  | none => exact Option.noConfusion hr
  | some tup =>
    obtain ⟨fin, solu, mul2, stp2⟩ := tup
    dsimp only at hr
    split at hr
    case isTrue hfin => exact hacc r hr
    case isFalse hfin =>
    split at hr
    case isTrue hocc => exact hacc r hr
    case isFalse hocc =>
    have hempty : st.grid.getD (c.y * w + c.x) 0 = 0 := by
      have he := not_not.mp hocc
      rw [hinv.hw] at he
      exact he
    split at hr
    case h_1 hplace => exact hacc r hr
    case h_2 st3 hplace =>
      have hinv3 : solver_inv orig w h diagonal st3 := by
        cases hu : use_l1
        · rw [hu] at hplace hanchor hcdist
          rw [if_neg (by simp)] at hplace
          rw [if_neg (by simp)] at hanchor
          rw [if_neg (by simp), if_neg (by simp)] at hcdist
          exact place_number_l2_inv orig w h diagonal st 0 c.x c.y st3 hw255 hinv hg0
            hanchor hcx hcy hempty hcdist hplace
        · rw [hu] at hplace hanchor hcdist
          rw [if_pos rfl] at hplace
          rw [if_pos rfl] at hanchor
          rw [if_pos rfl, if_pos rfl] at hcdist
          exact place_number_l1_inv orig w h diagonal st 0 c.x c.y st3 hw255 hinv hg0
            hanchor hcx hcy hempty hcdist hplace
      rcases hrx : recur st3 solu mul2 stp2 with - | tr
      · rw [hrx] at hr
        exact Option.noConfusion hr
      · obtain ⟨fin2, sol2, m2, s2⟩ := tr
        rw [hrx] at hr
        dsimp only at hr
        have hsolu : sol_ok orig w h diagonal solu := hacc (fin, solu, mul2, stp2) rfl
        have hsol2 : sol_ok orig w h diagonal sol2 :=
          hrecur st3 solu mul2 stp2 (fin2, sol2, m2, s2) hinv3 hsolu hrx
        split at hr
        · cases hr
          exact hsol2
        · cases hr
          exact hsol2
